import Mathlib

/-!
# ir-engine: the inverted index and its query evaluator

A shallow embedding of `src/InvertedIndex.cpp` (with `include/InvertedIndex.h`) and of the
build pipeline of `main.cpp`, followed by theorems about it.

Conventions of the embedding.

* A line is a `List Char`; a character stands for the byte with the same code.  A token is a
  `String`.
* `std::unordered_map` is an association list with at most one entry per key; `mapFind` is
  `find`, `mapAssign` is `m[k] = v`.  The iteration order of the real container is
  unspecified; the list order stands for it, and the theorems speak through lookups, sums and
  permutations wherever the order would show.
* `std::vector` is a `List`; reading or writing outside the vector is undefined behaviour in
  the source and makes the embedded operation return `none`, as does `back()` of an empty
  list and an iterator outside its range.
* `float` arithmetic is exact arithmetic in a linearly ordered field `F`; `log2` and `sqrt` of
  `<math.h>` are parameters of the weighting pass.  A division by zero has no meaning in the
  embedding; the theorems show the divisors positive where they state a quotient.  Counters
  of type `int` that only count occurrences are natural numbers.
* `std::sort` and `std::nth_element` are parameters of the query evaluator, constrained in
  the theorems by the postconditions the C++ standard gives them.
-/

set_option linter.unusedSectionVars false

namespace IREngine

/-! ## Associative containers -/

/-- The member function `find` of `unordered_map`: the value stored under `k`, if any. -/
def mapFind {κ β : Type} [DecidableEq κ] (k : κ) : List (κ × β) → Option β
  | [] => none
  | (k', v) :: m => if k' = k then some v else mapFind k m

/-- The assignment `m[k] = v` of `unordered_map`: overwrite the entry of `k`, or create it. -/
def mapAssign {κ β : Type} [DecidableEq κ] (k : κ) (v : β) : List (κ × β) → List (κ × β)
  | [] => [(k, v)]
  | (k', v') :: m => if k' = k then (k', v) :: m else (k', v') :: mapAssign k v m

/-- Read `v[i]` of a `vector` with an `int` index; `none` outside the vector. -/
def vecGet {β : Type} (v : List β) (i : Int) : Option β :=
  if 0 ≤ i then v.get? i.toNat else none

/-- Write `v[i] = x` of a `vector` with an `int` index; `none` outside the vector. -/
def vecSet {β : Type} (v : List β) (i : Int) (x : β) : Option (List β) :=
  if 0 ≤ i ∧ i.toNat < v.length then some (v.set i.toNat x) else none

/-! ## Data model (`InvertedIndex.h`) -/

/-- A term of the dictionary: a token, a `string`. -/
abbrev Word := String

/-- The struct `DocWordData`: one posting of a word in a document. -/
structure DocWordData (F : Type) where
  docID : Int
  TF : F
  freq : Nat
  positions : List Nat
deriving DecidableEq, Repr

/-- The private state of class `InvertedIndex`. -/
structure InvertedIndex (F : Type) where
  dictionary : List (Word × List (DocWordData F))
  IDF : List (Word × F)
  docsMaxFreq : List Nat
  docsMagnitudes : List F
deriving DecidableEq, Repr

variable {F : Type} [LinearOrderedField F]

/-- The constructor `InvertedIndex(totalDocs)`: empty maps, both vectors resized to
`totalDocs` zeros. -/
def InvertedIndex.new (totalDocs : Nat) : InvertedIndex F :=
  { dictionary := [], IDF := [],
    docsMaxFreq := List.replicate totalDocs 0,
    docsMagnitudes := List.replicate totalDocs 0 }

/-! ## Building a shard -/

/-- The posting pushed by cases a and b of `add`. -/
def freshPosting (documentID : Int) (posInDoc : Nat) : DocWordData F :=
  { docID := documentID, TF := 0, freq := 1, positions := [posInDoc] }

/-- Case c of `add`: `freq++` and `positions.push_back(posInDoc)` on a posting. -/
def bumpPosting (p : DocWordData F) (posInDoc : Nat) : DocWordData F :=
  { p with freq := p.freq + 1, positions := p.positions ++ [posInDoc] }

/-- The method `add(word, documentID, posInDoc)`.  `back()` of an empty postings list is
undefined: `none`. -/
def add (idx : InvertedIndex F) (word : Word) (documentID : Int) (posInDoc : Nat) :
    Option (InvertedIndex F) :=
  match mapFind word idx.dictionary with
  | none =>
    some { idx with dictionary := mapAssign word [freshPosting documentID posInDoc] idx.dictionary }
  | some entries =>
    match entries.getLast? with
    | none => none
    | some last =>
      let entries' :=
        if last.docID ≠ documentID then entries ++ [freshPosting documentID posInDoc]
        else entries.dropLast ++ [bumpPosting last posInDoc]
      some { idx with dictionary := mapAssign word entries' idx.dictionary }

/-- One character through the loop body of `convertToLowerCase`. -/
def convertChar (c : Char) : Char :=
  if ('a' ≤ c ∧ c ≤ 'z') ∨ c = ' ' ∨ ('0' ≤ c ∧ c ≤ '9') then c
  else if 'A' ≤ c ∧ c ≤ 'Z' then Char.ofNat (c.toNat + 32)
  else ' '

/-- The method `convertToLowerCase(line)`. -/
def convertToLowerCase (line : List Char) : List Char :=
  line.map convertChar

/-- The characters `operator>>` on a `string` treats as separators (`isspace`). -/
def isSpace (c : Char) : Bool :=
  c = ' ' || (9 ≤ c.toNat && c.toNat ≤ 13)

/-- Reading `istream_iterator<string>` to the end, with `cur` the characters of the token
being read. -/
def splitAux : List Char → List Char → List Word
  | [], cur => if cur = [] then [] else [String.mk cur]
  | c :: cs, cur =>
    if isSpace c then
      if cur = [] then splitAux cs [] else String.mk cur :: splitAux cs []
    else splitAux cs (cur ++ [c])

/-- The tokens `copy(istream_iterator<string>(temp), ...)` puts into `tokens`. -/
def splitTokens (line : List Char) : List Word :=
  splitAux line []

/-- The token vector of `addDocument` and `executeQuery`: lower-case, then split. -/
def tokenize (line : List Char) : List Word :=
  splitTokens (convertToLowerCase line)

/-- The loop `for i in [i, i + tokens.size())` of `addDocument`: `add(tokens[i], docID, i)`. -/
def addTokens (idx : InvertedIndex F) (docID : Int) : Nat → List Word → Option (InvertedIndex F)
  | _, [] => some idx
  | i, w :: ws => (add idx w docID i).bind (fun idx' => addTokens idx' docID (i + 1) ws)

/-- The method `addDocument(documentLine, docID)`. -/
def addDocument (idx : InvertedIndex F) (documentLine : List Char) (docID : Int) :
    Option (InvertedIndex F) :=
  addTokens idx docID 0 (tokenize documentLine)

/-- The method `calculateDocMaxFreq`, inner loop body on one posting. -/
def maxFreqStep (mf : List Nat) (p : DocWordData F) : Option (List Nat) :=
  match vecGet mf p.docID with
  | none => none
  | some cur => if cur < p.freq then vecSet mf p.docID p.freq else some mf

/-- The method `calculateDocMaxFreq`. -/
def calculateDocMaxFreq (idx : InvertedIndex F) : Option (InvertedIndex F) :=
  (idx.dictionary.foldlM
      (fun (mf : List Nat) (e : Word × List (DocWordData F)) => e.2.foldlM maxFreqStep mf)
      idx.docsMaxFreq).map
    (fun mf => { idx with docsMaxFreq := mf })

/-- The method `calculateTF`, inner loop body: `TF = 1.0 * freq / docsMaxFreq[docID]`. -/
def tfStep (mf : List Nat) (p : DocWordData F) : Option (DocWordData F) :=
  (vecGet mf p.docID).map (fun (m : Nat) => { p with TF := (p.freq : F) / (m : F) })

/-- The method `calculateTF`. -/
def calculateTF (idx : InvertedIndex F) : Option (InvertedIndex F) :=
  (idx.dictionary.mapM
      (fun (e : Word × List (DocWordData F)) =>
        (e.2.mapM (tfStep idx.docsMaxFreq)).map (fun es => (e.1, es)))).map
    (fun d => { idx with dictionary := d })

/-! ## Merging shards -/

/-- The first loop of `joinIndex`, one word of the other index: splice its postings at the
end of this index's list for the word. -/
def spliceWord (dict : List (Word × List (DocWordData F))) (e : Word × List (DocWordData F)) :
    List (Word × List (DocWordData F)) :=
  match mapFind e.1 dict with
  | none => mapAssign e.1 ([] ++ e.2) dict
  | some l => mapAssign e.1 (l ++ e.2) dict

/-- The second loop of `joinIndex`: copy the positive entries of the other vector, from
position `i` on. -/
def transferMaxFreq : List Nat → Nat → List Nat → Option (List Nat)
  | mf, _, [] => some mf
  | mf, i, o :: os =>
    if 0 < o then
      if i < mf.length then transferMaxFreq (mf.set i o) (i + 1) os else none
    else transferMaxFreq mf (i + 1) os

/-- The method `joinIndex(otherIndex)`, as the new state of the destination.  (The source's
postings lists are left empty by `splice`; the source is not used again.) -/
def joinIndex (idx other : InvertedIndex F) : Option (InvertedIndex F) :=
  if other.dictionary.length = 0 then some idx
  else
    (transferMaxFreq idx.docsMaxFreq 0 other.docsMaxFreq).map
      (fun mf => { idx with
        dictionary := other.dictionary.foldl spliceWord idx.dictionary
        docsMaxFreq := mf })

/-! ## Weighting -/

/-- The inner loop body of `calculateIDFandBuildDocMagnitudes`:
`docsMagnitudes[docID] += (TF * idf)^2`. -/
def magnitudeStep (idf : F) (mags : List F) (p : DocWordData F) : Option (List F) :=
  match vecGet mags p.docID with
  | none => none
  | some cur => vecSet mags p.docID (cur + (p.TF * idf) * (p.TF * idf))

/-- The value stored in `IDF[word]`: `log2(1.0 + (1.0 * N) / nt)`. -/
def idfValue (log2 : F → F) (totalDocs : Nat) (nt : Nat) : F :=
  log2 (1 + (totalDocs : F) / (nt : F))

/-- The outer loop body of `calculateIDFandBuildDocMagnitudes` on one dictionary entry. -/
def weightStep (log2 : F → F) (totalDocs : Nat) (st : List (Word × F) × List F)
    (e : Word × List (DocWordData F)) : Option (List (Word × F) × List F) :=
  (e.2.foldlM (magnitudeStep (idfValue log2 totalDocs e.2.length)) st.2).map
    (fun mags => (mapAssign e.1 (idfValue log2 totalDocs e.2.length) st.1, mags))

/-- The method `calculateIDFandBuildDocMagnitudes`; `N` is `docsMaxFreq.size()`. -/
def calculateIDFandBuildDocMagnitudes (log2 sqrt : F → F) (idx : InvertedIndex F) :
    Option (InvertedIndex F) :=
  (idx.dictionary.foldlM (weightStep log2 idx.docsMaxFreq.length)
      (idx.IDF, idx.docsMagnitudes)).map
    (fun st => { idx with IDF := st.1, docsMagnitudes := st.2.map sqrt })

/-! ## Answering a query -/

/-- The comparator `myCompare`: descending by score. -/
def myCompare (i j : F × Int) : Bool :=
  decide (i.1 > j.1)

/-- The first loop of `executeQuery` over the tokens: the occurrence count of each word in
`queryVector`, and `max`. -/
def countStep (st : List (Word × Nat) × Nat) (word : Word) : List (Word × Nat) × Nat :=
  let qv :=
    match mapFind word st.1 with
    | none => mapAssign word 1 st.1
    | some c => mapAssign word (c + 1) st.1
  let c := (mapFind word qv).getD 0
  (qv, if c > st.2 then c else st.2)

/-- The state after the counting loop of `executeQuery`. -/
def queryCounts (tokens : List Word) : List (Word × Nat) × Nat :=
  tokens.foldl countStep ([], 0)

/-- The second loop body of `executeQuery` on one entry of `queryVector`: the count becomes
`count / max * IDF[word]`, or 0 for a word without an IDF. -/
def weightEntry (idx : InvertedIndex F) (max : Nat) (e : Word × Nat) : Word × F :=
  (e.1, match mapFind e.1 idx.IDF with
        | none => 0
        | some idf => ((e.2 : F) / (max : F)) * idf)

/-- The map `queryVector` of `executeQuery` after its second loop. -/
def queryVector (idx : InvertedIndex F) (tokens : List Word) : List (Word × F) :=
  (queryCounts tokens).1.map (weightEntry idx (queryCounts tokens).2)

/-- The innermost loop body of the similarity loop of `executeQuery` on one posting. -/
def simStep (wordIDF queryWordWeight : F) (sim : List (Int × F)) (p : DocWordData F) :
    List (Int × F) :=
  let sim0 :=
    match mapFind p.docID sim with
    | none => mapAssign p.docID 0 sim
    | some _ => sim
  mapAssign p.docID ((mapFind p.docID sim0).getD 0 + p.TF * wordIDF * queryWordWeight) sim0

/-- The similarity loop body of `executeQuery` on one token of the query. -/
def simToken (idx : InvertedIndex F) (qv : List (Word × F)) (sim : List (Int × F))
    (queryWord : Word) : List (Int × F) :=
  let queryWordWeight := (mapFind queryWord qv).getD 0
  if queryWordWeight = 0 then sim
  else
    let wordIDF := (mapFind queryWord idx.IDF).getD 0
    match mapFind queryWord idx.dictionary with
    | none => sim
    | some documentEntries => documentEntries.foldl (simStep wordIDF queryWordWeight) sim

/-- The map `similarities` of `executeQuery` before the division by the magnitudes. -/
def similarities (idx : InvertedIndex F) (tokens : List Word) : List (Int × F) :=
  tokens.foldl (simToken idx (queryVector idx tokens)) []

/-- The vector `results` of `executeQuery` before selection: `(score, docID)` with
`score = similarity / docsMagnitudes[docID]`. -/
def queryResults (idx : InvertedIndex F) (tokens : List Word) : Option (List (F × Int)) :=
  (similarities idx tokens).mapM (fun e =>
    (vecGet idx.docsMagnitudes e.1).map (fun m => (e.2 / m, e.1)))

/-- The selection at the end of `executeQuery`, with `querySize` already parsed.  The
comparison `querySize < results.size()` is unsigned, so a negative `querySize` takes the
second branch.  `nth_element` is given the position `begin() + querySize - 1`, which for
`querySize = 0` lies before the range: undefined, `none`. -/
def selectTop (nthElement : Nat → List (F × Int) → List (F × Int))
    (sort : List (F × Int) → List (F × Int)) (querySize : Int) (results : List (F × Int)) :
    Option (List (F × Int)) :=
  if 0 ≤ querySize ∧ querySize < results.length then
    if querySize = 0 then none
    else some (sort ((nthElement (querySize.toNat - 1) results).take querySize.toNat))
  else some (sort results)

/-- The ranked list `executeQuery` prints, from the token vector and `querySize` on. -/
def executeQueryTokens (nthElement : Nat → List (F × Int) → List (F × Int))
    (sort : List (F × Int) → List (F × Int)) (idx : InvertedIndex F) (querySize : Int)
    (tokens : List Word) : Option (List (F × Int)) :=
  (queryResults idx tokens).bind (selectTop nthElement sort querySize)

/-! ## The header of a query line and the method `executeQuery` -/

/-- The scan `while (queryLine[c] != ' ') c++` of `executeQuery`, over the characters from
position `c` on: the position of the first space.  Without one the scan reads the terminator
at `size()`, which is no space, and then a position outside the string: undefined, `none`. -/
def scanSpace : List Char → Nat → Option Nat
  | [], _ => none
  | ch :: rest, c => if ch = ' ' then some c else scanSpace rest (c + 1)

/-- A value of type `int`; signed overflow is undefined: `none`. -/
def checkInt (x : Int) : Option Int :=
  if -2147483648 ≤ x ∧ x ≤ 2147483647 then some x else none

/-- The value `queryLine[j] - '0'` (with `char` signed, a byte above 127 is negative). -/
def charValue (ch : Char) : Int :=
  (if ch.toNat < 128 then (ch.toNat : Int) else (ch.toNat : Int) - 256) - 48

/-- The body of the two header loops: `x = x * 10; x += queryLine[j] - '0'`. -/
def digitStep (acc : Int) (ch : Char) : Option Int :=
  (checkInt (acc * 10)).bind (fun a => checkInt (a + charValue ch))

/-- The assignments `queryLine[j] = ' '` of the two header loops, for `j < c1` and
`c1 < j < c2`, on the characters from position `j` on. -/
def blankHeader (c1 c2 : Nat) : Nat → List Char → List Char
  | _, [] => []
  | j, ch :: rest =>
    (if j < c1 ∨ (c1 < j ∧ j < c2) then ' ' else ch) :: blankHeader c1 c2 (j + 1) rest

/-- The header part of `executeQuery`: `queryID`, `querySize`, and the line with the header
digits overwritten. -/
def parseHeader (queryLine : List Char) : Option (Int × Int × List Char) :=
  (scanSpace queryLine 0).bind fun c1 =>
  ((queryLine.take c1).foldlM digitStep 0).bind fun queryID =>
  (scanSpace (queryLine.drop (c1 + 1)) (c1 + 1)).bind fun c2 =>
  (((queryLine.drop (c1 + 1)).take (c2 - (c1 + 1))).foldlM digitStep 0).bind fun querySize =>
  some (queryID, querySize, blankHeader c1 c2 0 queryLine)

/-- The method `executeQuery(queryLine)`: the `queryID` and the ranked list it prints. -/
def executeQuery (nthElement : Nat → List (F × Int) → List (F × Int))
    (sort : List (F × Int) → List (F × Int)) (idx : InvertedIndex F) (queryLine : List Char) :
    Option (Int × List (F × Int)) :=
  (parseHeader queryLine).bind fun h =>
    (executeQueryTokens nthElement sort idx h.2.1 (tokenize h.2.2)).map (fun out => (h.1, out))

/-- The value of a run of decimal digits, most significant first. -/
def decimalValue (ds : List Char) : Nat :=
  Nat.ofDigits 10 ((ds.map (fun c => c.toNat - 48)).reverse)

/-- An ASCII decimal digit. -/
def isDigit (c : Char) : Bool :=
  decide ('0' ≤ c ∧ c ≤ '9')

/-! ## The build pipeline of `main` -/

/-- A worker's calls of `addDocument`, for the `(docID, line)` pairs it pulls, in order. -/
def ingest (idx : InvertedIndex F) : List (Int × List Char) → Option (InvertedIndex F)
  | [] => some idx
  | d :: rest => (addDocument idx d.2 d.1).bind (fun idx' => ingest idx' rest)

/-- The work of `buildInvertedIndex` on a fresh `InvertedIndex(totalDocs)`, given the
documents the worker pulls: ingest, `calculateDocMaxFreq`, `calculateTF`. -/
def buildShard (totalDocs : Nat) (docs : List (Int × List Char)) : Option (InvertedIndex F) :=
  ((ingest (InvertedIndex.new totalDocs) docs).bind calculateDocMaxFreq).bind calculateTF

/-- The loop of `main` that joins `indexes[1..]` into `indexes[0]`. -/
def joinAll (first : InvertedIndex F) (others : List (InvertedIndex F)) :
    Option (InvertedIndex F) :=
  others.foldlM joinIndex first

/-! ## Vocabulary of the specification -/

/-- The largest number of occurrences of any one word in a token sequence (0 if empty). -/
def maxTermFreq (tokens : List Word) : Nat :=
  (tokens.map (fun t => tokens.count t)).foldr max 0

/-- The postings list the index holds for a word (empty if the word is not a key). -/
def postingsOf (idx : InvertedIndex F) (u : Word) : List (DocWordData F) :=
  (mapFind u idx.dictionary).getD []

/-- The quantity tf(u,d) as the index holds it: the `TF` of the posting of `u` in `d`
(summed over the postings of `u` with that docID; 0 if there is none). -/
def tfOf (idx : InvertedIndex F) (u : Word) (d : Int) : F :=
  (((postingsOf idx u).filter (fun p => p.docID = d)).map (fun p => p.TF)).sum

/-- The quantity idf(u) as the index holds it: the entry of the IDF table (0 if absent). -/
def idfOf (idx : InvertedIndex F) (u : Word) : F :=
  (mapFind u idx.IDF).getD 0

/-- The query-side weight w(u) = (count_q(u) / m) * idf(u). -/
def queryWeight (idx : InvertedIndex F) (tokens : List Word) (u : Word) : F :=
  ((tokens.count u : F) / (maxTermFreq tokens : F)) * idfOf idx u

/-- A word is present in the index when the dictionary has an entry for it. -/
def known (idx : InvertedIndex F) (u : Word) : Bool :=
  (mapFind u idx.dictionary).isSome

/-- The sum, over every token occurrence `u` of the query that is present in the index
(duplicates included), of `tf(u,d) * idf(u) * w(u)`. -/
def similaritySum (idx : InvertedIndex F) (tokens : List Word) (d : Int) : F :=
  ((tokens.filter (known idx)).map
    (fun u => tfOf idx u d * idfOf idx u * queryWeight idx tokens u)).sum

/-- The same sum grouped by distinct word: a known word occurring `c` times in the query
contributes `c * (c / m) * idf(u)^2 * tf(u,d)`. -/
def similaritySumDistinct (idx : InvertedIndex F) (tokens : List Word) (d : Int) : F :=
  ((tokens.filter (known idx)).dedup.map
    (fun u => (tokens.count u : F) * ((tokens.count u : F) / (maxTermFreq tokens : F)) *
      (idfOf idx u * idfOf idx u) * tfOf idx u d)).sum

/-- The distinct docIDs of the documents that have a posting for at least one token of the
query that is present in the index. -/
def matchingDocs (idx : InvertedIndex F) (tokens : List Word) : List Int :=
  ((tokens.filter (known idx)).flatMap
    (fun u => (postingsOf idx u).map (fun p => p.docID))).dedup

/-- The postcondition of `std::sort(first, last, myCompare)`: a rearrangement of the range in
which no later element compares before an earlier one. -/
def SortSpec (sort : List (F × Int) → List (F × Int)) : Prop :=
  ∀ xs, (sort xs).Perm xs ∧ (sort xs).Pairwise (fun a b => myCompare b a = false)

/-- The postcondition of `std::nth_element(first, first + n, last, myCompare)` for a position
`n` inside the range: a rearrangement in which the element at `n` is one that a sorted
rearrangement has at `n`, and no element of `[first + n, last)` compares before an element of
`[first, first + n)`. -/
def NthElementSpec (nthElement : Nat → List (F × Int) → List (F × Int)) : Prop :=
  ∀ n xs, n < xs.length →
    (nthElement n xs).Perm xs ∧
    (∃ s : List (F × Int), s.Perm xs ∧ s.Pairwise (fun a b => myCompare b a = false) ∧
      (nthElement n xs).get? n = s.get? n) ∧
    ∀ a ∈ (nthElement n xs).take n, ∀ b ∈ (nthElement n xs).drop n, myCompare b a = false

/-- A ranked list `out` is a top-`k` selection of the scored results `res`: it is ordered by
non-increasing score, it is made of entries of `res`, it has `min k |res|` entries, and no
entry of `res` left out has a higher score than an entry of `out`. -/
def TopK (res : List (F × Int)) (k : Nat) (out : List (F × Int)) : Prop :=
  out.Pairwise (fun a b => b.1 ≤ a.1) ∧ out.Subperm res ∧ out.length = min k res.length ∧
    ∀ a ∈ out, ∀ b ∈ res, b ∉ out → b.1 ≤ a.1

/-- The entries of a ranked list whose score is strictly above the score at rank `k`
(all entries when the list has no rank `k`). -/
def aboveKth (k : Nat) (out : List (F × Int)) : List (F × Int) :=
  out.filter (fun e =>
    match out.get? (k - 1) with
    | some kth => decide (kth.1 < e.1)
    | none => true)

/-- Read-modify-write of one vector entry, `v[i] = f(v[i])`; `none` outside the vector.
(The shape shared by the loop bodies that update `docsMaxFreq` and `docsMagnitudes`.) -/
def vecUpdate {β : Type} (v : List β) (i : Int) (f : β → β) : Option (List β) :=
  match vecGet v i with
  | none => none
  | some cur => vecSet v i (f cur)

/-- An `int` index lies inside a vector of length `n`. -/
def InRange (n : Nat) (i : Int) : Prop :=
  0 ≤ i ∧ i.toNat < n

instance instDecidableInRange (n : Nat) (i : Int) : Decidable (InRange n i) := by
  unfold InRange; infer_instance

/-- All postings of the dictionary, in iteration order. -/
def allPostings (dict : List (Word × List (DocWordData F))) : List (DocWordData F) :=
  dict.flatMap (fun e => e.2)

/-- For every posting of the dictionary, in iteration order, its docID and the square
`(TF * idf)^2` that the weighting pass adds to the magnitude of that document. -/
def weightedPostings (log2 : F → F) (totalDocs : Nat)
    (dict : List (Word × List (DocWordData F))) : List (Int × F) :=
  dict.flatMap (fun e => e.2.map (fun p =>
    (p.docID, (p.TF * idfValue log2 totalDocs e.2.length) *
      (p.TF * idfValue log2 totalDocs e.2.length))))

/-- The sum of the squares `(TF * idf)^2` over the postings of document `d`. -/
def squareSum (log2 : F → F) (totalDocs : Nat)
    (dict : List (Word × List (DocWordData F))) (d : Int) : F :=
  (((weightedPostings log2 totalDocs dict).filter (fun q => q.1 = d)).map (fun q => q.2)).sum

/-- The IDF table after the outer loop of the weighting pass over the entries `es`. -/
def idfAfter (log2 : F → F) (totalDocs : Nat) (es : List (Word × List (DocWordData F)))
    (idf : List (Word × F)) : List (Word × F) :=
  es.foldl (fun t e => mapAssign e.1 (idfValue log2 totalDocs e.2.length) t) idf

/-- The 0-based offsets, counted from `i`, at which the word `w` occurs in a token sequence. -/
def positionsFrom (w : Word) : Nat → List Word → List Nat
  | _, [] => []
  | i, t :: ts => if t = w then i :: positionsFrom w (i + 1) ts else positionsFrom w (i + 1) ts

/-- The effect on one postings list of `c > 0` calls of `add` for document `d`, at the
positions `ps`: the last posting absorbs them if it is of `d`, else a posting is appended. -/
def absorb (d : Int) (c : Nat) (ps : List Nat) (es : List (DocWordData F)) :
    List (DocWordData F) :=
  if c = 0 then es
  else
    match es.getLast? with
    | none => [{ docID := d, TF := 0, freq := c, positions := ps }]
    | some last =>
      if last.docID = d then
        es.dropLast ++ [{ last with freq := last.freq + c, positions := last.positions ++ ps }]
      else es ++ [{ docID := d, TF := 0, freq := c, positions := ps }]

/-- The posting of word `w` for a document with docID `d` and token sequence `tokens`, as
`addDocument` leaves it (`TF` not yet computed). -/
def docPosting (d : Int) (tokens : List Word) (w : Word) : DocWordData F :=
  { docID := d, TF := 0, freq := tokens.count w, positions := positionsFrom w 0 tokens }

/-- The postings list of word `w` over the documents `docs`, in the order the documents were
fed: one posting per document whose tokenization contains `w`. -/
def expectedPostings (docs : List (Int × List Char)) (w : Word) : List (DocWordData F) :=
  (docs.filter (fun d => decide (w ∈ tokenize d.2))).map
    (fun d => docPosting d.1 (tokenize d.2) w)

/-- No postings list of the dictionary is empty, and no word has two entries. -/
def DictOk (idx : InvertedIndex F) : Prop :=
  (idx.dictionary.map Prod.fst).Nodup ∧ ∀ e ∈ idx.dictionary, e.2 ≠ []

/-- The value `calculateDocMaxFreq` leaves in entry `j` of a vector that held `x` there,
after the postings `ps`: the running maximum over the postings of document `j`. -/
def maxFold (j : Int) (ps : List (DocWordData F)) (x : Nat) : Nat :=
  ps.foldl (fun acc p => if p.docID = j then (if acc < p.freq then p.freq else acc) else acc) x

/-- A posting with the `TF` that `calculateTF` gives it from the vector `mf`. -/
def setTF (mf : List Nat) (p : DocWordData F) : DocWordData F :=
  { p with TF := (p.freq : F) / (((vecGet mf p.docID).getD 0 : Nat) : F) }

/-- An index with the function `g` applied to every posting of its dictionary. -/
def mapPostings (idx : InvertedIndex F) (g : DocWordData F → DocWordData F) : InvertedIndex F :=
  { idx with dictionary := idx.dictionary.map (fun e => (e.1, e.2.map g)) }

/-- The entry of `docsMaxFreq` for docID `j` in a shard that owns the documents `docs`. -/
def shardMaxFreq (docs : List (Int × List Char)) (j : Int) : Nat :=
  match mapFind j docs with
  | some line => maxTermFreq (tokenize line)
  | none => 0

/-- The posting of word `w` for a document, with its final `TF = freq / maxFreq`. -/
def finalPosting (d : Int) (tokens : List Word) (w : Word) : DocWordData F :=
  { docID := d, TF := (tokens.count w : F) / (maxTermFreq tokens : F),
    freq := tokens.count w, positions := positionsFrom w 0 tokens }

/-- The postings list of word `w` in a finished shard that owns the documents `docs`. -/
def shardPostings (docs : List (Int × List Char)) (w : Word) : List (DocWordData F) :=
  (docs.filter (fun d => decide (w ∈ tokenize d.2))).map
    (fun d => finalPosting d.1 (tokenize d.2) w)

/-- The entry of the destination after the second loop of `joinIndex`: the other index's
entry if that is positive, else the destination's own. -/
def pick (a o : Nat) : Nat :=
  if 0 < o then o else a

/-- The entry of the destination after the second loop of `joinIndex`, as read from the two
vectors (`none`: outside the vector). -/
def pickAt (a o : Option Nat) : Option Nat :=
  match o with
  | some o => a.map (fun x => pick x o)
  | none => a

/-- An index is the finished shard of the documents `docs`, for vectors of length `N`: its
postings lists and its `docsMaxFreq` are those of `shardPostings` and `shardMaxFreq`. -/
def IsShardOf (N : Nat) (docs : List (Int × List Char)) (s : InvertedIndex F) : Prop :=
  DictOk s ∧ s.docsMaxFreq.length = N ∧
    (∀ j, vecGet s.docsMaxFreq j = if InRange N j then some (shardMaxFreq docs j) else none) ∧
    ∀ w, postingsOf s w = shardPostings docs w

/-- A corpus with its docIDs: the line at 0-based index `i` is document `i`. -/
def numberDocs (corpus : List (List Char)) : List (Int × List Char) :=
  corpus.enum.map (fun e => ((e.1 : Int), e.2))

/-- The value the weighting pass leaves in the IDF table for word `t`, from the entries `es`
alone: that of the last entry of `t`, if there is one. -/
def lastIdf (log2 : F → F) (totalDocs : Nat) (t : Word) :
    List (Word × List (DocWordData F)) → Option F
  | [] => none
  | e :: es =>
    match lastIdf log2 totalDocs t es with
    | some v => some v
    | none => if e.1 = t then some (idfValue log2 totalDocs e.2.length) else none

/-- The words of the dictionary that have a posting in document `d`. -/
def termsOf (idx : InvertedIndex F) (d : Int) : List Word :=
  (idx.dictionary.map Prod.fst).filter
    (fun t => (postingsOf idx t).any (fun p => decide (p.docID = d)))

/-- The sum over the terms `t` with a posting in `d` of `(tf(t,d) * idf(t))^2`, with tf and
idf as the index holds them. -/
def termSquareSum (idx : InvertedIndex F) (d : Int) : F :=
  ((termsOf idx d).map
    (fun t => (tfOf idx t d * idfOf idx t) * (tfOf idx t d * idfOf idx t))).sum

/-- The shard of the single document `a` with docID 0, as `buildShard 1` leaves it. -/
def oneDocShard : InvertedIndex F :=
  { dictionary := [("a", [{ docID := 0, TF := 1, freq := 1, positions := [0] }])],
    IDF := [], docsMaxFreq := [1], docsMagnitudes := [0] }

/-! ## A small corpus on which the theorems are instantiated -/

/-- Two documents, with their docIDs. -/
def demoCorpus : List (Int × List Char) :=
  [(0, "the quick fox".toList), (1, "Quick, quick dog".toList)]

/-- Three document lines; `numberDocs` gives them the docIDs 0, 1, 2. -/
def demoLines : List (List Char) :=
  ["the quick fox".toList, "Quick, quick dog".toList, "lazy dog".toList]

/-- The shard `buildShard 2 demoCorpus` builds. -/
def demoShard : InvertedIndex ℚ :=
  { dictionary := [("the", [⟨0, 1, 1, [0]⟩]), ("quick", [⟨0, 1, 1, [1]⟩, ⟨1, 1, 2, [0, 1]⟩]),
      ("fox", [⟨0, 1, 1, [2]⟩]), ("dog", [⟨1, 1 / 2, 1, [2]⟩])],
    IDF := [], docsMaxFreq := [1, 2], docsMagnitudes := [0, 0] }

/-- The index `demoShard` after a weighting pass in which the identity stands for both
`log2` and `sqrt` (rational stand-ins, to have values that evaluate). -/
def demoWeighted : InvertedIndex ℚ :=
  { demoShard with
    IDF := [("the", 3), ("quick", 2), ("fox", 3), ("dog", 3)],
    docsMagnitudes := [22, 25 / 4] }

/-- A sorting function meeting `SortSpec`: insertion sort, descending by score. -/
def demoSort (xs : List (F × Int)) : List (F × Int) :=
  xs.insertionSort (fun a b => b.1 ≤ a.1)

/-! ## Vocabulary for the tokenizer -/

/-- An ASCII letter or digit (`a-z`, `0-9`, `A-Z`). -/
def isAlnum (c : Char) : Bool :=
  decide (('a' ≤ c ∧ c ≤ 'z') ∨ ('0' ≤ c ∧ c ≤ '9') ∨ ('A' ≤ c ∧ c ≤ 'Z'))

/-- A lower-case ASCII letter or a digit (`a-z`, `0-9`). -/
def isLowerAlnum (c : Char) : Bool :=
  decide (('a' ≤ c ∧ c ≤ 'z') ∨ ('0' ≤ c ∧ c ≤ '9'))

/-- The character with `A-Z` lowercased. -/
def lowerChar (c : Char) : Char :=
  if 'A' ≤ c ∧ c ≤ 'Z' then Char.ofNat (c.toNat + 32) else c

/-- The token made of a run of alphanumeric characters: the run with `A-Z` lowercased. -/
def tokenOf (run : List Char) : Word :=
  String.mk (run.map lowerChar)

/-- The frequency of a posting is the number of its positions, and is positive. -/
def PostingOk (p : DocWordData F) : Prop :=
  p.freq = p.positions.length ∧ 1 ≤ p.freq


/-! ## The document source of `main` -/

/-- The function `getNextDocument` of `main.cpp`, on the lines not yet read and
`documentsCounter`: the line handed out, the lines left, and the counter afterwards.  At the
end of the input `getline` leaves `docLine` empty, and the counter is incremented all the
same. -/
def getNextDocument (totalDocs : Int) (input : List (List Char)) (documentsCounter : Int) :
    List Char × List (List Char) × Int :=
  if documentsCounter ≥ totalDocs then ([], input, documentsCounter)
  else
    match input with
    | [] => ([], [], documentsCounter + 1)
    | docLine :: rest => (docLine, rest, documentsCounter + 1)

/-- The calls `addDocument(document, documentsCounter)` of the loop of `buildInvertedIndex`,
in order, when one worker runs alone: a line is pulled by `getNextDocument`, and the loop ends
at the first empty `document`. -/
def pulledDocs (totalDocs : Int) : List (List Char) → Int → List (Int × List Char)
  | [], _ => []
  | docLine :: rest, documentsCounter =>
    if documentsCounter ≥ totalDocs then []
    else if docLine = [] then []
    else (documentsCounter + 1, docLine) :: pulledDocs totalDocs rest (documentsCounter + 1)

/-- The function `buildInvertedIndex` run by a single worker on a fresh
`InvertedIndex(totalDocs)`, over the lines that follow the header, with
`documentsCounter = -1` as `main` sets it. -/
def buildInvertedIndex (totalDocs : Nat) (input : List (List Char)) :
    Option (InvertedIndex F) :=
  buildShard totalDocs (pulledDocs (totalDocs : Int) input (-1))

/-! ## The four-document corpus of the specification -/

/-- The document lines D0, D1, D2, D3. -/
def fourDocs : List (List Char) :=
  ["the quick brown fox".toList, "the quick brown dog".toList, "lazy dog sleeps".toList,
    "QUICK QUICK quick".toList]

/-- The shard a single worker builds from `fourDocs` with `N = 4`. -/
def fourShard : InvertedIndex F :=
  { dictionary :=
      [("the", [⟨0, 1, 1, [0]⟩, ⟨1, 1, 1, [0]⟩]),
        ("quick", [⟨0, 1, 1, [1]⟩, ⟨1, 1, 1, [1]⟩, ⟨3, 1, 3, [0, 1, 2]⟩]),
        ("brown", [⟨0, 1, 1, [2]⟩, ⟨1, 1, 1, [2]⟩]),
        ("fox", [⟨0, 1, 1, [3]⟩]),
        ("dog", [⟨1, 1, 1, [3]⟩, ⟨2, 1, 1, [1]⟩]),
        ("lazy", [⟨2, 1, 1, [0]⟩]),
        ("sleeps", [⟨2, 1, 1, [2]⟩])],
    IDF := [], docsMaxFreq := [1, 1, 1, 3], docsMagnitudes := [0, 0, 0, 0] }

/-- The index `fourShard` after the weighting pass; `a`, `t`, `f` are the IDF values of the
words with 3, 2 and 1 documents. -/
def fourWeighted (log2 sqrt : F → F) : InvertedIndex F :=
  let a := idfValue log2 4 3
  let t := idfValue log2 4 2
  let f := idfValue log2 4 1
  { (fourShard : InvertedIndex F) with
    IDF := [("the", t), ("quick", a), ("brown", t), ("fox", f), ("dog", t), ("lazy", f),
      ("sleeps", f)],
    docsMagnitudes := [sqrt (t * t + a * a + t * t + f * f), sqrt (t * t + a * a + t * t + t * t),
      sqrt (t * t + f * f + f * f), sqrt (a * a)] }

/-! # Theorems -/

/-! ## Lemmas on the associative containers -/

theorem mapFind_mapAssign_same {κ β : Type} [DecidableEq κ] (k : κ) (v : β) (m : List (κ × β)) :
    mapFind k (mapAssign k v m) = some v := by
  induction m with
  | nil => simp [mapAssign, mapFind]
  | cons e m ih =>
    obtain ⟨k', v'⟩ := e
    by_cases h : k' = k
    · simp [mapAssign, mapFind, h]
    · simp [mapAssign, mapFind, h, ih]

theorem mapFind_mapAssign_other {κ β : Type} [DecidableEq κ] (k k' : κ) (v : β)
    (m : List (κ × β)) (h : k ≠ k') : mapFind k' (mapAssign k v m) = mapFind k' m := by
  induction m with
  | nil => simp [mapAssign, mapFind, h]
  | cons e m ih =>
    obtain ⟨k₀, v₀⟩ := e
    by_cases h₀ : k₀ = k
    · subst h₀
      simp [mapAssign, mapFind, h]
    · by_cases h₁ : k₀ = k'
      · subst h₁
        simp [mapAssign, mapFind, h₀]
      · simp [mapAssign, mapFind, h₀, h₁, ih]

theorem mapFind_mapAssign {κ β : Type} [DecidableEq κ] (k k' : κ) (v : β) (m : List (κ × β)) :
    mapFind k' (mapAssign k v m) = if k = k' then some v else mapFind k' m := by
  by_cases h : k = k'
  · subst h; simp [mapFind_mapAssign_same]
  · simp [h, mapFind_mapAssign_other k k' v m h]

theorem mapAssign_keys_of_mem {κ β : Type} [DecidableEq κ] (k : κ) (v : β) (m : List (κ × β))
    (h : k ∈ m.map Prod.fst) : (mapAssign k v m).map Prod.fst = m.map Prod.fst := by
  induction m with
  | nil => simp at h
  | cons e m ih =>
    obtain ⟨k', v'⟩ := e
    by_cases h' : k' = k
    · simp [mapAssign, h']
    · have : k ∈ m.map Prod.fst := by
        simp only [List.map_cons, List.mem_cons] at h
        rcases h with h | h
        · exact absurd h.symm h'
        · exact h
      simp [mapAssign, h', ih this]

theorem mapAssign_keys_of_not_mem {κ β : Type} [DecidableEq κ] (k : κ) (v : β)
    (m : List (κ × β)) (h : k ∉ m.map Prod.fst) :
    (mapAssign k v m).map Prod.fst = m.map Prod.fst ++ [k] := by
  induction m with
  | nil => simp [mapAssign]
  | cons e m ih =>
    obtain ⟨k', v'⟩ := e
    simp only [List.map_cons, List.mem_cons, not_or] at h
    have h' : ¬ k' = k := fun e => h.1 e.symm
    simp [mapAssign, h', ih h.2]

theorem mapFind_eq_none_iff {κ β : Type} [DecidableEq κ] (k : κ) (m : List (κ × β)) :
    mapFind k m = none ↔ k ∉ m.map Prod.fst := by
  induction m with
  | nil => simp [mapFind]
  | cons e m ih =>
    obtain ⟨k', v'⟩ := e
    by_cases h' : k' = k
    · simp [mapFind, h']
    · have : ¬ k = k' := fun e => h' e.symm
      simp [mapFind, h', ih, this]

theorem mapFind_mem {κ β : Type} [DecidableEq κ] (k : κ) (v : β) (m : List (κ × β))
    (h : mapFind k m = some v) : (k, v) ∈ m := by
  induction m with
  | nil => simp [mapFind] at h
  | cons e m ih =>
    obtain ⟨k', v'⟩ := e
    by_cases h' : k' = k
    · simp [mapFind, h'] at h
      simp [h, h']
    · simp [mapFind, h'] at h
      exact List.mem_cons_of_mem _ (ih h)

theorem mapFind_of_mem {κ β : Type} [DecidableEq κ] (k : κ) (v : β) (m : List (κ × β))
    (nd : (m.map Prod.fst).Nodup) (h : (k, v) ∈ m) : mapFind k m = some v := by
  induction m with
  | nil => simp at h
  | cons e m ih =>
    obtain ⟨k', v'⟩ := e
    simp only [List.map_cons, List.nodup_cons] at nd
    simp only [List.mem_cons, Prod.mk.injEq] at h
    rcases h with ⟨h1, h2⟩ | h
    · simp [mapFind, h1, h2]
    · have : k' ≠ k := by
        intro e
        apply nd.1
        rw [e]
        exact List.mem_map_of_mem Prod.fst h
      simp [mapFind, this, ih nd.2 h]

theorem mapAssign_nodupKeys {κ β : Type} [DecidableEq κ] (k : κ) (v : β) (m : List (κ × β))
    (nd : (m.map Prod.fst).Nodup) : ((mapAssign k v m).map Prod.fst).Nodup := by
  by_cases h : k ∈ m.map Prod.fst
  · rw [mapAssign_keys_of_mem k v m h]; exact nd
  · rw [mapAssign_keys_of_not_mem k v m h]
    exact List.Nodup.append nd (List.nodup_singleton k) (by simpa using h)

theorem mapFind_map_val {κ β γ : Type} [DecidableEq κ] (k : κ) (f : κ → β → γ)
    (m : List (κ × β)) :
    mapFind k (m.map (fun e => (e.1, f e.1 e.2))) = (mapFind k m).map (f k) := by
  induction m with
  | nil => simp [mapFind]
  | cons e m ih =>
    obtain ⟨k', v'⟩ := e
    by_cases h' : k' = k
    · simp [mapFind, h']
    · simp [mapFind, h', ih]

/-! ## The query vector -/

theorem foldr_max_ge (l : List Nat) : ∀ x ∈ l, x ≤ l.foldr max 0 := by
  induction l with
  | nil => simp
  | cons a l ih =>
    intro x hx
    simp only [List.mem_cons] at hx
    simp only [List.foldr_cons]
    rcases hx with rfl | hx
    · exact le_max_left _ _
    · exact le_trans (ih x hx) (le_max_right _ _)

theorem foldr_max_mem (l : List Nat) (h : l ≠ []) : l.foldr max 0 ∈ l := by
  induction l with
  | nil => exact absurd rfl h
  | cons a l ih =>
    simp only [List.foldr_cons]
    by_cases hl : l = []
    · subst hl; simp
    · rcases le_total a (l.foldr max 0) with h1 | h1
      · rw [max_eq_right h1]; exact List.mem_cons_of_mem _ (ih hl)
      · rw [max_eq_left h1]; exact List.mem_cons_self _ _

theorem maxTermFreq_nil : maxTermFreq [] = 0 := rfl

theorem count_le_maxTermFreq (tokens : List Word) (u : Word) :
    tokens.count u ≤ maxTermFreq tokens := by
  by_cases h : u ∈ tokens
  · exact foldr_max_ge _ _ (List.mem_map_of_mem (fun t => tokens.count t) h)
  · rw [List.count_eq_zero_of_not_mem h]; exact Nat.zero_le _

theorem maxTermFreq_attained (tokens : List Word) (h : tokens ≠ []) :
    ∃ u ∈ tokens, tokens.count u = maxTermFreq tokens := by
  have := foldr_max_mem (tokens.map (fun t => tokens.count t)) (by simpa using h)
  rcases List.mem_map.1 this with ⟨u, hu, e⟩
  exact ⟨u, hu, e⟩

theorem maxTermFreq_unique (tokens : List Word) (m : Nat)
    (hle : ∀ u, tokens.count u ≤ m) (hat : ∃ u, tokens.count u = m) :
    maxTermFreq tokens = m := by
  rcases hat with ⟨u, hu⟩
  apply le_antisymm
  · by_cases h : tokens = []
    · subst h; simp [maxTermFreq_nil]
    · rcases maxTermFreq_attained tokens h with ⟨v, _, hv⟩
      rw [← hv]; exact hle v
  · rw [← hu]; exact count_le_maxTermFreq tokens u

theorem maxTermFreq_pos (tokens : List Word) (h : tokens ≠ []) : 0 < maxTermFreq tokens := by
  rcases List.exists_mem_of_ne_nil tokens h with ⟨u, hu⟩
  exact lt_of_lt_of_le (List.count_pos_iff.2 hu) (count_le_maxTermFreq tokens u)

theorem maxTermFreq_snoc (pre : List Word) (w : Word) :
    maxTermFreq (pre ++ [w]) = max (maxTermFreq pre) (pre.count w + 1) := by
  apply maxTermFreq_unique
  · intro u
    by_cases h : u = w
    · subst h; simp
    · have : (pre ++ [w]).count u = pre.count u := by
        simp [List.count_append, List.count_singleton, h]
      rw [this]
      exact le_trans (count_le_maxTermFreq pre u) (le_max_left _ _)
  · rcases le_total (maxTermFreq pre) (pre.count w + 1) with h | h
    · exact ⟨w, by simp [max_eq_right h]⟩
    · have hne : pre ≠ [] := by
        intro e; subst e; simp [maxTermFreq_nil] at h
      rcases maxTermFreq_attained pre hne with ⟨v, _, hv⟩
      have hvw : v ≠ w := by
        intro e; subst e; omega
      refine ⟨v, ?_⟩
      rw [max_eq_left h, ← hv]
      simp [List.count_append, List.count_singleton]
      intro e; exact absurd e.symm hvw

/-- The state of the counting loop after a prefix of the tokens. -/
theorem queryCounts_spec (tokens : List Word) :
    (∀ u, mapFind u (queryCounts tokens).1 =
        if tokens.count u = 0 then none else some (tokens.count u)) ∧
      (queryCounts tokens).2 = maxTermFreq tokens := by
  induction tokens using List.reverseRecOn with
  | nil => exact ⟨fun u => by simp [queryCounts, mapFind], rfl⟩
  | append_singleton pre w ih =>
    obtain ⟨ih1, ih2⟩ := ih
    have hstep : queryCounts (pre ++ [w]) = countStep (queryCounts pre) w := by
      simp [queryCounts, List.foldl_append]
    have hw : mapFind w (countStep (queryCounts pre) w).1 = some (pre.count w + 1) := by
      unfold countStep
      by_cases h0 : pre.count w = 0
      · have : mapFind w (queryCounts pre).1 = none := by rw [ih1 w]; simp [h0]
        simp [this, mapFind_mapAssign_same, h0]
      · have : mapFind w (queryCounts pre).1 = some (pre.count w) := by rw [ih1 w]; simp [h0]
        simp [this, mapFind_mapAssign_same]
    have hother : ∀ u, u ≠ w →
        mapFind u (countStep (queryCounts pre) w).1 = mapFind u (queryCounts pre).1 := by
      intro u hu
      unfold countStep
      cases hf : mapFind w (queryCounts pre).1 <;>
        simp [mapFind_mapAssign_other w u _ _ (Ne.symm hu)]
    refine ⟨?_, ?_⟩
    · intro u
      rw [hstep]
      by_cases hu : u = w
      · subst hu; rw [hw]; simp
      · rw [hother u hu, ih1 u]
        have : (pre ++ [w]).count u = pre.count u := by
          simp [List.count_append, List.count_singleton]
          intro e; exact absurd e.symm hu
        rw [this]
    · rw [hstep, maxTermFreq_snoc]
      have h2 : (countStep (queryCounts pre) w).2 =
          if (mapFind w (countStep (queryCounts pre) w).1).getD 0 > (queryCounts pre).2
          then (mapFind w (countStep (queryCounts pre) w).1).getD 0 else (queryCounts pre).2 := by
        unfold countStep; rfl
      rw [h2, hw, ih2]
      simp only [Option.getD_some]
      split
      · rename_i h; exact (max_eq_right (le_of_lt h)).symm
      · rename_i h; exact (max_eq_left (not_lt.1 h)).symm

/-- The entry `queryVector[u]` read back by the similarity loop is the weight w(u). -/
theorem queryVector_getD (idx : InvertedIndex F) (tokens : List Word) (u : Word) :
    (mapFind u (queryVector idx tokens)).getD 0 = queryWeight idx tokens u := by
  have h := mapFind_map_val u
    (fun (k : Word) (c : Nat) => (weightEntry idx (queryCounts tokens).2 (k, c)).2)
    (queryCounts tokens).1
  have e : (fun e : Word × Nat =>
      (e.1, (weightEntry idx (queryCounts tokens).2 (e.1, e.2)).2)) =
      weightEntry idx (queryCounts tokens).2 := by
    funext e; rfl
  rw [e] at h
  unfold queryVector
  rw [h, (queryCounts_spec tokens).1 u, (queryCounts_spec tokens).2]
  unfold queryWeight idfOf weightEntry
  by_cases h0 : tokens.count u = 0
  · simp [h0]
  · simp only [h0, if_false, Option.map_some', Option.getD_some]
    cases mapFind u idx.IDF <;> simp

/-! ## The similarity loop -/

theorem simStep_getD (i w : F) (sim : List (Int × F)) (p : DocWordData F) (d : Int) :
    (mapFind d (simStep i w sim p)).getD 0 =
      (mapFind d sim).getD 0 + (if p.docID = d then p.TF * i * w else 0) := by
  unfold simStep
  by_cases h : p.docID = d
  · subst h
    cases hf : mapFind p.docID sim with
    | none => simp [mapFind_mapAssign_same]
    | some v => simp [mapFind_mapAssign_same, hf]
  · cases hf : mapFind p.docID sim with
    | none => simp [mapFind_mapAssign_other _ _ _ _ h, h]
    | some v => simp [mapFind_mapAssign_other _ _ _ _ h, h]

theorem simStep_foldl_getD (i w : F) (ps : List (DocWordData F)) (sim : List (Int × F))
    (d : Int) :
    (mapFind d (ps.foldl (simStep i w) sim)).getD 0 =
      (mapFind d sim).getD 0 +
        ((ps.filter (fun p => p.docID = d)).map (fun p => p.TF)).sum * i * w := by
  induction ps generalizing sim with
  | nil => simp
  | cons p ps ih =>
    rw [List.foldl_cons, ih, simStep_getD]
    by_cases h : p.docID = d
    · simp [List.filter_cons, h]; ring
    · simp [List.filter_cons, h]

theorem simToken_getD (idx : InvertedIndex F) (tokens : List Word) (sim : List (Int × F))
    (u : Word) (d : Int) :
    (mapFind d (simToken idx (queryVector idx tokens) sim u)).getD 0 =
      (mapFind d sim).getD 0 +
        (if known idx u then tfOf idx u d * idfOf idx u * queryWeight idx tokens u else 0) := by
  unfold simToken
  simp only [queryVector_getD]
  by_cases hw : queryWeight idx tokens u = 0
  · simp [hw]
  · simp only [hw, if_false]
    cases hf : mapFind u idx.dictionary with
    | none => simp [known, hf]
    | some es =>
      simp only [simStep_foldl_getD]
      simp [known, hf, tfOf, postingsOf, idfOf]

theorem simToken_foldl_getD (idx : InvertedIndex F) (tokens : List Word) (us : List Word)
    (sim : List (Int × F)) (d : Int) :
    (mapFind d (us.foldl (simToken idx (queryVector idx tokens)) sim)).getD 0 =
      (mapFind d sim).getD 0 +
        ((us.filter (known idx)).map
          (fun u => tfOf idx u d * idfOf idx u * queryWeight idx tokens u)).sum := by
  induction us generalizing sim with
  | nil => simp
  | cons u us ih =>
    rw [List.foldl_cons, ih, simToken_getD]
    by_cases h : known idx u
    · simp [List.filter_cons, h]; ring
    · simp [List.filter_cons, h]

theorem similarities_getD (idx : InvertedIndex F) (tokens : List Word) (d : Int) :
    (mapFind d (similarities idx tokens)).getD 0 =
      ((tokens.filter (known idx)).map
        (fun u => tfOf idx u d * idfOf idx u * queryWeight idx tokens u)).sum := by
  unfold similarities
  rw [simToken_foldl_getD]
  simp [mapFind]

/-- A sum over the occurrences of a list is the sum over its distinct members, each taken
as often as it occurs. -/
theorem sum_map_eq_sum_dedup (l : List Word) (g : Word → F) :
    (l.map g).sum = (l.dedup.map (fun u => (l.count u : F) * g u)).sum := by
  rw [Finset.sum_list_map_count l g]
  have e : l.toFinset = l.dedup.toFinset := by
    ext x; simp
  rw [e, List.sum_toFinset _ (List.nodup_dedup l)]
  simp [nsmul_eq_mul]

theorem simStep_nodupKeys (i w : F) (sim : List (Int × F)) (p : DocWordData F)
    (nd : (sim.map Prod.fst).Nodup) : ((simStep i w sim p).map Prod.fst).Nodup := by
  unfold simStep
  apply mapAssign_nodupKeys
  cases mapFind p.docID sim with
  | none => exact mapAssign_nodupKeys _ _ _ nd
  | some v => exact nd

theorem similarities_nodupKeys (idx : InvertedIndex F) (tokens : List Word) :
    ((similarities idx tokens).map Prod.fst).Nodup := by
  unfold similarities
  generalize queryVector idx tokens = qv
  have key : ∀ (us : List Word) (sim : List (Int × F)), (sim.map Prod.fst).Nodup →
      ((us.foldl (simToken idx qv) sim).map Prod.fst).Nodup := by
    intro us
    induction us with
    | nil => intro sim nd; exact nd
    | cons u us ih =>
      intro sim nd
      rw [List.foldl_cons]
      apply ih
      unfold simToken
      simp only
      split
      · exact nd
      · split
        · exact nd
        · rename_i es _
          have : ∀ (ps : List (DocWordData F)) (s : List (Int × F)), (s.map Prod.fst).Nodup →
              ((ps.foldl (simStep ((mapFind u idx.IDF).getD 0) ((mapFind u qv).getD 0)) s).map
                Prod.fst).Nodup := by
            intro ps
            induction ps with
            | nil => intro s h; exact h
            | cons p ps ih2 =>
              intro s h
              rw [List.foldl_cons]
              exact ih2 _ (simStep_nodupKeys _ _ _ _ h)
          exact this es sim nd
  exact key tokens [] (by simp)

/-! ## Vectors -/

theorem vecGet_eq_some_inRange {β : Type} {v : List β} {i : Int} {x : β}
    (h : vecGet v i = some x) : InRange v.length i := by
  unfold vecGet at h
  by_cases h0 : 0 ≤ i
  · simp only [h0, if_true] at h
    exact ⟨h0, (List.get?_eq_some.1 h).1⟩
  · simp [h0] at h

theorem vecGet_isSome_of_inRange {β : Type} {v : List β} {i : Int}
    (h : InRange v.length i) : ∃ x, vecGet v i = some x := by
  unfold vecGet
  simp only [h.1, if_true]
  exact ⟨v.get ⟨i.toNat, h.2⟩, List.get?_eq_get h.2⟩

theorem vecGet_eq_none_of_not_inRange {β : Type} {v : List β} {i : Int}
    (h : ¬ InRange v.length i) : vecGet v i = none := by
  cases hv : vecGet v i with
  | none => rfl
  | some x => exact absurd (vecGet_eq_some_inRange hv) h

theorem vecUpdate_some {β : Type} {v v' : List β} {i : Int} {f : β → β}
    (h : vecUpdate v i f = some v') :
    InRange v.length i ∧ v'.length = v.length ∧
      ∀ j : Int, vecGet v' j = if j = i then (vecGet v j).map f else vecGet v j := by
  unfold vecUpdate at h
  cases hg : vecGet v i with
  | none => simp [hg] at h
  | some cur =>
    have hr := vecGet_eq_some_inRange hg
    simp only [hg, vecSet] at h
    have hr' : 0 ≤ i ∧ i.toNat < v.length := hr
    simp only [hr', and_self, if_true, Option.some.injEq] at h
    subst h
    refine ⟨hr, by simp, ?_⟩
    intro j
    by_cases hj : j = i
    · subst hj
      simp only [if_true, hg, Option.map_some']
      unfold vecGet
      simp [hr.1, List.getElem?_set, hr.2]
    · simp only [hj, if_false]
      unfold vecGet
      by_cases hj0 : 0 ≤ j
      · simp only [hj0, if_true]
        have : i.toNat ≠ j.toNat := by
          intro e
          apply hj
          have h1 := Int.toNat_of_nonneg hr.1
          have h2 := Int.toNat_of_nonneg hj0
          omega
        simp [List.getElem?_set, this]
      · simp [hj0]

theorem vecUpdate_isSome {β : Type} {v : List β} {i : Int} (f : β → β)
    (h : InRange v.length i) : ∃ v', vecUpdate v i f = some v' := by
  rcases vecGet_isSome_of_inRange h with ⟨x, hx⟩
  unfold vecUpdate
  rw [hx]
  unfold vecSet
  have h' : 0 ≤ i ∧ i.toNat < v.length := h
  simp [h']

/-- A loop of read-modify-write steps on a vector: what success means. -/
theorem foldlM_vecUpdate_some {β π : Type} (key : π → Int) (g : π → β → β) (ps : List π)
    (v v' : List β) (h : ps.foldlM (fun v p => vecUpdate v (key p) (g p)) v = some v') :
    v'.length = v.length ∧ (∀ p ∈ ps, InRange v.length (key p)) ∧
      ∀ j : Int, vecGet v' j =
        (vecGet v j).map (fun x => ps.foldl (fun acc p => if key p = j then g p acc else acc) x) := by
  induction ps generalizing v with
  | nil =>
    simp only [List.foldlM_nil, pure, Option.some.injEq] at h
    subst h
    simp
  | cons p ps ih =>
    simp only [List.foldlM_cons, bind, Option.bind_eq_some] at h
    rcases h with ⟨v1, h1, h2⟩
    rcases vecUpdate_some h1 with ⟨r1, l1, g1⟩
    rcases ih v1 h2 with ⟨l2, r2, g2⟩
    refine ⟨l2.trans l1, ?_, ?_⟩
    · intro q hq
      simp only [List.mem_cons] at hq
      rcases hq with rfl | hq
      · exact r1
      · rw [← l1]; exact r2 q hq
    · intro j
      rw [g2 j, g1 j]
      by_cases hj : j = key p
      · subst hj
        cases vecGet v (key p) <;> simp
      · have : ¬ key p = j := fun e => hj e.symm
        simp [hj, this]

theorem foldlM_vecUpdate_isSome {β π : Type} (key : π → Int) (g : π → β → β) (ps : List π)
    (v : List β) (h : ∀ p ∈ ps, InRange v.length (key p)) :
    ∃ v', ps.foldlM (fun v p => vecUpdate v (key p) (g p)) v = some v' := by
  induction ps generalizing v with
  | nil => exact ⟨v, rfl⟩
  | cons p ps ih =>
    rcases vecUpdate_isSome (g p) (h p (List.mem_cons_self _ _)) with ⟨v1, h1⟩
    have l1 := (vecUpdate_some h1).2.1
    rcases ih v1 (fun q hq => by rw [l1]; exact h q (List.mem_cons_of_mem _ hq)) with ⟨v', h'⟩
    refine ⟨v', ?_⟩
    simp only [List.foldlM_cons, bind, Option.bind_eq_some]
    exact ⟨v1, h1, h'⟩

/-- A nested loop is a loop over the concatenation. -/
theorem foldlM_flatMap {α β σ : Type} (f : α → List β) (step : σ → β → Option σ) (l : List α)
    (s : σ) :
    (l.flatMap f).foldlM step s = l.foldlM (fun s x => (f x).foldlM step s) s := by
  induction l generalizing s with
  | nil => rfl
  | cons a l ih =>
    simp only [List.flatMap_cons, List.foldlM_append, List.foldlM_cons]
    cases h : (f a).foldlM step s with
    | none => rfl
    | some s1 => simp [ih, bind]

/-! ## The weighting pass -/

theorem magnitudeStep_eq (idf : F) (mags : List F) (p : DocWordData F) :
    magnitudeStep idf mags p =
      vecUpdate mags p.docID (fun x => x + (p.TF * idf) * (p.TF * idf)) := by
  unfold magnitudeStep vecUpdate
  cases vecGet mags p.docID <;> rfl

theorem foldlM_map_option {α β σ : Type} (f : α → β) (step : σ → β → Option σ) (l : List α)
    (s : σ) : (l.map f).foldlM step s = l.foldlM (fun s x => step s (f x)) s := by
  induction l generalizing s with
  | nil => rfl
  | cons a l ih =>
    simp only [List.map_cons, List.foldlM_cons]
    cases step s (f a) with
    | none => rfl
    | some s1 => simp [ih, bind]

theorem weightStep_foldlM (log2 : F → F) (N : Nat) (es : List (Word × List (DocWordData F)))
    (idf : List (Word × F)) (mags : List F) :
    es.foldlM (weightStep log2 N) (idf, mags) =
      ((weightedPostings log2 N es).foldlM
        (fun v (q : Int × F) => vecUpdate v q.1 (fun x => x + q.2)) mags).map
        (fun m => (idfAfter log2 N es idf, m)) := by
  induction es generalizing idf mags with
  | nil => rfl
  | cons e es ih =>
    have hstep : weightStep log2 N (idf, mags) e =
        ((e.2.map (fun p => (p.docID, (p.TF * idfValue log2 N e.2.length) *
          (p.TF * idfValue log2 N e.2.length)))).foldlM
          (fun v (q : Int × F) => vecUpdate v q.1 (fun x => x + q.2)) mags).map
          (fun m => (mapAssign e.1 (idfValue log2 N e.2.length) idf, m)) := by
      unfold weightStep
      rw [foldlM_map_option]
      have e1 : magnitudeStep (idfValue log2 N e.2.length) =
          fun (v : List F) (p : DocWordData F) =>
            vecUpdate v p.docID (fun x => x + (p.TF * idfValue log2 N e.2.length) *
              (p.TF * idfValue log2 N e.2.length)) := by
        funext v p
        exact magnitudeStep_eq _ _ _
      rw [e1]
    simp only [List.foldlM_cons, weightedPostings, List.flatMap_cons, List.foldlM_append]
    rw [hstep]
    cases (e.2.map (fun p => (p.docID, (p.TF * idfValue log2 N e.2.length) *
          (p.TF * idfValue log2 N e.2.length)))).foldlM
          (fun v (q : Int × F) => vecUpdate v q.1 (fun x => x + q.2)) mags with
    | none => rfl
    | some m1 =>
      simp only [Option.map_some', bind, Option.some_bind]
      rw [ih]
      rfl

theorem foldl_add_filter (qs : List (Int × F)) (j : Int) (x : F) :
    qs.foldl (fun acc q => if q.1 = j then acc + q.2 else acc) x =
      x + ((qs.filter (fun q => q.1 = j)).map (fun q => q.2)).sum := by
  induction qs generalizing x with
  | nil => simp
  | cons q qs ih =>
    rw [List.foldl_cons, ih]
    by_cases h : q.1 = j
    · simp [List.filter_cons, h]; ring
    · simp [List.filter_cons, h]

theorem weightedPostings_keys (log2 : F → F) (N : Nat)
    (es : List (Word × List (DocWordData F))) :
    (weightedPostings log2 N es).map Prod.fst = (allPostings es).map (fun p => p.docID) := by
  induction es with
  | nil => rfl
  | cons e es ih =>
    simp only [weightedPostings, allPostings, List.flatMap_cons, List.map_append] at ih ⊢
    rw [ih]
    simp [List.map_map, Function.comp]

/-- What one run of `calculateIDFandBuildDocMagnitudes` does, when it succeeds. -/
theorem weighting_some (log2 sqrt : F → F) (idx0 idx : InvertedIndex F)
    (h : calculateIDFandBuildDocMagnitudes log2 sqrt idx0 = some idx) :
    idx.dictionary = idx0.dictionary ∧ idx.docsMaxFreq = idx0.docsMaxFreq ∧
      idx.IDF = idfAfter log2 idx0.docsMaxFreq.length idx0.dictionary idx0.IDF ∧
      idx.docsMagnitudes.length = idx0.docsMagnitudes.length ∧
      (∀ p ∈ allPostings idx0.dictionary, InRange idx0.docsMagnitudes.length p.docID) ∧
      ∀ j : Int, vecGet idx.docsMagnitudes j =
        (vecGet idx0.docsMagnitudes j).map
          (fun x => sqrt (x + squareSum log2 idx0.docsMaxFreq.length idx0.dictionary j)) := by
  unfold calculateIDFandBuildDocMagnitudes at h
  rw [weightStep_foldlM] at h
  simp only [Option.map_map, Option.map_eq_some', Function.comp] at h
  rcases h with ⟨m, hm, rfl⟩
  rcases foldlM_vecUpdate_some (fun q : Int × F => q.1) (fun q x => x + q.2) _ _ _ hm with
    ⟨hl, hr, hg⟩
  refine ⟨rfl, rfl, rfl, by simp [hl], ?_, ?_⟩
  · intro p hp
    have : p.docID ∈ (weightedPostings log2 idx0.docsMaxFreq.length idx0.dictionary).map
        Prod.fst := by
      rw [weightedPostings_keys]
      exact List.mem_map_of_mem (fun p => p.docID) hp
    rcases List.mem_map.1 this with ⟨q, hq, e⟩
    rw [← e]
    exact hr q hq
  · intro j
    have hmap : vecGet (m.map sqrt) j = (vecGet m j).map sqrt := by
      unfold vecGet
      by_cases h0 : 0 ≤ j <;> simp [h0]
    simp only [hmap]
    rw [hg j]
    simp only [foldl_add_filter, Option.map_map, squareSum]
    rfl

theorem weighting_isSome (log2 sqrt : F → F) (idx0 : InvertedIndex F)
    (h : ∀ p ∈ allPostings idx0.dictionary, InRange idx0.docsMagnitudes.length p.docID) :
    ∃ idx, calculateIDFandBuildDocMagnitudes log2 sqrt idx0 = some idx := by
  unfold calculateIDFandBuildDocMagnitudes
  rw [weightStep_foldlM]
  have : ∀ q ∈ weightedPostings log2 idx0.docsMaxFreq.length idx0.dictionary,
      InRange idx0.docsMagnitudes.length q.1 := by
    intro q hq
    have : q.1 ∈ (allPostings idx0.dictionary).map (fun p => p.docID) := by
      rw [← weightedPostings_keys log2 idx0.docsMaxFreq.length]
      exact List.mem_map_of_mem Prod.fst hq
    rcases List.mem_map.1 this with ⟨p, hp, e⟩
    rw [← e]
    exact h p hp
  rcases foldlM_vecUpdate_isSome (fun q : Int × F => q.1) (fun q x => x + q.2) _ _ this with
    ⟨m, hm⟩
  rw [hm]
  exact ⟨_, rfl⟩

theorem mapM_option_cons {α β : Type} (f : α → Option β) (a : α) (l : List α) :
    (a :: l).mapM f = (f a).bind (fun b => (l.mapM f).map (fun bs => b :: bs)) := by
  rw [List.mapM_cons]
  cases f a with
  | none => rfl
  | some b =>
    cases l.mapM f with
    | none => rfl
    | some bs => rfl

theorem mapM_option_some {α β : Type} (f : α → Option β) (l : List α) (ys : List β) :
    l.mapM f = some ys ↔ List.Forall₂ (fun x y => f x = some y) l ys := by
  induction l generalizing ys with
  | nil =>
    simp only [List.mapM_nil, pure, Option.some.injEq, List.forall₂_nil_left_iff]
    exact eq_comm
  | cons a l ih =>
    rw [mapM_option_cons]
    constructor
    · intro h
      simp only [Option.bind_eq_some, Option.map_eq_some'] at h
      rcases h with ⟨b, hb, bs, hbs, rfl⟩
      exact List.Forall₂.cons hb ((ih bs).1 hbs)
    · intro h
      cases h with
      | cons hb hbs =>
        rename_i b bs
        simp only [Option.bind_eq_some, Option.map_eq_some']
        exact ⟨b, hb, bs, (ih bs).2 hbs, rfl⟩

theorem mapM_option_isSome {α β : Type} (f : α → Option β) (l : List α)
    (h : ∀ x ∈ l, ∃ y, f x = some y) : ∃ ys, l.mapM f = some ys := by
  induction l with
  | nil => exact ⟨[], rfl⟩
  | cons a l ih =>
    rcases h a (List.mem_cons_self _ _) with ⟨b, hb⟩
    rcases ih (fun x hx => h x (List.mem_cons_of_mem _ hx)) with ⟨bs, hbs⟩
    refine ⟨b :: bs, ?_⟩
    rw [mapM_option_cons, hb, hbs]
    rfl

theorem mapM_option_mem {α β : Type} (f : α → Option β) (l : List α) (ys : List β)
    (h : l.mapM f = some ys) : ∀ x ∈ l, ∃ y, f x = some y := by
  rw [mapM_option_some] at h
  induction h with
  | nil => simp
  | cons hb _ ih =>
    intro x hx
    simp only [List.mem_cons] at hx
    rcases hx with rfl | hx
    · exact ⟨_, hb⟩
    · exact ih x hx

/-! ## The keys of the similarities map and the scored results -/

theorem mem_keys_mapAssign {κ β : Type} [DecidableEq κ] (k k' : κ) (v : β) (m : List (κ × β)) :
    k' ∈ (mapAssign k v m).map Prod.fst ↔ k' = k ∨ k' ∈ m.map Prod.fst := by
  by_cases h : k ∈ m.map Prod.fst
  · rw [mapAssign_keys_of_mem k v m h]
    constructor
    · intro h'; exact Or.inr h'
    · rintro (rfl | h')
      · exact h
      · exact h'
  · rw [mapAssign_keys_of_not_mem k v m h]
    simp only [List.mem_append, List.mem_singleton]
    exact or_comm

theorem mem_keys_simStep (i w : F) (sim : List (Int × F)) (p : DocWordData F) (d : Int) :
    d ∈ (simStep i w sim p).map Prod.fst ↔ d = p.docID ∨ d ∈ sim.map Prod.fst := by
  unfold simStep
  cases mapFind p.docID sim with
  | none =>
    simp only [mem_keys_mapAssign]
    constructor
    · rintro (h | h | h)
      · exact Or.inl h
      · exact Or.inl h
      · exact Or.inr h
    · rintro (h | h)
      · exact Or.inl h
      · exact Or.inr (Or.inr h)
  | some v => simp only [mem_keys_mapAssign]

theorem mem_keys_simStep_foldl (i w : F) (ps : List (DocWordData F)) (sim : List (Int × F))
    (d : Int) :
    d ∈ (ps.foldl (simStep i w) sim).map Prod.fst ↔
      (∃ p ∈ ps, p.docID = d) ∨ d ∈ sim.map Prod.fst := by
  induction ps generalizing sim with
  | nil => simp
  | cons p ps ih =>
    rw [List.foldl_cons, ih, mem_keys_simStep]
    simp only [List.mem_cons, exists_eq_or_imp]
    constructor
    · rintro (h | h | h)
      · exact Or.inl (Or.inr h)
      · exact Or.inl (Or.inl h.symm)
      · exact Or.inr h
    · rintro ((h | h) | h)
      · exact Or.inr (Or.inl h.symm)
      · exact Or.inl h
      · exact Or.inr (Or.inr h)

/-- A document enters the similarities map through a token with a non-zero weight that has
a posting for it. -/
theorem mem_keys_similarities (idx : InvertedIndex F) (tokens : List Word) (d : Int) :
    d ∈ (similarities idx tokens).map Prod.fst ↔
      ∃ u ∈ tokens, queryWeight idx tokens u ≠ 0 ∧ ∃ p ∈ postingsOf idx u, p.docID = d := by
  unfold similarities
  have key : ∀ (us : List Word) (sim : List (Int × F)),
      d ∈ (us.foldl (simToken idx (queryVector idx tokens)) sim).map Prod.fst ↔
        (∃ u ∈ us, queryWeight idx tokens u ≠ 0 ∧ ∃ p ∈ postingsOf idx u, p.docID = d) ∨
          d ∈ sim.map Prod.fst := by
    intro us
    induction us with
    | nil => intro sim; simp
    | cons u us ih =>
      intro sim
      rw [List.foldl_cons, ih]
      have step : d ∈ (simToken idx (queryVector idx tokens) sim u).map Prod.fst ↔
          (queryWeight idx tokens u ≠ 0 ∧ ∃ p ∈ postingsOf idx u, p.docID = d) ∨
            d ∈ sim.map Prod.fst := by
        unfold simToken
        simp only [queryVector_getD]
        by_cases hw : queryWeight idx tokens u = 0
        · simp [hw]
        · simp only [hw, if_false]
          cases hf : mapFind u idx.dictionary with
          | none => simp [postingsOf, hf]
          | some es =>
            simp only [mem_keys_simStep_foldl]
            simp [postingsOf, hf, hw]
      rw [step]
      simp only [List.mem_cons, exists_eq_or_imp]
      constructor
      · rintro (h | h | h)
        · exact Or.inl (Or.inr h)
        · exact Or.inl (Or.inl h)
        · exact Or.inr h
      · rintro ((h | h) | h)
        · exact Or.inr (Or.inl h)
        · exact Or.inl h
        · exact Or.inr (Or.inr h)
  rw [key tokens []]
  simp

theorem postingsOf_subset_allPostings (idx : InvertedIndex F) (u : Word) :
    ∀ p ∈ postingsOf idx u, p ∈ allPostings idx.dictionary := by
  intro p hp
  unfold postingsOf at hp
  cases hf : mapFind u idx.dictionary with
  | none => simp [hf] at hp
  | some es =>
    simp only [hf, Option.getD_some] at hp
    unfold allPostings
    exact List.mem_flatMap.2 ⟨(u, es), mapFind_mem u es _ hf, hp⟩

/-- The scored results: one entry per key of the similarities map, in the same order, the
similarity divided by the magnitude of the document. -/
theorem queryResults_some (idx : InvertedIndex F) (tokens : List Word)
    (res : List (F × Int)) (h : queryResults idx tokens = some res) :
    res.map Prod.snd = (similarities idx tokens).map Prod.fst ∧
      ∀ e ∈ res, ∃ m, vecGet idx.docsMagnitudes e.2 = some m ∧
        e.1 = (mapFind e.2 (similarities idx tokens)).getD 0 / m := by
  unfold queryResults at h
  rw [mapM_option_some] at h
  have nd := similarities_nodupKeys idx tokens
  generalize similarities idx tokens = sim at h nd ⊢
  induction h with
  | nil => simp
  | cons hb _ ih =>
    rename_i a b l bs hl
    simp only [List.map_cons, List.nodup_cons] at nd
    rcases ih nd.2 with ⟨ih1, ih2⟩
    simp only [Option.map_eq_some'] at hb
    rcases hb with ⟨m, hm, rfl⟩
    refine ⟨by simp [ih1], ?_⟩
    intro e he
    simp only [List.mem_cons] at he
    rcases he with rfl | he
    · refine ⟨m, hm, ?_⟩
      simp [mapFind]
    · rcases ih2 e he with ⟨m', hm', e'⟩
      refine ⟨m', hm', ?_⟩
      have hne : a.1 ≠ e.2 := by
        intro eq
        apply nd.1
        rw [eq, ← ih1]
        exact List.mem_map_of_mem Prod.snd he
      rw [e']
      obtain ⟨a1, a2⟩ := a
      simp only [mapFind]
      simp only at hne
      simp [hne]

theorem queryResults_isSome (idx : InvertedIndex F) (tokens : List Word)
    (h : ∀ p ∈ allPostings idx.dictionary, InRange idx.docsMagnitudes.length p.docID) :
    ∃ res, queryResults idx tokens = some res := by
  unfold queryResults
  apply mapM_option_isSome
  intro e he
  have hk : e.1 ∈ (similarities idx tokens).map Prod.fst := List.mem_map_of_mem Prod.fst he
  rcases (mem_keys_similarities idx tokens e.1).1 hk with ⟨u, _, _, p, hp, hd⟩
  have hr := h p (postingsOf_subset_allPostings idx u p hp)
  rw [hd] at hr
  rcases vecGet_isSome_of_inRange hr with ⟨m, hm⟩
  exact ⟨_, by rw [hm]; rfl⟩

theorem weighted_inRange (log2 sqrt : F → F) (idx0 idx : InvertedIndex F)
    (hw : calculateIDFandBuildDocMagnitudes log2 sqrt idx0 = some idx) :
    ∀ p ∈ allPostings idx.dictionary, InRange idx.docsMagnitudes.length p.docID := by
  rcases weighting_some log2 sqrt idx0 idx hw with ⟨hd, _, _, hl, hr, _⟩
  rw [hd, hl]
  exact hr

theorem similaritySum_eq_distinct (idx : InvertedIndex F) (tokens : List Word) (d : Int) :
    similaritySum idx tokens d = similaritySumDistinct idx tokens d := by
  unfold similaritySum similaritySumDistinct
  rw [sum_map_eq_sum_dedup]
  refine congrArg List.sum (List.map_congr_left ?_)
  intro u hu
  have hk : known idx u = true := by
    have := List.mem_dedup.1 hu
    exact (List.mem_filter.1 this).2
  have hc : (tokens.filter (known idx)).count u = tokens.count u := by
    rw [List.count_filter hk]
  rw [hc]
  unfold queryWeight
  ring

/-- C2: for a weighted index and a tokenized query, the similarity `executeQuery` accumulates
for a document `d` before normalization is the sum, over every token occurrence `u` of the
query present in the index, of `tf(u,d) * idf(u) * w(u)` with
`w(u) = (count_q(u) / m) * idf(u)`, `m` the largest query-side count; grouped by distinct
word, a known word occurring `c` times contributes `c * (c / m) * idf(u)^2 * tf(u,d)`; and
the score of every result is this sum divided by `docsMagnitudes[d]`. -/
theorem executeQuery_similarity_sum (log2 sqrt : F → F) (idx0 idx : InvertedIndex F)
    (hw : calculateIDFandBuildDocMagnitudes log2 sqrt idx0 = some idx) (tokens : List Word) :
    (∀ d, (mapFind d (similarities idx tokens)).getD 0 = similaritySum idx tokens d) ∧
      (∀ d, similaritySum idx tokens d = similaritySumDistinct idx tokens d) ∧
      ∃ res, queryResults idx tokens = some res ∧
        res.map Prod.snd = (similarities idx tokens).map Prod.fst ∧
        ∀ e ∈ res, ∃ m, vecGet idx.docsMagnitudes e.2 = some m ∧
          e.1 = similaritySum idx tokens e.2 / m := by
  refine ⟨fun d => similarities_getD idx tokens d,
    fun d => similaritySum_eq_distinct idx tokens d, ?_⟩
  rcases queryResults_isSome idx tokens (weighted_inRange log2 sqrt idx0 idx hw) with ⟨res, hres⟩
  rcases queryResults_some idx tokens res hres with ⟨h1, h2⟩
  refine ⟨res, hres, h1, ?_⟩
  intro e he
  rcases h2 e he with ⟨m, hm, hs⟩
  exact ⟨m, hm, by rw [hs, similarities_getD]; rfl⟩

/-- Witness of C2 on the demo index and the query tokens quick, fox, quick. -/
theorem executeQuery_similarity_sum_witness :
    calculateIDFandBuildDocMagnitudes id id demoShard = some demoWeighted ∧
      (mapFind 0 (similarities demoWeighted ["quick", "fox", "quick"])).getD 0 =
        similaritySum demoWeighted ["quick", "fox", "quick"] 0 ∧
      similaritySum demoWeighted ["quick", "fox", "quick"] 0 = 25 / 2 :=
  ⟨by with_unfolding_all rfl,
    (executeQuery_similarity_sum id id demoShard demoWeighted (by with_unfolding_all rfl)
      ["quick", "fox", "quick"]).1 0,
    by with_unfolding_all rfl⟩

/-! ## Selection of the top results -/

theorem myCompare_false_iff (a b : F × Int) : myCompare b a = false ↔ b.1 ≤ a.1 := by
  unfold myCompare
  simp

theorem sortSpec_pairwise {sort : List (F × Int) → List (F × Int)} (hs : SortSpec sort)
    (xs : List (F × Int)) : (sort xs).Pairwise (fun a b => b.1 ≤ a.1) := by
  refine List.Pairwise.imp ?_ (hs xs).2
  intro a b h
  exact (myCompare_false_iff a b).1 h

/-- After `nth_element` at position `n`, no element behind position `n` has a higher score
than an element at or in front of position `n`. -/
theorem nthElement_partition {nth : Nat → List (F × Int) → List (F × Int)}
    (hn : NthElementSpec nth) (n : Nat) (xs : List (F × Int)) (hlt : n < xs.length) :
    ∀ a ∈ (nth n xs).take (n + 1), ∀ b ∈ (nth n xs).drop (n + 1), b.1 ≤ a.1 := by
  rcases hn n xs hlt with ⟨hperm, ⟨s, hsperm, hsorted, hget⟩, hB⟩
  set ys := nth n xs with hys
  have hlen : n < ys.length := by rw [hperm.length_eq]; exact hlt
  have hslen : n < s.length := by rw [hsperm.length_eq]; exact hlt
  have hB' : ∀ a ∈ ys.take n, ∀ b ∈ ys.drop n, b.1 ≤ a.1 :=
    fun a ha b hb => (myCompare_false_iff a b).1 (hB a ha b hb)
  have hdrop : ys.drop n = ys[n] :: ys.drop (n + 1) := List.drop_eq_getElem_cons hlen
  have hsdrop : s.drop n = s[n] :: s.drop (n + 1) := List.drop_eq_getElem_cons hslen
  have hv : ys[n] = s[n] := by
    have h1 : ys.get? n = some ys[n] := List.get?_eq_get hlen
    have h2 : s.get? n = some s[n] := List.get?_eq_get hslen
    rw [h1, h2] at hget
    exact Option.some.inj hget
  have htake : ys.take (n + 1) = ys.take n ++ [ys[n]] := by
    rw [List.take_succ, List.getElem?_eq_getElem hlen]; rfl
  intro a ha b hb
  have hbn : b ∈ ys.drop n := by rw [hdrop]; exact List.mem_cons_of_mem _ hb
  rw [htake, List.mem_append, List.mem_singleton] at ha
  rcases ha with ha | ha
  · exact hB' a ha b hbn
  · subst ha
    by_contra hcon
    have hlt' : ys[n].1 < b.1 := not_le.1 hcon
    -- count the elements with a score above that of position n
    have c1 : (ys.take n).countP (fun e => decide (ys[n].1 < e.1)) = n := by
      have : (ys.take n).countP (fun e => decide (ys[n].1 < e.1)) = (ys.take n).length := by
        rw [List.countP_eq_length]
        intro a ha
        simpa using lt_of_lt_of_le hlt' (hB' a ha b hbn)
      rw [this, List.length_take]
      exact min_eq_left (le_of_lt hlen)
    have c2 : 0 < (ys.drop n).countP (fun e => decide (ys[n].1 < e.1)) := by
      rw [List.countP_pos_iff]
      exact ⟨b, hbn, by simpa using hlt'⟩
    have c3 : ys.countP (fun e => decide (ys[n].1 < e.1)) =
        (ys.take n).countP (fun e => decide (ys[n].1 < e.1)) +
          (ys.drop n).countP (fun e => decide (ys[n].1 < e.1)) := by
      rw [← List.countP_append, List.take_append_drop]
    have hs' : s.Pairwise (fun a b => b.1 ≤ a.1) :=
      List.Pairwise.imp (fun {a b} h => (myCompare_false_iff a b).1 h) hsorted
    have d1 : (s.drop n).countP (fun e => decide (ys[n].1 < e.1)) = 0 := by
      rw [List.countP_eq_zero]
      intro e he
      have hp : (s[n] :: s.drop (n + 1)).Pairwise (fun a b => b.1 ≤ a.1) := by
        rw [← hsdrop]
        exact List.Pairwise.sublist (List.drop_sublist n s) hs'
      rw [hsdrop, List.mem_cons] at he
      rcases he with rfl | he
      · simp [hv]
      · have := (List.pairwise_cons.1 hp).1 e he
        rw [hv]
        simpa using this
    have d2 : (s.take n).countP (fun e => decide (ys[n].1 < e.1)) ≤ n := by
      refine le_trans (List.countP_le_length _) ?_
      rw [List.length_take]
      exact min_le_left _ _
    have d3 : s.countP (fun e => decide (ys[n].1 < e.1)) =
        (s.take n).countP (fun e => decide (ys[n].1 < e.1)) +
          (s.drop n).countP (fun e => decide (ys[n].1 < e.1)) := by
      rw [← List.countP_append, List.take_append_drop]
    have e1 : ys.countP (fun e => decide (ys[n].1 < e.1)) =
        s.countP (fun e => decide (ys[n].1 < e.1)) :=
      (hperm.trans hsperm.symm).countP_eq _
    omega

theorem selectTop_topK {nth : Nat → List (F × Int) → List (F × Int)}
    {sort : List (F × Int) → List (F × Int)} (hn : NthElementSpec nth) (hs : SortSpec sort)
    (k : Int) (hk : 1 ≤ k) (res : List (F × Int)) :
    ∃ out, selectTop nth sort k res = some out ∧ TopK res k.toNat out := by
  unfold selectTop
  have hk0 : 0 ≤ k := by omega
  have hkne : k ≠ 0 := by omega
  have hkn : (k.toNat : Int) = k := Int.toNat_of_nonneg hk0
  by_cases hlt : k < res.length
  · have hcond : 0 ≤ k ∧ k < res.length := ⟨hk0, hlt⟩
    simp only [hcond, and_self, if_true, hkne, if_false]
    have hn1 : k.toNat - 1 + 1 = k.toNat := by omega
    have hnlt : k.toNat - 1 < res.length := by omega
    rcases hn (k.toNat - 1) res hnlt with ⟨hperm, _, _⟩
    have hpart := nthElement_partition hn (k.toNat - 1) res hnlt
    rw [hn1] at hpart
    set ys := nth (k.toNat - 1) res with hys
    have hsp := (hs (ys.take k.toNat)).1
    refine ⟨_, rfl, sortSpec_pairwise hs _, ?_, ?_, ?_⟩
    · exact hsp.subperm.trans ((List.take_sublist _ _).subperm.trans hperm.subperm)
    · rw [hsp.length_eq, List.length_take, hperm.length_eq]
    · intro a ha b hb hnb
      have ha' : a ∈ ys.take k.toNat := hsp.mem_iff.1 ha
      have hb' : b ∈ ys := hperm.mem_iff.2 hb
      have hnb' : b ∉ ys.take k.toNat := fun h => hnb (hsp.mem_iff.2 h)
      rw [← List.take_append_drop k.toNat ys, List.mem_append] at hb'
      rcases hb' with hb' | hb'
      · exact absurd hb' hnb'
      · exact hpart a ha' b hb'
  · have hcond : ¬ (0 ≤ k ∧ k < res.length) := fun h => hlt h.2
    simp only [hcond, if_false]
    have hsp := (hs res).1
    refine ⟨_, rfl, sortSpec_pairwise hs _, hsp.subperm, ?_, ?_⟩
    · rw [hsp.length_eq]
      have : res.length ≤ k.toNat := by omega
      exact (min_eq_right this).symm
    · intro a _ b hb hnb
      exact absurd (hsp.mem_iff.2 hb) hnb

theorem topK_kth_le (out : List (F × Int)) (hsorted : out.Pairwise (fun a b => b.1 ≤ a.1))
    (k : Nat) (hlen : out.length = k) (kth : F × Int) (hget : out.get? (k - 1) = some kth) :
    ∀ a ∈ out, kth.1 ≤ a.1 := by
  intro a ha
  rcases List.mem_iff_getElem.1 ha with ⟨i, hi, rfl⟩
  rcases List.get?_eq_some.1 hget with ⟨hk1, hk2⟩
  have hk2' : out[k - 1] = kth := hk2
  rcases Nat.lt_or_ge i (k - 1) with h | h
  · have := List.pairwise_iff_getElem.1 hsorted i (k - 1) hi hk1 h
    rw [hk2'] at this
    exact this
  · have : i = k - 1 := by omega
    subst this
    rw [hk2']

theorem topK_mem_of_above {res : List (F × Int)} {k : Nat} {out : List (F × Int)}
    (h : TopK res k out) (kth : F × Int) (hkth : kth ∈ out) (e : F × Int) (he : e ∈ res)
    (hlt : kth.1 < e.1) : e ∈ out := by
  by_contra hne
  exact absurd (h.2.2.2 kth hkth e he hne) (not_le.2 hlt)

theorem topK_kth_score_le {res : List (F × Int)} (nd : res.Nodup) {k : Nat}
    {out out' : List (F × Int)} (h : TopK res k out) (h' : TopK res k out')
    (kth kth' : F × Int) (hget : out.get? (k - 1) = some kth)
    (hget' : out'.get? (k - 1) = some kth') (hlen : out.length = k) (hlen' : out'.length = k) :
    kth'.1 ≤ kth.1 := by
  by_contra hcon
  have hlt : kth.1 < kth'.1 := not_le.1 hcon
  have hkth : kth ∈ out := List.get?_mem hget
  have hsub : out' ⊆ out.filter (fun e => decide (kth.1 < e.1)) := by
    intro a ha
    have h1 : kth'.1 ≤ a.1 := topK_kth_le out' h'.1 k hlen' kth' hget' a ha
    have h2 : kth.1 < a.1 := lt_of_lt_of_le hlt h1
    rw [List.mem_filter]
    exact ⟨topK_mem_of_above h kth hkth a (h'.2.1.subset ha) h2, by simpa using h2⟩
  have nd' : out'.Nodup := by
    rcases h'.2.1 with ⟨l, hp, hsl⟩
    exact hp.nodup_iff.1 (hsl.nodup nd)
  have hle : out'.length ≤ (out.filter (fun e => decide (kth.1 < e.1))).length :=
    (List.subperm_of_subset nd' hsub).length_le
  have hfl : (out.filter (fun e => decide (kth.1 < e.1))).length < out.length := by
    rw [List.length_filter_lt_length_iff_exists]
    exact ⟨kth, hkth, by simp⟩
  omega

/-- Two top-`k` selections of the same scored results have the same entries strictly above
the score at rank `k`. -/
theorem topK_aboveKth_unique {res : List (F × Int)} (nd : res.Nodup) {k : Nat}
    {out out' : List (F × Int)} (h : TopK res k out) (h' : TopK res k out') :
    ∀ e, e ∈ aboveKth k out ↔ e ∈ aboveKth k out' := by
  have hl : out.length = out'.length := by rw [h.2.2.1, h'.2.2.1]
  intro e
  unfold aboveKth
  cases hget : out.get? (k - 1) with
  | none =>
    have hge : out.length ≤ k - 1 := List.get?_eq_none.1 hget
    have hget' : out'.get? (k - 1) = none := List.get?_eq_none.2 (by omega)
    rw [hget']
    simp only [List.filter_true]
    rcases Nat.le_total k res.length with hle | hle
    · -- then `k = 0` and both lists are empty
      have h0 : out.length = 0 := by
        have := h.2.2.1
        rw [min_eq_left hle] at this; omega
      have h0' : out'.length = 0 := by omega
      rw [List.length_eq_zero.1 h0, List.length_eq_zero.1 h0']
    · -- both lists hold every entry of `res`
      have hfull : out.length = res.length := by
        have := h.2.2.1
        rw [min_eq_right hle] at this; exact this
      have p1 : out.Perm res := h.2.1.perm_of_length_le (by omega)
      have p2 : out'.Perm res := h'.2.1.perm_of_length_le (by omega)
      exact (p1.trans p2.symm).mem_iff
  | some kth =>
    have hlt : k - 1 < out.length := (List.get?_eq_some.1 hget).1
    have hlen : out.length = k := by
      have := h.2.2.1
      have : out.length ≤ k := by rw [this]; exact min_le_left _ _
      omega
    have hlen' : out'.length = k := by omega
    have hlt' : k - 1 < out'.length := by omega
    have hget' : out'.get? (k - 1) = some (out'[k - 1]) := List.get?_eq_get hlt'
    rw [hget']
    have e1 := topK_kth_score_le nd h h' kth _ hget hget' hlen hlen'
    have e2 := topK_kth_score_le nd h' h _ kth hget' hget hlen' hlen
    have hv : kth.1 = (out'[k - 1]).1 := le_antisymm e2 e1
    simp only [List.mem_filter, decide_eq_true_eq]
    constructor
    · rintro ⟨he, hlt⟩
      rw [hv] at hlt
      exact ⟨topK_mem_of_above h' _ (List.get?_mem hget') e (h.2.1.subset he) hlt, hlt⟩
    · rintro ⟨he, hlt⟩
      rw [← hv] at hlt
      exact ⟨topK_mem_of_above h kth (List.get?_mem hget) e (h'.2.1.subset he) hlt, hlt⟩

theorem demoSort_sorted (xs : List (F × Int)) :
    (demoSort xs).Pairwise (fun a b => b.1 ≤ a.1) := by
  haveI : IsTotal (F × Int) (fun a b => b.1 ≤ a.1) := ⟨fun a b => le_total b.1 a.1⟩
  haveI : IsTrans (F × Int) (fun a b => b.1 ≤ a.1) := ⟨fun a b c h1 h2 => le_trans h2 h1⟩
  exact List.sorted_insertionSort (fun a b : F × Int => b.1 ≤ a.1) xs

theorem demoSort_sortSpec : SortSpec (demoSort : List (F × Int) → List (F × Int)) := by
  intro xs
  refine ⟨List.perm_insertionSort _ xs, ?_⟩
  exact List.Pairwise.imp (fun {a b} h => (myCompare_false_iff a b).2 h) (demoSort_sorted xs)

theorem demoSort_nthElementSpec :
    NthElementSpec (fun (_ : Nat) (xs : List (F × Int)) => demoSort xs) := by
  intro n xs _
  refine ⟨List.perm_insertionSort _ xs, ⟨demoSort xs, List.perm_insertionSort _ xs,
    (demoSort_sortSpec xs).2, rfl⟩, ?_⟩
  intro a ha b hb
  have h := demoSort_sorted xs
  rw [← List.take_append_drop n (demoSort xs), List.pairwise_append] at h
  exact (myCompare_false_iff a b).2 (h.2.2 a ha b hb)

/-- C1: for a weighted index and a query with `k ≥ 1`, `executeQuery` returns a list ordered
by non-increasing score, made of scored results; every returned entry scores at least as
high as every matching document (key of the similarities map) that is not returned; and
whatever conforming `nth_element` and `sort` are used, the returned docIDs whose score is
strictly above the score at rank `k` are the same. -/
theorem executeQuery_ranked (log2 sqrt : F → F) (idx0 idx : InvertedIndex F)
    (hw : calculateIDFandBuildDocMagnitudes log2 sqrt idx0 = some idx)
    (nth : Nat → List (F × Int) → List (F × Int)) (sort : List (F × Int) → List (F × Int))
    (hn : NthElementSpec nth) (hs : SortSpec sort) (k : Int) (hk : 1 ≤ k)
    (tokens : List Word) :
    ∃ res out, queryResults idx tokens = some res ∧
      res.map Prod.snd = (similarities idx tokens).map Prod.fst ∧
      executeQueryTokens nth sort idx k tokens = some out ∧
      out.Pairwise (fun a b => b.1 ≤ a.1) ∧
      (∀ e ∈ out, e ∈ res) ∧
      (∀ a ∈ out, ∀ b ∈ res, b.2 ∉ out.map Prod.snd → b.1 ≤ a.1) ∧
      ∀ (nth' : Nat → List (F × Int) → List (F × Int))
        (sort' : List (F × Int) → List (F × Int)), NthElementSpec nth' → SortSpec sort' →
        ∃ out', executeQueryTokens nth' sort' idx k tokens = some out' ∧
          ∀ d, d ∈ (aboveKth k.toNat out).map Prod.snd ↔
            d ∈ (aboveKth k.toNat out').map Prod.snd := by
  rcases queryResults_isSome idx tokens (weighted_inRange log2 sqrt idx0 idx hw) with ⟨res, hres⟩
  have hkeys := (queryResults_some idx tokens res hres).1
  have nd : res.Nodup := by
    have : (res.map Prod.snd).Nodup := by rw [hkeys]; exact similarities_nodupKeys idx tokens
    exact List.Nodup.of_map _ this
  rcases selectTop_topK hn hs k hk res with ⟨out, hout, htop⟩
  refine ⟨res, out, hres, hkeys, ?_, htop.1, fun e he => htop.2.1.subset he, ?_, ?_⟩
  · unfold executeQueryTokens
    rw [hres]
    exact hout
  · intro a ha b hb hnb
    exact htop.2.2.2 a ha b hb (fun h => hnb (List.mem_map_of_mem Prod.snd h))
  · intro nth' sort' hn' hs'
    rcases selectTop_topK hn' hs' k hk res with ⟨out', hout', htop'⟩
    refine ⟨out', ?_, ?_⟩
    · unfold executeQueryTokens
      rw [hres]
      exact hout'
    · intro d
      simp only [List.mem_map]
      constructor
      · rintro ⟨e, he, rfl⟩
        exact ⟨e, (topK_aboveKth_unique nd htop htop' e).1 he, rfl⟩
      · rintro ⟨e, he, rfl⟩
        exact ⟨e, (topK_aboveKth_unique nd htop htop' e).2 he, rfl⟩

/-- Witness of C1: the demo index, insertion sort for both library functions, the query
tokens quick, fox and `k = 1`. -/
theorem executeQuery_ranked_witness :
    calculateIDFandBuildDocMagnitudes id id demoShard = some demoWeighted ∧ (1 : Int) ≤ 1 ∧
      ∃ out, executeQueryTokens (fun _ xs => demoSort xs) demoSort demoWeighted 1
          ["quick", "fox"] = some out ∧ out.Pairwise (fun a b => b.1 ≤ a.1) :=
  ⟨by with_unfolding_all rfl, by decide,
    match executeQuery_ranked id id demoShard demoWeighted (by with_unfolding_all rfl)
      (fun _ xs => demoSort xs) demoSort demoSort_nthElementSpec demoSort_sortSpec 1
      (by decide) ["quick", "fox"] with
    | ⟨_, out, _, _, h, hp, _⟩ => ⟨out, h, hp⟩⟩

/-! ## Building a shard: `add` -/

theorem postingsOf_eq_nil_iff (idx : InvertedIndex F) (h : DictOk idx) (w : Word) :
    postingsOf idx w = [] ↔ mapFind w idx.dictionary = none := by
  unfold postingsOf
  cases hf : mapFind w idx.dictionary with
  | none => simp
  | some es =>
    simp only [Option.getD_some]
    constructor
    · intro he
      exact absurd he (h.2 (w, es) (mapFind_mem w es _ hf))
    · intro h'; cases h'

theorem mapFind_of_postingsOf (idx : InvertedIndex F) (h : DictOk idx) (w : Word) :
    mapFind w idx.dictionary =
      if postingsOf idx w = [] then none else some (postingsOf idx w) := by
  by_cases he : postingsOf idx w = []
  · simp only [he, if_true]
    exact (postingsOf_eq_nil_iff idx h w).1 he
  · simp only [he, if_false]
    unfold postingsOf at he ⊢
    cases hf : mapFind w idx.dictionary with
    | none => simp [hf] at he
    | some es => simp

theorem mem_mapAssign {κ β : Type} [DecidableEq κ] (k : κ) (v : β) (m : List (κ × β))
    (e : κ × β) (h : e ∈ mapAssign k v m) : e = (k, v) ∨ e ∈ m := by
  induction m with
  | nil =>
    simp only [mapAssign, List.mem_singleton] at h
    exact Or.inl h
  | cons a m ih =>
    obtain ⟨k', v'⟩ := a
    by_cases hk : k' = k
    · simp only [mapAssign, hk, if_true, List.mem_cons] at h
      rcases h with h | h
      · exact Or.inl h
      · exact Or.inr (List.mem_cons_of_mem _ h)
    · simp only [mapAssign, hk, if_false, List.mem_cons] at h
      rcases h with h | h
      · exact Or.inr (by rw [h]; exact List.mem_cons_self _ _)
      · rcases ih h with h | h
        · exact Or.inl h
        · exact Or.inr (List.mem_cons_of_mem _ h)

theorem absorb_one (d : Int) (i : Nat) (es : List (DocWordData F)) :
    absorb d 1 [i] es =
      match es.getLast? with
      | none => [freshPosting d i]
      | some last =>
        if last.docID ≠ d then es ++ [freshPosting d i]
        else es.dropLast ++ [bumpPosting last i] := by
  unfold absorb freshPosting bumpPosting
  cases es.getLast? with
  | none => simp
  | some last =>
    by_cases h : last.docID = d <;> simp [h]

theorem absorb_ne_nil (d : Int) (c : Nat) (ps : List Nat) (es : List (DocWordData F))
    (h : es ≠ [] ∨ c ≠ 0) : absorb d c ps es ≠ [] := by
  unfold absorb
  by_cases hc : c = 0
  · simp only [hc, if_true]
    rcases h with h | h
    · exact h
    · exact absurd hc h
  · simp only [hc, if_false]
    cases es.getLast? with
    | none => simp
    | some last =>
      by_cases hd : last.docID = d <;> simp [hd]

/-- One call of `add`: it succeeds on a dictionary without empty lists, and changes only the
postings list of its word. -/
theorem add_spec (idx : InvertedIndex F) (h : DictOk idx) (w : Word) (d : Int) (i : Nat) :
    ∃ idx', add idx w d i = some idx' ∧ DictOk idx' ∧
      idx'.IDF = idx.IDF ∧ idx'.docsMaxFreq = idx.docsMaxFreq ∧
      idx'.docsMagnitudes = idx.docsMagnitudes ∧
      ∀ w', postingsOf idx' w' =
        if w' = w then absorb d 1 [i] (postingsOf idx w) else postingsOf idx w' := by
  have key : ∀ es' : List (DocWordData F), es' ≠ [] →
      es' = absorb d 1 [i] (postingsOf idx w) →
      DictOk { idx with dictionary := mapAssign w es' idx.dictionary } ∧
      ∀ w', postingsOf { idx with dictionary := mapAssign w es' idx.dictionary } w' =
        if w' = w then absorb d 1 [i] (postingsOf idx w) else postingsOf idx w' := by
    intro es' hne heq
    refine ⟨⟨mapAssign_nodupKeys _ _ _ h.1, ?_⟩, ?_⟩
    · intro e he
      rcases mem_mapAssign _ _ _ _ he with he | he
      · rw [he]; exact hne
      · exact h.2 e he
    · intro w'
      unfold postingsOf
      simp only [mapFind_mapAssign]
      by_cases hw : w = w'
      · subst hw
        simp only [if_true, Option.getD_some]
        exact heq
      · have : ¬ w' = w := fun e => hw e.symm
        simp [hw, this]
  unfold add
  cases hf : mapFind w idx.dictionary with
  | none =>
    have hp : postingsOf idx w = [] := by unfold postingsOf; rw [hf]; rfl
    have := key [freshPosting d i] (by simp) (by rw [absorb_one, hp]; rfl)
    exact ⟨_, rfl, this.1, rfl, rfl, rfl, this.2⟩
  | some es =>
    have hp : postingsOf idx w = es := by unfold postingsOf; rw [hf]; rfl
    have hne : es ≠ [] := h.2 (w, es) (mapFind_mem w es _ hf)
    cases hl : es.getLast? with
    | none => exact absurd (List.getLast?_eq_none_iff.1 hl) hne
    | some last =>
      simp only [hl]
      have heq : (if last.docID ≠ d then es ++ [freshPosting d i]
          else es.dropLast ++ [bumpPosting last i]) = absorb d 1 [i] (postingsOf idx w) := by
        rw [absorb_one, hp, hl]
      have hne' : (if last.docID ≠ d then es ++ [freshPosting d i]
          else es.dropLast ++ [bumpPosting last i]) ≠ [] := by
        split <;> simp
      have := key _ hne' heq
      exact ⟨_, rfl, this.1, rfl, rfl, rfl, this.2⟩

/-! ## Building a shard: `addDocument` -/

theorem positionsFrom_eq_nil (w : Word) (i : Nat) (ts : List Word) (h : ts.count w = 0) :
    positionsFrom w i ts = [] := by
  induction ts generalizing i with
  | nil => rfl
  | cons t ts ih =>
    by_cases ht : t = w
    · subst ht; simp at h
    · have hc : ts.count w = 0 := by
        rw [List.count_cons] at h
        omega
      simp [positionsFrom, ht, ih _ hc]

theorem absorb_zero (d : Int) (ps : List Nat) (es : List (DocWordData F)) :
    absorb d 0 ps es = es := by
  simp [absorb]

theorem absorb_absorb (d : Int) (c1 c2 : Nat) (p1 p2 : List Nat) (es : List (DocWordData F))
    (h1 : c1 ≠ 0) (h2 : c2 = 0 → p2 = []) :
    absorb d c2 p2 (absorb d c1 p1 es) = absorb d (c1 + c2) (p1 ++ p2) es := by
  by_cases hc2 : c2 = 0
  · subst hc2
    rw [absorb_zero, h2 rfl]
    simp
  · have h12 : c1 + c2 ≠ 0 := by omega
    unfold absorb
    simp only [h1, hc2, h12, if_false]
    cases hl : es.getLast? with
    | none => simp
    | some last =>
      by_cases hd : last.docID = d
      · simp [hd, List.getLast?_append, List.dropLast_concat, Nat.add_assoc]
      · simp [hd, List.getLast?_append, List.dropLast_concat]

/-- The loop of `addDocument` over the tokens `ts`, from position `i` on. -/
theorem addTokens_spec (d : Int) (ts : List Word) :
    ∀ (idx : InvertedIndex F) (i : Nat), DictOk idx →
    ∃ idx', addTokens idx d i ts = some idx' ∧ DictOk idx' ∧
      idx'.IDF = idx.IDF ∧ idx'.docsMaxFreq = idx.docsMaxFreq ∧
      idx'.docsMagnitudes = idx.docsMagnitudes ∧
      ∀ w, postingsOf idx' w =
        absorb d (ts.count w) (positionsFrom w i ts) (postingsOf idx w) := by
  induction ts with
  | nil =>
    intro idx i h
    exact ⟨idx, rfl, h, rfl, rfl, rfl, fun w => by simp [absorb, positionsFrom]⟩
  | cons t ts ih =>
    intro idx i h
    rcases add_spec idx h t d i with ⟨idx1, h1, ok1, a1, b1, c1, p1⟩
    rcases ih idx1 (i + 1) ok1 with ⟨idx2, h2, ok2, a2, b2, c2, p2⟩
    refine ⟨idx2, ?_, ok2, a2.trans a1, b2.trans b1, c2.trans c1, ?_⟩
    · simp only [addTokens, h1, Option.some_bind]
      exact h2
    · intro w
      rw [p2 w, p1 w]
      by_cases hw : w = t
      · subst hw
        simp only [if_true, positionsFrom, List.count_cons_self]
        rw [absorb_absorb d 1 _ [i] _ _ (by decide)
          (fun h0 => positionsFrom_eq_nil w (i + 1) ts h0)]
        simp [Nat.add_comm]
      · have ht : ¬ t = w := fun e => hw e.symm
        have hc : (t :: ts).count w = ts.count w := by
          rw [List.count_cons]
          simp [ht]
        simp only [hw, if_false, positionsFrom, ht, hc]

theorem absorb_fresh (d : Int) (c : Nat) (ps : List Nat) (es : List (DocWordData F))
    (h : ∀ p ∈ es, p.docID ≠ d) :
    absorb d c ps es =
      if c = 0 then es else es ++ [{ docID := d, TF := 0, freq := c, positions := ps }] := by
  unfold absorb
  by_cases hc : c = 0
  · simp [hc]
  · simp only [hc, if_false]
    cases hl : es.getLast? with
    | none =>
      have : es = [] := List.getLast?_eq_none_iff.1 hl
      simp [this]
    | some last =>
      have hm : last ∈ es := List.mem_of_getLast?_eq_some hl
      simp [h last hm]

/-- One call of `addDocument` for a document whose docID is not yet in the shard: every word
of the document gets one more posting, at the end of its list. -/
theorem addDocument_spec (idx : InvertedIndex F) (h : DictOk idx) (line : List Char) (d : Int)
    (hfresh : ∀ w, ∀ p ∈ postingsOf idx w, p.docID ≠ d) :
    ∃ idx', addDocument idx line d = some idx' ∧ DictOk idx' ∧
      idx'.IDF = idx.IDF ∧ idx'.docsMaxFreq = idx.docsMaxFreq ∧
      idx'.docsMagnitudes = idx.docsMagnitudes ∧
      ∀ w, postingsOf idx' w = postingsOf idx w ++ expectedPostings [(d, line)] w := by
  rcases addTokens_spec d (tokenize line) idx 0 h with ⟨idx', h1, ok, a, b, c, p⟩
  refine ⟨idx', h1, ok, a, b, c, ?_⟩
  intro w
  rw [p w, absorb_fresh d _ _ _ (hfresh w)]
  unfold expectedPostings docPosting
  by_cases hw : w ∈ tokenize line
  · have : (tokenize line).count w ≠ 0 := Nat.pos_iff_ne_zero.1 (List.count_pos_iff.2 hw)
    simp [this, hw]
  · simp [List.count_eq_zero_of_not_mem hw, hw]

theorem expectedPostings_cons (d : Int × List Char) (docs : List (Int × List Char)) (w : Word) :
    (expectedPostings (d :: docs) w : List (DocWordData F)) =
      expectedPostings [d] w ++ expectedPostings docs w := by
  unfold expectedPostings
  by_cases hw : w ∈ tokenize d.2 <;> simp [List.filter_cons, hw]

theorem expectedPostings_docID (docs : List (Int × List Char)) (w : Word) :
    ∀ p ∈ (expectedPostings docs w : List (DocWordData F)), p.docID ∈ docs.map Prod.fst := by
  intro p hp
  unfold expectedPostings at hp
  rcases List.mem_map.1 hp with ⟨e, he, rfl⟩
  exact List.mem_map_of_mem Prod.fst (List.mem_filter.1 he).1

/-- A worker's ingestion of documents with pairwise distinct docIDs, none of them in the shard
yet: every word's postings list grows by its postings for these documents, in order. -/
theorem ingest_spec (docs : List (Int × List Char)) :
    ∀ (idx : InvertedIndex F), DictOk idx → (docs.map Prod.fst).Nodup →
    (∀ w, ∀ p ∈ postingsOf idx w, p.docID ∉ docs.map Prod.fst) →
    ∃ idx', ingest idx docs = some idx' ∧ DictOk idx' ∧
      idx'.IDF = idx.IDF ∧ idx'.docsMaxFreq = idx.docsMaxFreq ∧
      idx'.docsMagnitudes = idx.docsMagnitudes ∧
      ∀ w, postingsOf idx' w = postingsOf idx w ++ expectedPostings docs w := by
  induction docs with
  | nil =>
    intro idx h _ _
    exact ⟨idx, rfl, h, rfl, rfl, rfl, fun w => by simp [expectedPostings]⟩
  | cons d docs ih =>
    intro idx h nd hfresh
    simp only [List.map_cons, List.nodup_cons] at nd
    have hf1 : ∀ w, ∀ p ∈ postingsOf idx w, p.docID ≠ d.1 := by
      intro w p hp e
      exact hfresh w p hp (by rw [e]; exact List.mem_cons_self _ _)
    rcases addDocument_spec idx h d.2 d.1 hf1 with ⟨idx1, h1, ok1, a1, b1, c1, p1⟩
    have hf2 : ∀ w, ∀ p ∈ postingsOf idx1 w, p.docID ∉ docs.map Prod.fst := by
      intro w p hp
      rw [p1 w, List.mem_append] at hp
      rcases hp with hp | hp
      · intro hm
        exact hfresh w p hp (List.mem_cons_of_mem _ hm)
      · have := expectedPostings_docID [(d.1, d.2)] w p hp
        simp only [List.map_cons, List.map_nil, List.mem_singleton] at this
        rw [this]
        exact nd.1
    rcases ih idx1 ok1 nd.2 hf2 with ⟨idx2, h2, ok2, a2, b2, c2, p2⟩
    refine ⟨idx2, ?_, ok2, a2.trans a1, b2.trans b1, c2.trans c1, ?_⟩
    · simp only [ingest, h1, Option.some_bind]
      exact h2
    · intro w
      rw [p2 w, p1 w, expectedPostings_cons d docs w, List.append_assoc]

theorem dictOk_new (N : Nat) : DictOk (InvertedIndex.new N : InvertedIndex F) := by
  unfold DictOk InvertedIndex.new
  simp

/-- A fresh shard after ingestion: the postings list of every word. -/
theorem ingest_new (N : Nat) (docs : List (Int × List Char)) (nd : (docs.map Prod.fst).Nodup) :
    ∃ idx : InvertedIndex F, ingest (InvertedIndex.new N) docs = some idx ∧ DictOk idx ∧
      idx.IDF = [] ∧ idx.docsMaxFreq = List.replicate N 0 ∧
      idx.docsMagnitudes = List.replicate N 0 ∧
      ∀ w, postingsOf idx w = expectedPostings docs w := by
  rcases ingest_spec docs (InvertedIndex.new N : InvertedIndex F) (dictOk_new N) nd
    (fun w p hp => by simp [postingsOf, InvertedIndex.new, mapFind] at hp) with
    ⟨idx, h, ok, a, b, c, p⟩
  refine ⟨idx, h, ok, a, b, c, ?_⟩
  intro w
  rw [p w]
  simp [postingsOf, InvertedIndex.new, mapFind]

theorem nodup_of_increasing (ids : List Int) (h : ids.Pairwise (fun a b => a < b)) :
    ids.Nodup :=
  List.Pairwise.imp (fun hab => ne_of_lt hab) h

theorem expectedPostings_docIDs_nodup (docs : List (Int × List Char))
    (nd : (docs.map Prod.fst).Nodup) (w : Word) :
    ((expectedPostings docs w : List (DocWordData F)).map (fun p => p.docID)).Nodup := by
  unfold expectedPostings
  rw [List.map_map]
  have : ((fun p : DocWordData F => p.docID) ∘
      fun d : Int × List Char => (docPosting d.1 (tokenize d.2) w : DocWordData F)) =
      Prod.fst := by
    funext d; rfl
  rw [this]
  exact (List.Nodup.sublist ((List.filter_sublist _).map Prod.fst) nd)

theorem mem_expectedPostings (docs : List (Int × List Char))
    (nd : (docs.map Prod.fst).Nodup) (w : Word) (d : Int × List Char) (hd : d ∈ docs)
    (p : DocWordData F) :
    (p ∈ expectedPostings docs w ∧ p.docID = d.1) ↔
      (w ∈ tokenize d.2 ∧ p = docPosting d.1 (tokenize d.2) w) := by
  unfold expectedPostings
  constructor
  · rintro ⟨hp, hid⟩
    rcases List.mem_map.1 hp with ⟨e, he, rfl⟩
    rcases List.mem_filter.1 he with ⟨he1, he2⟩
    have : e = d := List.inj_on_of_nodup_map nd he1 hd hid
    subst this
    exact ⟨by simpa using he2, rfl⟩
  · rintro ⟨hw, rfl⟩
    refine ⟨List.mem_map.2 ⟨d, List.mem_filter.2 ⟨hd, by simpa using hw⟩, rfl⟩, rfl⟩

/-- C5: in a shard fed documents in strictly increasing docID order through `addDocument`,
for every term `t`: the postings list of `t` has a posting for a document `d` exactly when
`t` occurs in the tokenization of `d`; that posting's `freq` is the number of occurrences of
`t` in the token sequence of `d`; there is no posting for any other docID and at most one
per docID; so the length of the list, df(t), is the number of documents containing `t`. -/
theorem addDocument_postings_of_term (N : Nat) (docs : List (Int × List Char))
    (hinc : (docs.map Prod.fst).Pairwise (fun a b => a < b)) :
    ∃ idx : InvertedIndex F, ingest (InvertedIndex.new N) docs = some idx ∧
      ∀ t : Word,
        (∀ d ∈ docs, (∃ p ∈ postingsOf idx t, p.docID = d.1) ↔ t ∈ tokenize d.2) ∧
        (∀ d ∈ docs, ∀ p ∈ postingsOf idx t, p.docID = d.1 →
          p.freq = (tokenize d.2).count t) ∧
        (∀ p ∈ postingsOf idx t, p.docID ∈ docs.map Prod.fst) ∧
        ((postingsOf idx t).map (fun p => p.docID)).Nodup ∧
        (postingsOf idx t).length =
          (docs.filter (fun d => decide (t ∈ tokenize d.2))).length := by
  have nd := nodup_of_increasing _ hinc
  rcases ingest_new (F := F) N docs nd with ⟨idx, h, _, _, _, _, p⟩
  refine ⟨idx, h, ?_⟩
  intro t
  rw [p t]
  refine ⟨?_, ?_, expectedPostings_docID docs t, expectedPostings_docIDs_nodup docs nd t, ?_⟩
  · intro d hd
    constructor
    · rintro ⟨q, hq, hid⟩
      exact ((mem_expectedPostings docs nd t d hd q).1 ⟨hq, hid⟩).1
    · intro ht
      refine ⟨docPosting d.1 (tokenize d.2) t, ?_, rfl⟩
      exact ((mem_expectedPostings docs nd t d hd _).2 ⟨ht, rfl⟩).1
  · intro d hd q hq hid
    rw [((mem_expectedPostings docs nd t d hd q).1 ⟨hq, hid⟩).2]
    rfl
  · unfold expectedPostings
    rw [List.length_map]

/-- Witness of C5 on the demo corpus: the word quick gets two postings. -/
theorem addDocument_postings_of_term_witness :
    (demoCorpus.map Prod.fst).Pairwise (fun a b => a < b) ∧
      ∃ idx : InvertedIndex ℚ, ingest (InvertedIndex.new 2) demoCorpus = some idx ∧
        (postingsOf idx "quick").length = 2 :=
  ⟨by decide,
    match addDocument_postings_of_term (F := ℚ) 2 demoCorpus (by decide) with
    | ⟨idx, h, hp⟩ => ⟨idx, h, by rw [(hp "quick").2.2.2.2]; decide⟩⟩

/-! ## `calculateDocMaxFreq` -/

theorem vecSet_self {β : Type} (v : List β) (i : Int) (x : β) (h : vecGet v i = some x) :
    vecSet v i x = some v := by
  have hr := vecGet_eq_some_inRange h
  have hr' : 0 ≤ i ∧ i.toNat < v.length := hr
  unfold vecSet
  simp only [hr', and_self, if_true, Option.some.injEq]
  unfold vecGet at h
  simp only [hr.1, if_true] at h
  apply List.ext_get?
  intro n
  by_cases hn : i.toNat = n
  · subst hn
    simp only [List.get?_eq_getElem?] at h ⊢
    rw [List.getElem?_set]
    simp [hr.2, h]
  · simp only [List.get?_eq_getElem?]
    rw [List.getElem?_set]
    simp [hn]

theorem maxFreqStep_eq (mf : List Nat) (p : DocWordData F) :
    maxFreqStep mf p =
      vecUpdate mf p.docID (fun cur => if cur < p.freq then p.freq else cur) := by
  unfold maxFreqStep vecUpdate
  cases h : vecGet mf p.docID with
  | none => rfl
  | some cur =>
    simp only
    by_cases hc : cur < p.freq
    · simp [hc]
    · simp only [hc, if_false]
      exact (vecSet_self mf p.docID cur h).symm

theorem maxFold_spec (j : Int) (ps : List (DocWordData F)) (x : Nat) :
    x ≤ maxFold j ps x ∧ (∀ p ∈ ps, p.docID = j → p.freq ≤ maxFold j ps x) ∧
      (maxFold j ps x = x ∨ ∃ p ∈ ps, p.docID = j ∧ p.freq = maxFold j ps x) := by
  induction ps generalizing x with
  | nil => simp [maxFold]
  | cons q ps ih =>
    have hstep : maxFold j (q :: ps) x =
        maxFold j ps (if q.docID = j then (if x < q.freq then q.freq else x) else x) := rfl
    rw [hstep]
    rcases ih (if q.docID = j then (if x < q.freq then q.freq else x) else x) with ⟨h1, h2, h3⟩
    have hx : x ≤ (if q.docID = j then (if x < q.freq then q.freq else x) else x) := by
      split
      · split
        · omega
        · exact le_refl _
      · exact le_refl _
    refine ⟨le_trans hx h1, ?_, ?_⟩
    · intro p hp hid
      simp only [List.mem_cons] at hp
      rcases hp with rfl | hp
      · refine le_trans ?_ h1
        simp only [hid, if_true]
        split
        · exact le_refl _
        · omega
      · exact h2 p hp hid
    · rcases h3 with h3 | ⟨p, hp, hid, hf⟩
      · by_cases hq : q.docID = j
        · by_cases hlt : x < q.freq
          · right
            refine ⟨q, List.mem_cons_self _ _, hq, ?_⟩
            rw [h3]; simp [hq, hlt]
          · left
            rw [h3]; simp [hq, hlt]
        · left
          rw [h3]; simp [hq]
      · exact Or.inr ⟨p, List.mem_cons_of_mem _ hp, hid, hf⟩

theorem calculateDocMaxFreq_eq (idx : InvertedIndex F) :
    calculateDocMaxFreq idx =
      ((allPostings idx.dictionary).foldlM
        (fun v (p : DocWordData F) =>
          vecUpdate v p.docID (fun cur => if cur < p.freq then p.freq else cur))
        idx.docsMaxFreq).map (fun mf => { idx with docsMaxFreq := mf }) := by
  unfold calculateDocMaxFreq allPostings
  rw [foldlM_flatMap]
  have : maxFreqStep = fun (v : List Nat) (p : DocWordData F) =>
      vecUpdate v p.docID (fun cur => if cur < p.freq then p.freq else cur) := by
    funext v p
    exact maxFreqStep_eq v p
  rw [this]

/-- What `calculateDocMaxFreq` does, when it succeeds. -/
theorem calculateDocMaxFreq_some (idx s : InvertedIndex F) (h : calculateDocMaxFreq idx = some s) :
    s.dictionary = idx.dictionary ∧ s.IDF = idx.IDF ∧ s.docsMagnitudes = idx.docsMagnitudes ∧
      s.docsMaxFreq.length = idx.docsMaxFreq.length ∧
      (∀ p ∈ allPostings idx.dictionary, InRange idx.docsMaxFreq.length p.docID) ∧
      ∀ j : Int, vecGet s.docsMaxFreq j =
        (vecGet idx.docsMaxFreq j).map (maxFold j (allPostings idx.dictionary)) := by
  rw [calculateDocMaxFreq_eq] at h
  simp only [Option.map_eq_some'] at h
  rcases h with ⟨mf, hm, rfl⟩
  rcases foldlM_vecUpdate_some (fun p : DocWordData F => p.docID)
    (fun p cur => if cur < p.freq then p.freq else cur) _ _ _ hm with ⟨hl, hr, hg⟩
  exact ⟨rfl, rfl, rfl, hl, hr, fun j => hg j⟩

theorem calculateDocMaxFreq_isSome (idx : InvertedIndex F)
    (h : ∀ p ∈ allPostings idx.dictionary, InRange idx.docsMaxFreq.length p.docID) :
    ∃ s, calculateDocMaxFreq idx = some s := by
  rw [calculateDocMaxFreq_eq]
  rcases foldlM_vecUpdate_isSome (fun p : DocWordData F => p.docID)
    (fun p cur => if cur < p.freq then p.freq else cur) _ _ h with ⟨mf, hm⟩
  rw [hm]
  exact ⟨_, rfl⟩

theorem mem_allPostings_iff (idx : InvertedIndex F) (nd : (idx.dictionary.map Prod.fst).Nodup)
    (p : DocWordData F) :
    p ∈ allPostings idx.dictionary ↔ ∃ w, p ∈ postingsOf idx w := by
  constructor
  · intro hp
    unfold allPostings at hp
    rcases List.mem_flatMap.1 hp with ⟨e, he, hpe⟩
    refine ⟨e.1, ?_⟩
    unfold postingsOf
    rw [mapFind_of_mem e.1 e.2 _ nd he]
    exact hpe
  · rintro ⟨w, hw⟩
    exact postingsOf_subset_allPostings idx w p hw

theorem vecGet_replicate {β : Type} (N : Nat) (x : β) (j : Int) :
    vecGet (List.replicate N x) j = if InRange N j then some x else none := by
  unfold vecGet InRange
  by_cases h0 : 0 ≤ j
  · by_cases h1 : j.toNat < N
    · simp [h0, h1, List.getElem?_replicate]
    · simp [h0, h1, List.getElem?_replicate]
  · simp [h0]

/-- The running maximum of `calculateDocMaxFreq` for a document of the shard, from 0, is the
largest term count of the document. -/
theorem maxFold_owned (idx : InvertedIndex F) (ok : DictOk idx)
    (docs : List (Int × List Char)) (nd : (docs.map Prod.fst).Nodup)
    (hp : ∀ w, postingsOf idx w = expectedPostings docs w)
    (d : Int × List Char) (hd : d ∈ docs) :
    maxFold d.1 (allPostings idx.dictionary) 0 = maxTermFreq (tokenize d.2) := by
  rcases maxFold_spec d.1 (allPostings idx.dictionary) 0 with ⟨_, h2, h3⟩
  have hmem : ∀ p : DocWordData F, p ∈ allPostings idx.dictionary → p.docID = d.1 →
      ∃ w, w ∈ tokenize d.2 ∧ p = docPosting d.1 (tokenize d.2) w := by
    intro p hp' hid
    rcases (mem_allPostings_iff idx ok.1 p).1 hp' with ⟨w, hw⟩
    rw [hp w] at hw
    exact ⟨w, (mem_expectedPostings docs nd w d hd p).1 ⟨hw, hid⟩⟩
  have hle : ∀ u, (tokenize d.2).count u ≤ maxFold d.1 (allPostings idx.dictionary) 0 := by
    intro u
    by_cases hu : u ∈ tokenize d.2
    · have hq : (docPosting d.1 (tokenize d.2) u : DocWordData F) ∈ expectedPostings docs u :=
        ((mem_expectedPostings docs nd u d hd _).2 ⟨hu, rfl⟩).1
      rw [← hp u] at hq
      exact h2 _ (postingsOf_subset_allPostings idx u _ hq) rfl
    · rw [List.count_eq_zero_of_not_mem hu]; exact Nat.zero_le _
  by_cases hne : tokenize d.2 = []
  · rw [hne, maxTermFreq_nil]
    rcases h3 with h3 | ⟨p, hp', hid, _⟩
    · exact h3
    · rcases hmem p hp' hid with ⟨w, hw, _⟩
      rw [hne] at hw
      simp at hw
  · symm
    apply maxTermFreq_unique _ _ hle
    rcases h3 with h3 | ⟨p, hp', hid, hf⟩
    · rcases List.exists_mem_of_ne_nil _ hne with ⟨u, hu⟩
      have h1 := hle u
      have h0 : 0 < (tokenize d.2).count u := List.count_pos_iff.2 hu
      omega
    · rcases hmem p hp' hid with ⟨w, _, rfl⟩
      exact ⟨w, hf⟩

theorem maxFold_not_owned (idx : InvertedIndex F) (ok : DictOk idx)
    (docs : List (Int × List Char))
    (hp : ∀ w, postingsOf idx w = expectedPostings docs w)
    (j : Int) (hj : j ∉ docs.map Prod.fst) :
    maxFold j (allPostings idx.dictionary) 0 = 0 := by
  rcases maxFold_spec j (allPostings idx.dictionary) 0 with ⟨_, _, h3⟩
  rcases h3 with h3 | ⟨p, hp', hid, _⟩
  · exact h3
  · rcases (mem_allPostings_iff idx ok.1 p).1 hp' with ⟨w, hw⟩
    rw [hp w] at hw
    have := expectedPostings_docID docs w p hw
    rw [hid] at this
    exact absurd this hj

theorem ingested_inRange (idx : InvertedIndex F) (ok : DictOk idx)
    (docs : List (Int × List Char)) (N : Nat)
    (hp : ∀ w, postingsOf idx w = expectedPostings docs w)
    (hr : ∀ d ∈ docs, InRange N d.1) :
    ∀ p ∈ allPostings idx.dictionary, InRange N p.docID := by
  intro p hp'
  rcases (mem_allPostings_iff idx ok.1 p).1 hp' with ⟨w, hw⟩
  rw [hp w] at hw
  rcases List.mem_map.1 (expectedPostings_docID docs w p hw) with ⟨d, hd, e⟩
  rw [← e]
  exact hr d hd

/-- C10: `calculateDocMaxFreq` on a shard whose `docsMaxFreq` started all zero: for every
document `d` the shard owns, `docsMaxFreq[d]` is the maximum over the terms of their number
of occurrences in `d` (at least the `freq` of every posting of `d`, attained by one of them
when `d` has a token), it is positive exactly when `d` has a token, and the entries of
documents the shard does not own stay 0. -/
theorem calculateDocMaxFreq_entries (N : Nat) (docs : List (Int × List Char))
    (hinc : (docs.map Prod.fst).Pairwise (fun a b => a < b))
    (hr : ∀ d ∈ docs, InRange N d.1) :
    ∃ idx s : InvertedIndex F, ingest (InvertedIndex.new N) docs = some idx ∧
      idx.docsMaxFreq = List.replicate N 0 ∧
      calculateDocMaxFreq idx = some s ∧
      (∀ d ∈ docs,
        vecGet s.docsMaxFreq d.1 = some (maxTermFreq (tokenize d.2)) ∧
        (∀ t, ∀ p ∈ postingsOf s t, p.docID = d.1 → p.freq ≤ maxTermFreq (tokenize d.2)) ∧
        (tokenize d.2 ≠ [] → ∃ t, ∃ p ∈ postingsOf s t, p.docID = d.1 ∧
          p.freq = maxTermFreq (tokenize d.2)) ∧
        (0 < maxTermFreq (tokenize d.2) ↔ tokenize d.2 ≠ [])) ∧
      ∀ j, InRange N j → j ∉ docs.map Prod.fst → vecGet s.docsMaxFreq j = some 0 := by
  have nd := nodup_of_increasing _ hinc
  rcases ingest_new (F := F) N docs nd with ⟨idx, h, ok, _, hmf, _, hp⟩
  have hir : ∀ p ∈ allPostings idx.dictionary, InRange idx.docsMaxFreq.length p.docID := by
    rw [hmf, List.length_replicate]
    exact ingested_inRange idx ok docs N hp hr
  rcases calculateDocMaxFreq_isSome idx hir with ⟨s, hs⟩
  rcases calculateDocMaxFreq_some idx s hs with ⟨hdict, _, _, _, _, hget⟩
  have hps : ∀ w, postingsOf s w = expectedPostings docs w := by
    intro w
    rw [← hp w]
    unfold postingsOf
    rw [hdict]
  refine ⟨idx, s, h, hmf, hs, ?_, ?_⟩
  · intro d hd
    have hval : vecGet s.docsMaxFreq d.1 = some (maxTermFreq (tokenize d.2)) := by
      rw [hget d.1, hmf, vecGet_replicate]
      simp only [hr d hd, if_true, Option.map_some']
      rw [maxFold_owned idx ok docs nd hp d hd]
    refine ⟨hval, ?_, ?_, ?_⟩
    · intro t p hpt hid
      rw [hps t] at hpt
      rw [((mem_expectedPostings docs nd t d hd p).1 ⟨hpt, hid⟩).2]
      exact count_le_maxTermFreq _ t
    · intro hne
      rcases maxTermFreq_attained _ hne with ⟨u, hu, hc⟩
      refine ⟨u, docPosting d.1 (tokenize d.2) u, ?_, rfl, hc⟩
      rw [hps u]
      exact ((mem_expectedPostings docs nd u d hd _).2 ⟨hu, rfl⟩).1
    · constructor
      · intro hpos hnil
        rw [hnil, maxTermFreq_nil] at hpos
        exact absurd hpos (lt_irrefl 0)
      · exact maxTermFreq_pos _
  · intro j hj hnot
    rw [hget j, hmf, vecGet_replicate]
    simp only [hj, if_true, Option.map_some']
    rw [maxFold_not_owned idx ok docs hp j hnot]

/-- Witness of C10 on the demo corpus with three document slots: the entries are 1, 2, 0. -/
theorem calculateDocMaxFreq_entries_witness :
    (demoCorpus.map Prod.fst).Pairwise (fun a b => a < b) ∧
      (∀ d ∈ demoCorpus, InRange 3 d.1) ∧
      ∃ idx s : InvertedIndex ℚ, ingest (InvertedIndex.new 3) demoCorpus = some idx ∧
        calculateDocMaxFreq idx = some s ∧ vecGet s.docsMaxFreq 2 = some 0 :=
  ⟨by decide, by decide,
    match calculateDocMaxFreq_entries (F := ℚ) 3 demoCorpus (by decide) (by decide) with
    | ⟨idx, s, h1, _, h2, _, h3⟩ => ⟨idx, s, h1, h2, h3 2 (by decide) (by decide)⟩⟩

/-! ## `calculateTF` and the finished shard -/

theorem mapM_option_eq_map {α β : Type} (f : α → Option β) (g : α → β) (l : List α)
    (h : ∀ x ∈ l, f x = some (g x)) : l.mapM f = some (l.map g) := by
  induction l with
  | nil => rfl
  | cons a l ih =>
    rw [mapM_option_cons, h a (List.mem_cons_self _ _),
      ih (fun x hx => h x (List.mem_cons_of_mem _ hx))]
    rfl

theorem tfStep_of_inRange (mf : List Nat) (p : DocWordData F)
    (h : InRange mf.length p.docID) : tfStep mf p = some (setTF mf p) := by
  rcases vecGet_isSome_of_inRange h with ⟨m, hm⟩
  unfold tfStep setTF
  rw [hm]
  rfl

theorem calculateTF_of_inRange (idx : InvertedIndex F)
    (h : ∀ p ∈ allPostings idx.dictionary, InRange idx.docsMaxFreq.length p.docID) :
    calculateTF idx = some (mapPostings idx (setTF idx.docsMaxFreq)) := by
  unfold calculateTF
  rw [mapM_option_eq_map _ (fun e => (e.1, e.2.map (setTF idx.docsMaxFreq)))]
  · rfl
  · intro e he
    rw [mapM_option_eq_map _ (setTF idx.docsMaxFreq)]
    · rfl
    · intro p hp
      exact tfStep_of_inRange _ _ (h p (List.mem_flatMap.2 ⟨e, he, hp⟩))

theorem calculateTF_some (idx s : InvertedIndex F) (h : calculateTF idx = some s) :
    ∀ p ∈ allPostings idx.dictionary, InRange idx.docsMaxFreq.length p.docID := by
  unfold calculateTF at h
  simp only [Option.map_eq_some'] at h
  rcases h with ⟨dict, hd, _⟩
  intro p hp
  rcases List.mem_flatMap.1 hp with ⟨e, he, hpe⟩
  rcases mapM_option_mem _ _ _ hd e he with ⟨y, hy⟩
  simp only [Option.map_eq_some'] at hy
  rcases hy with ⟨es, hes, _⟩
  rcases mapM_option_mem _ _ _ hes p hpe with ⟨q, hq⟩
  unfold tfStep at hq
  simp only [Option.map_eq_some'] at hq
  rcases hq with ⟨m, hm, _⟩
  exact vecGet_eq_some_inRange hm

theorem postingsOf_map (idx : InvertedIndex F) (g : DocWordData F → DocWordData F) (w : Word) :
    postingsOf (mapPostings idx g) w = (postingsOf idx w).map g := by
  unfold postingsOf mapPostings
  have := mapFind_map_val w (fun (_ : Word) (es : List (DocWordData F)) => es.map g)
    idx.dictionary
  simp only at this ⊢
  rw [this]
  cases mapFind w idx.dictionary <;> simp

theorem dictOk_map (idx : InvertedIndex F) (g : DocWordData F → DocWordData F)
    (ok : DictOk idx) :
    DictOk (mapPostings idx g) := by
  unfold DictOk mapPostings at *
  constructor
  · simp only [List.map_map]
    exact ok.1
  · intro e he
    rcases List.mem_map.1 he with ⟨e0, he0, rfl⟩
    simp only [ne_eq, List.map_eq_nil_iff]
    exact ok.2 e0 he0

theorem mapFind_docs (docs : List (Int × List Char)) (nd : (docs.map Prod.fst).Nodup)
    (d : Int × List Char) (hd : d ∈ docs) : mapFind d.1 docs = some d.2 :=
  mapFind_of_mem d.1 d.2 docs nd hd

theorem shardMaxFreq_owned (docs : List (Int × List Char)) (nd : (docs.map Prod.fst).Nodup)
    (d : Int × List Char) (hd : d ∈ docs) :
    shardMaxFreq docs d.1 = maxTermFreq (tokenize d.2) := by
  unfold shardMaxFreq
  rw [mapFind_docs docs nd d hd]

theorem shardMaxFreq_not_owned (docs : List (Int × List Char)) (j : Int)
    (hj : j ∉ docs.map Prod.fst) : shardMaxFreq docs j = 0 := by
  unfold shardMaxFreq
  rw [(mapFind_eq_none_iff j docs).2 hj]

/-- The finished shard of a worker that pulled the documents `docs` (pairwise distinct docIDs
inside the vectors): the closed form of its dictionary and of `docsMaxFreq`. -/
theorem buildShard_spec (N : Nat) (docs : List (Int × List Char))
    (nd : (docs.map Prod.fst).Nodup) (hr : ∀ d ∈ docs, InRange N d.1) :
    ∃ s : InvertedIndex F, buildShard N docs = some s ∧ DictOk s ∧ s.IDF = [] ∧
      s.docsMagnitudes = List.replicate N 0 ∧ s.docsMaxFreq.length = N ∧
      (∀ j, vecGet s.docsMaxFreq j = if InRange N j then some (shardMaxFreq docs j) else none) ∧
      ∀ w, postingsOf s w = shardPostings docs w := by
  rcases ingest_new (F := F) N docs nd with ⟨idx, h, ok, hidf, hmf, hmag, hp⟩
  have hir : ∀ p ∈ allPostings idx.dictionary, InRange idx.docsMaxFreq.length p.docID := by
    rw [hmf, List.length_replicate]
    exact ingested_inRange idx ok docs N hp hr
  rcases calculateDocMaxFreq_isSome idx hir with ⟨s1, hs1⟩
  rcases calculateDocMaxFreq_some idx s1 hs1 with ⟨hdict, hidf1, hmag1, hlen, _, hget⟩
  have hlenN : s1.docsMaxFreq.length = N := by rw [hlen, hmf, List.length_replicate]
  have hir1 : ∀ p ∈ allPostings s1.dictionary, InRange s1.docsMaxFreq.length p.docID := by
    rw [hdict, hlen]; exact hir
  have hget1 : ∀ j, vecGet s1.docsMaxFreq j =
      if InRange N j then some (shardMaxFreq docs j) else none := by
    intro j
    rw [hget j, hmf, vecGet_replicate]
    by_cases hj : InRange N j
    · simp only [hj, if_true, Option.map_some', Option.some.injEq]
      by_cases hown : j ∈ docs.map Prod.fst
      · rcases List.mem_map.1 hown with ⟨d, hd, rfl⟩
        rw [maxFold_owned idx ok docs nd hp d hd, shardMaxFreq_owned docs nd d hd]
      · rw [maxFold_not_owned idx ok docs hp j hown, shardMaxFreq_not_owned docs j hown]
    · simp [hj]
  have ok1 : DictOk s1 := by
    unfold DictOk at ok ⊢
    rw [hdict]; exact ok
  refine ⟨_, ?_, dictOk_map s1 (setTF s1.docsMaxFreq) ok1, hidf1.trans hidf,
    hmag1.trans hmag, hlenN, hget1, ?_⟩
  · unfold buildShard
    rw [h]
    simp only [Option.some_bind, hs1]
    exact calculateTF_of_inRange s1 hir1
  · intro w
    rw [postingsOf_map]
    have : postingsOf s1 w = expectedPostings docs w := by
      rw [← hp w]; unfold postingsOf; rw [hdict]
    rw [this]
    unfold expectedPostings shardPostings
    rw [List.map_map]
    apply List.map_congr_left
    intro d hd
    have hd' : d ∈ docs := (List.mem_filter.1 hd).1
    simp only [Function.comp, setTF, docPosting, finalPosting]
    rw [hget1 d.1]
    simp only [hr d hd', if_true, Option.getD_some]
    rw [shardMaxFreq_owned docs nd d hd']

theorem mem_shardPostings (docs : List (Int × List Char)) (w : Word) (p : DocWordData F)
    (hp : p ∈ shardPostings docs w) :
    ∃ d ∈ docs, w ∈ tokenize d.2 ∧ p = finalPosting d.1 (tokenize d.2) w := by
  unfold shardPostings at hp
  rcases List.mem_map.1 hp with ⟨d, hd, rfl⟩
  rcases List.mem_filter.1 hd with ⟨hd1, hd2⟩
  exact ⟨d, hd1, by simpa using hd2, rfl⟩

/-- C6: after `calculateDocMaxFreq` followed by `calculateTF` on a shard, every posting has
`TF = freq / docsMaxFreq[docID]` exactly, with a positive divisor, and `0 < TF ≤ 1`. -/
theorem calculateTF_values (N : Nat) (docs : List (Int × List Char))
    (hinc : (docs.map Prod.fst).Pairwise (fun a b => a < b))
    (hr : ∀ d ∈ docs, InRange N d.1) :
    ∃ s : InvertedIndex F, buildShard N docs = some s ∧
      ∀ t, ∀ p ∈ postingsOf s t, ∃ m : Nat, vecGet s.docsMaxFreq p.docID = some m ∧
        0 < m ∧ p.TF = (p.freq : F) / (m : F) ∧ 0 < p.TF ∧ p.TF ≤ 1 := by
  have nd := nodup_of_increasing _ hinc
  rcases buildShard_spec (F := F) N docs nd hr with ⟨s, hs, _, _, _, _, hget, hp⟩
  refine ⟨s, hs, ?_⟩
  intro t p hpt
  rw [hp t] at hpt
  rcases mem_shardPostings docs t p hpt with ⟨d, hd, ht, rfl⟩
  have hcount : 0 < (tokenize d.2).count t := List.count_pos_iff.2 ht
  have hle : (tokenize d.2).count t ≤ maxTermFreq (tokenize d.2) := count_le_maxTermFreq _ t
  have hmax : 0 < maxTermFreq (tokenize d.2) := lt_of_lt_of_le hcount hle
  have hmaxF : (0 : F) < (maxTermFreq (tokenize d.2) : F) := by exact_mod_cast hmax
  refine ⟨maxTermFreq (tokenize d.2), ?_, hmax, rfl, ?_, ?_⟩
  · show vecGet s.docsMaxFreq d.1 = _
    rw [hget d.1]
    simp only [hr d hd, if_true]
    rw [shardMaxFreq_owned docs nd d hd]
  · show (0 : F) < ((tokenize d.2).count t : F) / (maxTermFreq (tokenize d.2) : F)
    exact div_pos (by exact_mod_cast hcount) hmaxF
  · show ((tokenize d.2).count t : F) / (maxTermFreq (tokenize d.2) : F) ≤ 1
    rw [div_le_one hmaxF]
    exact_mod_cast hle

/-- Witness of C6 on the demo corpus over the rationals. -/
theorem calculateTF_values_witness :
    (demoCorpus.map Prod.fst).Pairwise (fun a b => a < b) ∧
      (∀ d ∈ demoCorpus, InRange 2 d.1) ∧
      ∃ s : InvertedIndex ℚ, buildShard 2 demoCorpus = some s ∧
        ∀ p ∈ postingsOf s "dog", 0 < p.TF ∧ p.TF ≤ 1 :=
  ⟨by decide, by decide,
    match calculateTF_values (F := ℚ) 2 demoCorpus (by decide) (by decide) with
    | ⟨s, h, hp⟩ => ⟨s, h, fun p hpd =>
        match hp "dog" p hpd with
        | ⟨_, _, _, _, h1, h2⟩ => ⟨h1, h2⟩⟩⟩

/-! ## `joinIndex` -/

theorem mapAssign_of_not_mem {κ β : Type} [DecidableEq κ] (k : κ) (v : β) (m : List (κ × β))
    (h : k ∉ m.map Prod.fst) : mapAssign k v m = m ++ [(k, v)] := by
  induction m with
  | nil => rfl
  | cons e m ih =>
    obtain ⟨k', v'⟩ := e
    simp only [List.map_cons, List.mem_cons, not_or] at h
    have h' : ¬ k' = k := fun e => h.1 e.symm
    simp [mapAssign, h', ih h.2]

theorem spliceWord_find (dict : List (Word × List (DocWordData F)))
    (e : Word × List (DocWordData F)) (w : Word) :
    mapFind w (spliceWord dict e) =
      if e.1 = w then some ((mapFind w dict).getD [] ++ e.2) else mapFind w dict := by
  unfold spliceWord
  cases h : mapFind e.1 dict with
  | none =>
    simp only [mapFind_mapAssign]
    by_cases hw : e.1 = w
    · subst hw; simp [h]
    · simp [hw]
  | some l =>
    simp only [mapFind_mapAssign]
    by_cases hw : e.1 = w
    · subst hw; simp [h]
    · simp [hw]

theorem spliceWord_nodupKeys (dict : List (Word × List (DocWordData F)))
    (e : Word × List (DocWordData F)) (nd : (dict.map Prod.fst).Nodup) :
    ((spliceWord dict e).map Prod.fst).Nodup := by
  unfold spliceWord
  cases mapFind e.1 dict <;> exact mapAssign_nodupKeys _ _ _ nd

theorem spliceWord_nonempty (dict : List (Word × List (DocWordData F)))
    (e : Word × List (DocWordData F)) (h : ∀ x ∈ dict, x.2 ≠ []) (he : e.2 ≠ []) :
    ∀ x ∈ spliceWord dict e, x.2 ≠ [] := by
  intro x hx
  unfold spliceWord at hx
  cases hf : mapFind e.1 dict with
  | none =>
    rw [hf] at hx
    rcases mem_mapAssign _ _ _ _ hx with hx | hx
    · rw [hx]; simpa using he
    · exact h x hx
  | some l =>
    rw [hf] at hx
    rcases mem_mapAssign _ _ _ _ hx with hx | hx
    · rw [hx]; simp [he]
    · exact h x hx

/-- The first loop of `joinIndex`: every word's list gets the other index's list appended. -/
theorem spliceWord_foldl (es : List (Word × List (DocWordData F))) :
    ∀ dict : List (Word × List (DocWordData F)), (es.map Prod.fst).Nodup →
      (dict.map Prod.fst).Nodup → (∀ x ∈ dict, x.2 ≠ []) → (∀ x ∈ es, x.2 ≠ []) →
      ((es.foldl spliceWord dict).map Prod.fst).Nodup ∧
      (∀ x ∈ es.foldl spliceWord dict, x.2 ≠ []) ∧
      ∀ w, (mapFind w (es.foldl spliceWord dict)).getD [] =
        (mapFind w dict).getD [] ++ (mapFind w es).getD [] := by
  induction es with
  | nil =>
    intro dict _ nd h _
    exact ⟨nd, h, fun w => by simp [mapFind]⟩
  | cons e es ih =>
    intro dict nde nd h he
    simp only [List.map_cons, List.nodup_cons] at nde
    rcases ih (spliceWord dict e) nde.2 (spliceWord_nodupKeys dict e nd)
      (spliceWord_nonempty dict e h (he e (List.mem_cons_self _ _)))
      (fun x hx => he x (List.mem_cons_of_mem _ hx)) with ⟨h1, h2, h3⟩
    refine ⟨h1, h2, ?_⟩
    intro w
    rw [List.foldl_cons, h3 w, spliceWord_find]
    obtain ⟨k, v⟩ := e
    by_cases hw : k = w
    · subst hw
      have : mapFind k es = none := (mapFind_eq_none_iff k es).2 nde.1
      simp [mapFind, this]
    · simp [mapFind, hw]

theorem spliceWord_foldl_append (es : List (Word × List (DocWordData F))) :
    ∀ acc : List (Word × List (DocWordData F)), ((acc ++ es).map Prod.fst).Nodup →
      es.foldl spliceWord acc = acc ++ es := by
  induction es with
  | nil => intro acc _; simp
  | cons e es ih =>
    intro acc nd
    have hnot : e.1 ∉ acc.map Prod.fst := by
      rw [List.map_append, List.nodup_append] at nd
      intro hm
      exact nd.2.2 hm (by simp)
    have hstep : spliceWord acc e = acc ++ [e] := by
      unfold spliceWord
      rw [(mapFind_eq_none_iff e.1 acc).2 hnot]
      simp only [List.nil_append]
      exact mapAssign_of_not_mem e.1 e.2 acc hnot
    rw [List.foldl_cons, hstep, ih (acc ++ [e]) (by simpa using nd)]
    simp

theorem transferMaxFreq_spec (os : List Nat) :
    ∀ (mf : List Nat) (i : Nat), i + os.length ≤ mf.length →
      ∃ mf', transferMaxFreq mf i os = some mf' ∧ mf'.length = mf.length ∧
        ∀ j : Nat, mf'.get? j =
          if i ≤ j then pickAt (mf.get? j) (os.get? (j - i)) else mf.get? j := by
  induction os with
  | nil =>
    intro mf i _
    exact ⟨mf, rfl, rfl, fun j => by simp [pickAt]⟩
  | cons o os ih =>
    intro mf i hlen
    simp only [List.length_cons] at hlen
    have hi : i < mf.length := by omega
    by_cases ho : 0 < o
    · rcases ih (mf.set i o) (i + 1) (by simp; omega) with ⟨mf', h1, h2, h3⟩
      refine ⟨mf', ?_, by simpa using h2, ?_⟩
      · simp only [transferMaxFreq, ho, hi, if_true]
        exact h1
      · intro j
        rw [h3 j]
        by_cases hj : i + 1 ≤ j
        · have hij : i ≤ j := by omega
          have hne : i ≠ j := by omega
          have e1 : j - i = (j - (i + 1)) + 1 := by omega
          simp only [hj, hij, if_true, e1, List.get?_cons_succ]
          simp [pickAt, List.getElem?_set, hne]
        · simp only [hj, if_false]
          by_cases hij : i ≤ j
          · have : j = i := by omega
            subst this
            simp [pickAt, pick, ho, List.getElem?_set, hi]
          · have hne : i ≠ j := by omega
            simp [hij, List.getElem?_set, hne]
    · rcases ih mf (i + 1) (by omega) with ⟨mf', h1, h2, h3⟩
      refine ⟨mf', ?_, h2, ?_⟩
      · simp only [transferMaxFreq, ho, if_false]
        exact h1
      · intro j
        rw [h3 j]
        by_cases hj : i + 1 ≤ j
        · have hij : i ≤ j := by omega
          have e1 : j - i = (j - (i + 1)) + 1 := by omega
          simp only [hj, hij, if_true, e1, List.get?_cons_succ]
        · simp only [hj, if_false]
          by_cases hij : i ≤ j
          · have : j = i := by omega
            subst this
            have hget : mf.get? j = some mf[j] := List.get?_eq_get hi
            simp [pickAt, pick, ho, hget]
          · simp [hij]

theorem vecGet_ofNat {β : Type} (v : List β) (n : Nat) : vecGet v (n : Int) = v.get? n := by
  unfold vecGet
  simp

theorem vecGet_ext {β : Type} (a b : List β) (h : ∀ j : Int, vecGet a j = vecGet b j) :
    a = b := by
  apply List.ext_get?
  intro n
  rw [← vecGet_ofNat a n, ← vecGet_ofNat b n]
  exact h n

theorem vecGet_of_length {β : Type} (v : List β) (N : Nat) (h : v.length = N) (j : Int) :
    (InRange N j → ∃ x, vecGet v j = some x) ∧ (¬ InRange N j → vecGet v j = none) := by
  subst h
  exact ⟨vecGet_isSome_of_inRange, vecGet_eq_none_of_not_inRange⟩

/-- The second loop of `joinIndex`, read with `int` indices. -/
theorem transferMaxFreq_vecGet (mf os : List Nat) (hlen : os.length ≤ mf.length) :
    ∃ mf', transferMaxFreq mf 0 os = some mf' ∧ mf'.length = mf.length ∧
      ∀ j : Int, vecGet mf' j = pickAt (vecGet mf j) (vecGet os j) := by
  rcases transferMaxFreq_spec os mf 0 (by omega) with ⟨mf', h1, h2, h3⟩
  refine ⟨mf', h1, h2, ?_⟩
  intro j
  unfold vecGet
  by_cases h0 : 0 ≤ j
  · simp only [h0, if_true]
    rw [h3 j.toNat]
    simp
  · simp [h0, pickAt]

/-- C8: `joinIndex(S)` on a freshly constructed `InvertedIndex(N)`, for a shard `S` built
over `N` documents (ingestion, then `calculateDocMaxFreq`): the destination's dictionary is
the dictionary of `S`, the same words with the same postings lists in the same order, and
its `docsMaxFreq` is that of `S`; also when the dictionary of `S` is empty. -/
theorem joinIndex_into_fresh (N : Nat) (docs : List (Int × List Char))
    (hinc : (docs.map Prod.fst).Pairwise (fun a b => a < b))
    (hr : ∀ d ∈ docs, InRange N d.1) :
    ∃ idx S D : InvertedIndex F, ingest (InvertedIndex.new N) docs = some idx ∧
      calculateDocMaxFreq idx = some S ∧
      joinIndex (InvertedIndex.new N) S = some D ∧
      D.dictionary = S.dictionary ∧ D.docsMaxFreq = S.docsMaxFreq ∧
      ∀ t, mapFind t D.dictionary = mapFind t S.dictionary := by
  have nd := nodup_of_increasing _ hinc
  rcases ingest_new (F := F) N docs nd with ⟨idx, h, ok, _, hmf, _, hp⟩
  have hir : ∀ p ∈ allPostings idx.dictionary, InRange idx.docsMaxFreq.length p.docID := by
    rw [hmf, List.length_replicate]
    exact ingested_inRange idx ok docs N hp hr
  rcases calculateDocMaxFreq_isSome idx hir with ⟨S, hS⟩
  rcases calculateDocMaxFreq_some idx S hS with ⟨hdict, _, _, hlen, _, hget⟩
  have hlenS : S.docsMaxFreq.length = N := by rw [hlen, hmf, List.length_replicate]
  have key : ∃ D : InvertedIndex F, joinIndex (InvertedIndex.new N) S = some D ∧
      D.dictionary = S.dictionary ∧ D.docsMaxFreq = S.docsMaxFreq := by
    unfold joinIndex
    by_cases hemp : S.dictionary.length = 0
    · simp only [hemp, if_true]
      refine ⟨_, rfl, ?_, ?_⟩
      · rw [List.length_eq_zero.1 hemp]; rfl
      · apply vecGet_ext
        intro j
        rw [hget j, hmf, hdict.symm.trans (List.length_eq_zero.1 hemp)]
        show vecGet (List.replicate N 0) j = _
        cases vecGet (List.replicate N 0) j <;> simp [allPostings, maxFold]
    · simp only [hemp, if_false]
      rcases transferMaxFreq_vecGet (List.replicate N 0) S.docsMaxFreq
        (by simp [hlenS]) with ⟨mf', h1, _, h3⟩
      have hnew : (InvertedIndex.new N : InvertedIndex F).docsMaxFreq = List.replicate N 0 := rfl
      rw [hnew, h1]
      refine ⟨_, rfl, ?_, ?_⟩
      · show S.dictionary.foldl spliceWord [] = S.dictionary
        rw [spliceWord_foldl_append S.dictionary [] (by rw [List.nil_append, hdict]; exact ok.1)]
        rfl
      · show mf' = S.docsMaxFreq
        apply vecGet_ext
        intro j
        rw [h3 j, vecGet_replicate]
        by_cases hj : InRange N j
        · rcases (vecGet_of_length S.docsMaxFreq N hlenS j).1 hj with ⟨o, ho⟩
          rw [ho]
          simp only [hj, if_true, pickAt, Option.map_some', Option.some.injEq, pick]
          split
          · rfl
          · omega
        · rw [(vecGet_of_length S.docsMaxFreq N hlenS j).2 hj]
          simp [hj, pickAt]
  rcases key with ⟨D, hD, e1, e2⟩
  exact ⟨idx, S, D, h, hS, hD, e1, e2, fun t => by rw [e1]⟩

/-- Witness of C8 on the demo corpus. -/
theorem joinIndex_into_fresh_witness :
    (demoCorpus.map Prod.fst).Pairwise (fun a b => a < b) ∧
      (∀ d ∈ demoCorpus, InRange 2 d.1) ∧
      ∃ idx S D : InvertedIndex ℚ, ingest (InvertedIndex.new 2) demoCorpus = some idx ∧
        calculateDocMaxFreq idx = some S ∧ joinIndex (InvertedIndex.new 2) S = some D ∧
        D.dictionary = S.dictionary ∧ D.docsMaxFreq = S.docsMaxFreq :=
  ⟨by decide, by decide,
    match joinIndex_into_fresh (F := ℚ) 2 demoCorpus (by decide) (by decide) with
    | ⟨idx, S, D, h1, h2, h3, h4, h5, _⟩ => ⟨idx, S, D, h1, h2, h3, h4, h5⟩⟩

/-! ## Merging finished shards -/

theorem shardPostings_append (A B : List (Int × List Char)) (w : Word) :
    (shardPostings (A ++ B) w : List (DocWordData F)) =
      shardPostings A w ++ shardPostings B w := by
  unfold shardPostings
  rw [List.filter_append, List.map_append]

theorem mapFind_append {κ β : Type} [DecidableEq κ] (k : κ) (A B : List (κ × β)) :
    mapFind k (A ++ B) = match mapFind k A with
      | some v => some v
      | none => mapFind k B := by
  induction A with
  | nil => simp [mapFind]
  | cons e A ih =>
    obtain ⟨k', v'⟩ := e
    by_cases h : k' = k
    · simp [mapFind, h]
    · simp only [List.cons_append, mapFind, h, if_false]
      exact ih

theorem shardMaxFreq_append (A B : List (Int × List Char))
    (nd : ((A ++ B).map Prod.fst).Nodup) (j : Int) :
    shardMaxFreq (A ++ B) j = pick (shardMaxFreq A j) (shardMaxFreq B j) := by
  unfold shardMaxFreq pick
  rw [mapFind_append]
  rw [List.map_append, List.nodup_append] at nd
  cases hA : mapFind j A with
  | none =>
    cases hB : mapFind j B with
    | none => simp
    | some lb =>
      simp only
      split
      · rfl
      · omega
  | some la =>
    have hjA : j ∈ A.map Prod.fst := List.mem_map_of_mem Prod.fst (mapFind_mem j la A hA)
    have hjB : j ∉ B.map Prod.fst := fun h => nd.2.2 hjA h
    rw [(mapFind_eq_none_iff j B).2 hjB]
    simp

theorem shardMaxFreq_of_no_tokens (B : List (Int × List Char))
    (h : ∀ w, (shardPostings B w : List (DocWordData F)) = []) (j : Int) :
    shardMaxFreq B j = 0 := by
  unfold shardMaxFreq
  cases hB : mapFind j B with
  | none => rfl
  | some line =>
    have hmem : (j, line) ∈ B := mapFind_mem j line B hB
    have : tokenize line = [] := by
      apply List.eq_nil_iff_forall_not_mem.2
      intro w hw
      have hne : (shardPostings B w : List (DocWordData F)) ≠ [] := by
        unfold shardPostings
        intro he
        have hin : (j, line) ∈ B.filter (fun d => decide (w ∈ tokenize d.2)) :=
          List.mem_filter.2 ⟨hmem, by simpa using hw⟩
        rw [List.map_eq_nil_iff] at he
        rw [he] at hin
        simp at hin
      exact hne (h w)
    simp only [this, maxTermFreq_nil]

/-- `joinIndex` of the finished shards of two disjoint sets of documents is the finished
shard of their union: the other shard's postings follow the destination's. -/
theorem joinIndex_isShardOf (N : Nat) (A B : List (Int × List Char)) (a b : InvertedIndex F)
    (ha : IsShardOf N A a) (hb : IsShardOf N B b) (nd : ((A ++ B).map Prod.fst).Nodup) :
    ∃ r, joinIndex a b = some r ∧ IsShardOf N (A ++ B) r ∧ r.IDF = a.IDF ∧
      r.docsMagnitudes = a.docsMagnitudes := by
  rcases ha with ⟨oka, la, ga, pa⟩
  rcases hb with ⟨okb, lb, gb, pb⟩
  unfold joinIndex
  by_cases hemp : b.dictionary.length = 0
  · simp only [hemp, if_true]
    have hnil : b.dictionary = [] := List.length_eq_zero.1 hemp
    have hbp : ∀ w, (shardPostings B w : List (DocWordData F)) = [] := by
      intro w
      rw [← pb w]
      unfold postingsOf
      rw [hnil]
      rfl
    refine ⟨a, rfl, ⟨oka, la, ?_, ?_⟩, rfl, rfl⟩
    · intro j
      rw [ga j, shardMaxFreq_append A B nd j, shardMaxFreq_of_no_tokens (F := F) B hbp j]
      simp [pick]
    · intro w
      rw [pa w, shardPostings_append, hbp w, List.append_nil]
  · simp only [hemp, if_false]
    rcases transferMaxFreq_vecGet a.docsMaxFreq b.docsMaxFreq (by omega) with
      ⟨mf', h1, h2, h3⟩
    rw [h1]
    rcases spliceWord_foldl b.dictionary a.dictionary okb.1 oka.1 oka.2 okb.2 with
      ⟨n1, n2, n3⟩
    refine ⟨_, rfl, ⟨⟨n1, n2⟩, h2.trans la, ?_, ?_⟩, rfl, rfl⟩
    · intro j
      show vecGet mf' j = _
      rw [h3 j, ga j, gb j, shardMaxFreq_append A B nd j]
      by_cases hj : InRange N j <;> simp [hj, pickAt]
    · intro w
      rw [shardPostings_append, ← pa w, ← pb w]
      exact n3 w

/-- The loop of `main` over the remaining shards. -/
theorem joinAll_isShardOf (N : Nat) (parts : List (List (Int × List Char)))
    (shards : List (InvertedIndex F)) (h : List.Forall₂ (IsShardOf N) parts shards) :
    ∀ (A : List (Int × List Char)) (a : InvertedIndex F), IsShardOf N A a →
      ((A ++ parts.flatten).map Prod.fst).Nodup →
      ∃ r, joinAll a shards = some r ∧ IsShardOf N (A ++ parts.flatten) r ∧ r.IDF = a.IDF ∧
        r.docsMagnitudes = a.docsMagnitudes := by
  induction h with
  | nil =>
    intro A a ha _
    exact ⟨a, rfl, by simpa using ha, rfl, rfl⟩
  | cons hb _ ih =>
    rename_i B b parts shards _
    intro A a ha nd
    have nd1 : ((A ++ B).map Prod.fst).Nodup := by
      simp only [List.flatten_cons, ← List.append_assoc] at nd
      rw [List.map_append] at nd
      exact (List.nodup_append.1 nd).1
    rcases joinIndex_isShardOf N A B a b ha hb nd1 with ⟨r1, h1, s1, i1, m1⟩
    rcases ih (A ++ B) r1 s1 (by simpa using nd) with ⟨r, h2, s2, i2, m2⟩
    refine ⟨r, ?_, by simpa using s2, i2.trans i1, m2.trans m1⟩
    unfold joinAll at h2 ⊢
    simp only [List.foldlM_cons, h1]
    exact h2

theorem buildShard_isShardOf (N : Nat) (docs : List (Int × List Char))
    (nd : (docs.map Prod.fst).Nodup) (hr : ∀ d ∈ docs, InRange N d.1) :
    ∃ s : InvertedIndex F, buildShard N docs = some s ∧ IsShardOf N docs s ∧ s.IDF = [] ∧
      s.docsMagnitudes = List.replicate N 0 := by
  rcases buildShard_spec (F := F) N docs nd hr with ⟨s, h, ok, i, m, l, g, p⟩
  exact ⟨s, h, ⟨ok, l, g, p⟩, i, m⟩

theorem buildShards_isShardOf (N : Nat) (parts : List (List (Int × List Char)))
    (nd : ∀ part ∈ parts, (part.map Prod.fst).Nodup)
    (hr : ∀ part ∈ parts, ∀ d ∈ part, InRange N d.1) :
    ∃ shards : List (InvertedIndex F), parts.mapM (buildShard N) = some shards ∧
      List.Forall₂ (IsShardOf N) parts shards := by
  induction parts with
  | nil => exact ⟨[], rfl, List.Forall₂.nil⟩
  | cons part parts ih =>
    rcases buildShard_isShardOf (F := F) N part (nd part (List.mem_cons_self _ _))
      (hr part (List.mem_cons_self _ _)) with ⟨s, h, hs, _, _⟩
    rcases ih (fun p hp => nd p (List.mem_cons_of_mem _ hp))
      (fun p hp => hr p (List.mem_cons_of_mem _ hp)) with ⟨ss, h2, hss⟩
    refine ⟨s :: ss, ?_, List.Forall₂.cons hs hss⟩
    rw [mapM_option_cons, h, h2]
    rfl

theorem perm_mapFind {κ β : Type} [DecidableEq κ] (l1 l2 : List (κ × β)) (hp : l1.Perm l2)
    (nd : (l1.map Prod.fst).Nodup) (k : κ) : mapFind k l1 = mapFind k l2 := by
  have nd2 : (l2.map Prod.fst).Nodup := (hp.map Prod.fst).nodup_iff.1 nd
  cases h : mapFind k l1 with
  | none =>
    have : k ∉ l2.map Prod.fst := by
      rw [← (hp.map Prod.fst).mem_iff]
      exact (mapFind_eq_none_iff k l1).1 h
    exact ((mapFind_eq_none_iff k l2).2 this).symm
  | some v =>
    exact (mapFind_of_mem k v l2 nd2 (hp.mem_iff.1 (mapFind_mem k v l1 h))).symm

/-- Two finished shards of the same documents, fed in different orders, hold the same postings
for every word up to the order of the list, and the same `docsMaxFreq`. -/
theorem isShardOf_perm (N : Nat) (A B : List (Int × List Char)) (a b : InvertedIndex F)
    (ha : IsShardOf N A a) (hb : IsShardOf N B b) (hp : A.Perm B)
    (nd : (A.map Prod.fst).Nodup) :
    (∀ w, (postingsOf a w).Perm (postingsOf b w)) ∧ a.docsMaxFreq = b.docsMaxFreq := by
  constructor
  · intro w
    rw [ha.2.2.2 w, hb.2.2.2 w]
    unfold shardPostings
    exact (hp.filter _).map _
  · apply vecGet_ext
    intro j
    rw [ha.2.2.1 j, hb.2.2.1 j]
    unfold shardMaxFreq
    rw [perm_mapFind A B hp nd j]

theorem numberDocs_ids (corpus : List (List Char)) :
    (numberDocs corpus).map Prod.fst = (List.range corpus.length).map Int.ofNat := by
  unfold numberDocs
  rw [List.map_map]
  have : (Prod.fst ∘ fun e : Nat × List Char => ((e.1 : Int), e.2)) =
      Int.ofNat ∘ Prod.fst := by
    funext e; rfl
  rw [this, ← List.map_map, List.enum_map_fst]

theorem numberDocs_increasing (corpus : List (List Char)) :
    ((numberDocs corpus).map Prod.fst).Pairwise (fun a b => a < b) := by
  rw [numberDocs_ids, List.pairwise_map]
  exact List.Pairwise.imp (fun h => Int.ofNat_lt.2 h) (List.pairwise_lt_range _)

theorem numberDocs_inRange (corpus : List (List Char)) :
    ∀ d ∈ numberDocs corpus, InRange corpus.length d.1 := by
  intro d hd
  have : d.1 ∈ (numberDocs corpus).map Prod.fst := List.mem_map_of_mem Prod.fst hd
  rw [numberDocs_ids, List.mem_map] at this
  rcases this with ⟨i, hi, e⟩
  rw [← e]
  exact ⟨Int.ofNat_nonneg i, by simpa using hi⟩

/-- C4 (sharding invariance): for a corpus of `N` documents numbered `0 .. N-1` and any
assignment of the documents to `W ≥ 1` shards (`first :: rest`) in which every document goes
to exactly one shard and every shard ingests its documents in increasing docID order,
building every shard (`addDocument`s, `calculateDocMaxFreq`, `calculateTF`) and joining
shards `1 .. W-1` into shard 0 with `joinIndex` gives, for every term, the same postings
(docID, freq, positions, TF) as ingesting all documents into a single shard, up to the order
inside the term's list, the same words in the dictionary, and the same `docsMaxFreq`. -/
theorem sharding_invariance (corpus : List (List Char)) (first : List (Int × List Char))
    (rest : List (List (Int × List Char)))
    (hinc : ∀ part ∈ first :: rest, (part.map Prod.fst).Pairwise (fun a b => a < b))
    (hperm : (first :: rest).flatten.Perm (numberDocs corpus)) :
    ∃ (s0 : InvertedIndex F) (ss : List (InvertedIndex F)) (merged single : InvertedIndex F),
      buildShard corpus.length first = some s0 ∧
      rest.mapM (buildShard corpus.length) = some ss ∧
      joinAll s0 ss = some merged ∧
      buildShard corpus.length (numberDocs corpus) = some single ∧
      (∀ t, (postingsOf merged t).Perm (postingsOf single t)) ∧
      (∀ t, known merged t = known single t) ∧
      merged.docsMaxFreq = single.docsMaxFreq := by
  have hmemAll : ∀ part ∈ first :: rest, ∀ d ∈ part, d ∈ numberDocs corpus := by
    intro part hpart d hd
    exact hperm.mem_iff.1 (List.mem_flatten.2 ⟨part, hpart, hd⟩)
  have hrAll : ∀ part ∈ first :: rest, ∀ d ∈ part, InRange corpus.length d.1 :=
    fun part hpart d hd => numberDocs_inRange corpus d (hmemAll part hpart d hd)
  have ndAll : ∀ part ∈ first :: rest, (part.map Prod.fst).Nodup :=
    fun part hpart => nodup_of_increasing _ (hinc part hpart)
  have ndNum : ((numberDocs corpus).map Prod.fst).Nodup :=
    nodup_of_increasing _ (numberDocs_increasing corpus)
  have ndFlat : (((first :: rest).flatten).map Prod.fst).Nodup :=
    (hperm.map Prod.fst).nodup_iff.2 ndNum
  rcases buildShard_isShardOf (F := F) corpus.length first
    (ndAll first (List.mem_cons_self _ _)) (hrAll first (List.mem_cons_self _ _)) with
    ⟨s0, h0, sh0, _, _⟩
  rcases buildShards_isShardOf (F := F) corpus.length rest
    (fun p hp => ndAll p (List.mem_cons_of_mem _ hp))
    (fun p hp => hrAll p (List.mem_cons_of_mem _ hp)) with ⟨ss, hss, shs⟩
  rcases joinAll_isShardOf corpus.length rest ss shs first s0 sh0
    (by simpa using ndFlat) with ⟨merged, hm, shm, _, _⟩
  rcases buildShard_isShardOf (F := F) corpus.length (numberDocs corpus) ndNum
    (numberDocs_inRange corpus) with ⟨single, h1, sh1, _, _⟩
  have hcmp := isShardOf_perm corpus.length _ _ merged single shm sh1
    (by simpa using hperm) (by simpa using ndFlat)
  refine ⟨s0, ss, merged, single, h0, hss, hm, h1, hcmp.1, ?_, hcmp.2⟩
  intro t
  have e1 := postingsOf_eq_nil_iff merged shm.1 t
  have e2 := postingsOf_eq_nil_iff single sh1.1 t
  have e3 : postingsOf merged t = [] ↔ postingsOf single t = [] := by
    constructor
    · intro h; exact List.Perm.eq_nil (h ▸ (hcmp.1 t).symm)
    · intro h; exact List.Perm.eq_nil (h ▸ (hcmp.1 t))
  unfold known
  cases hm1 : mapFind t merged.dictionary with
  | none =>
    have := e2.1 (e3.1 (e1.2 hm1))
    rw [this]
  | some v =>
    cases hs1 : mapFind t single.dictionary with
    | none =>
      have := e1.1 (e3.2 (e2.2 hs1))
      rw [hm1] at this
      cases this
    | some v' => rfl

/-- Witness of C4: three documents, shard 0 gets documents 0 and 2, shard 1 document 1. -/
theorem sharding_invariance_witness :
    ∃ (s0 : InvertedIndex ℚ) (ss : List (InvertedIndex ℚ)) (merged single : InvertedIndex ℚ),
      buildShard 3 [(0, "the quick fox".toList), (2, "lazy dog".toList)] = some s0 ∧
      [[((1 : Int), "Quick, quick dog".toList)]].mapM (buildShard 3) = some ss ∧
      joinAll s0 ss = some merged ∧
      buildShard 3 (numberDocs demoLines) = some single ∧
      (∀ t, (postingsOf merged t).Perm (postingsOf single t)) ∧
      merged.docsMaxFreq = single.docsMaxFreq :=
  match sharding_invariance (F := ℚ) demoLines
    [(0, "the quick fox".toList), (2, "lazy dog".toList)]
    [[(1, "Quick, quick dog".toList)]] (by decide) (by decide) with
  | ⟨s0, ss, merged, single, h1, h2, h3, h4, h5, _, h6⟩ =>
    ⟨s0, ss, merged, single, h1, h2, h3, h4, h5, h6⟩

/-! ## The IDF table and the magnitudes after the weighting pass -/

theorem idfAfter_find (log2 : F → F) (N : Nat) (t : Word)
    (es : List (Word × List (DocWordData F))) :
    ∀ idf : List (Word × F), mapFind t (idfAfter log2 N es idf) =
      match lastIdf log2 N t es with
      | some v => some v
      | none => mapFind t idf := by
  induction es with
  | nil => intro idf; rfl
  | cons e es ih =>
    intro idf
    have hstep : idfAfter log2 N (e :: es) idf =
        idfAfter log2 N es (mapAssign e.1 (idfValue log2 N e.2.length) idf) := rfl
    rw [hstep, ih]
    simp only [lastIdf]
    cases lastIdf log2 N t es with
    | some v => rfl
    | none =>
      simp only [mapFind_mapAssign]
      by_cases h : e.1 = t <;> simp [h]

theorem lastIdf_of_nodup (log2 : F → F) (N : Nat) (t : Word)
    (es : List (Word × List (DocWordData F))) (nd : (es.map Prod.fst).Nodup) :
    lastIdf log2 N t es = (mapFind t es).map (fun ps => idfValue log2 N ps.length) := by
  induction es with
  | nil => rfl
  | cons e es ih =>
    simp only [List.map_cons, List.nodup_cons] at nd
    obtain ⟨k, v⟩ := e
    simp only [lastIdf, ih nd.2, mapFind]
    by_cases h : k = t
    · subst h
      rw [(mapFind_eq_none_iff k es).2 nd.1]
      simp
    · simp only [h, if_false]
      cases mapFind t es <;> rfl

/-- In a weighted index, the IDF of a word of the dictionary is `log2(1 + N / df)`, `df` the
length of its postings list. -/
theorem idfOf_weighted (log2 sqrt : F → F) (idx0 idx : InvertedIndex F)
    (hw : calculateIDFandBuildDocMagnitudes log2 sqrt idx0 = some idx)
    (nd : (idx0.dictionary.map Prod.fst).Nodup) (t : Word) (ps : List (DocWordData F))
    (ht : mapFind t idx.dictionary = some ps) :
    idfOf idx t = idfValue log2 idx.docsMaxFreq.length ps.length := by
  rcases weighting_some log2 sqrt idx0 idx hw with ⟨hd, hmf, hidf, _, _, _⟩
  unfold idfOf
  rw [hidf, idfAfter_find, lastIdf_of_nodup _ _ _ _ nd, ← hd, ht, hmf]
  rfl

theorem squareSum_nonneg (log2 : F → F) (N : Nat) (dict : List (Word × List (DocWordData F)))
    (j : Int) : 0 ≤ squareSum log2 N dict j := by
  unfold squareSum
  apply List.sum_nonneg
  intro x hx
  rcases List.mem_map.1 hx with ⟨q, hq, rfl⟩
  have hq' := (List.mem_filter.1 hq).1
  unfold weightedPostings at hq'
  rcases List.mem_flatMap.1 hq' with ⟨e, _, hqe⟩
  rcases List.mem_map.1 hqe with ⟨p, _, rfl⟩
  exact mul_self_nonneg _

theorem squareSum_cons (log2 : F → F) (N : Nat) (e : Word × List (DocWordData F))
    (dict : List (Word × List (DocWordData F))) (j : Int) :
    squareSum log2 N (e :: dict) j =
      ((e.2.filter (fun p => p.docID = j)).map
        (fun p => (p.TF * idfValue log2 N e.2.length) *
          (p.TF * idfValue log2 N e.2.length))).sum + squareSum log2 N dict j := by
  unfold squareSum weightedPostings
  simp only [List.flatMap_cons, List.filter_append, List.map_append, List.sum_append]
  congr 1
  rw [List.filter_map, List.map_map]
  rfl

theorem squareSum_nil (log2 : F → F) (N : Nat) (j : Int) :
    squareSum log2 N ([] : List (Word × List (DocWordData F))) j = 0 := rfl

/-- The postings of one document in a list with pairwise distinct docIDs: none or one. -/
theorem filter_docID_of_nodup (es : List (DocWordData F))
    (nd : (es.map (fun p => p.docID)).Nodup) (j : Int) :
    es.filter (fun p => p.docID = j) = [] ∨ ∃ p ∈ es, p.docID = j ∧
      es.filter (fun p => p.docID = j) = [p] := by
  induction es with
  | nil => exact Or.inl rfl
  | cons q es ih =>
    simp only [List.map_cons, List.nodup_cons] at nd
    by_cases hq : q.docID = j
    · right
      refine ⟨q, List.mem_cons_self _ _, hq, ?_⟩
      have : es.filter (fun p => p.docID = j) = [] := by
        rw [List.filter_eq_nil_iff]
        intro p hp hpj
        apply nd.1
        simp only [decide_eq_true_eq] at hpj
        rw [hq, ← hpj]
        exact List.mem_map_of_mem (fun p => p.docID) hp
      simp [List.filter_cons, hq, this]
    · rcases ih nd.2 with h | ⟨p, hp, hpj, h⟩
      · left
        simp [List.filter_cons, hq, h]
      · right
        exact ⟨p, List.mem_cons_of_mem _ hp, hpj, by simp [List.filter_cons, hq, h]⟩

theorem tfOf_of_filter_nil (idx : InvertedIndex F) (t : Word) (j : Int)
    (h : (postingsOf idx t).filter (fun p => p.docID = j) = []) : tfOf idx t j = 0 := by
  unfold tfOf
  rw [h]
  rfl

theorem squareSum_entries (log2 : F → F) (N : Nat) (idx : InvertedIndex F) (j : Int)
    (es : List (Word × List (DocWordData F)))
    (h : ∀ e ∈ es, postingsOf idx e.1 = e.2 ∧ idfOf idx e.1 = idfValue log2 N e.2.length ∧
      (e.2.map (fun p => p.docID)).Nodup) :
    squareSum log2 N es j =
      (es.map (fun e => (tfOf idx e.1 j * idfOf idx e.1) * (tfOf idx e.1 j * idfOf idx e.1))).sum := by
  induction es with
  | nil => rfl
  | cons e es ih =>
    rw [squareSum_cons, ih (fun x hx => h x (List.mem_cons_of_mem _ hx))]
    simp only [List.map_cons, List.sum_cons]
    congr 1
    rcases h e (List.mem_cons_self _ _) with ⟨hp, hi, hn⟩
    unfold tfOf
    rw [hp, hi]
    rcases filter_docID_of_nodup e.2 hn j with hnil | ⟨p, _, _, hone⟩
    · rw [hnil]; simp
    · rw [hone]; simp

theorem sum_map_filter_of_zero {α : Type} (l : List α) (P : α → Bool) (g : α → F)
    (h : ∀ x ∈ l, P x = false → g x = 0) :
    ((l.filter P).map g).sum = (l.map g).sum := by
  induction l with
  | nil => rfl
  | cons a l ih =>
    have ih' := ih (fun x hx => h x (List.mem_cons_of_mem _ hx))
    cases hP : P a with
    | true => simp [List.filter_cons, hP, ih']
    | false =>
      have := h a (List.mem_cons_self _ _) hP
      simp [List.filter_cons, hP, ih', this]

/-- In a weighted index with one entry per word and at most one posting per word and
document, the sum the weighting pass accumulates for document `j` is the sum over the terms
with a posting in `j` of `(tf * idf)^2`. -/
theorem squareSum_eq_termSquareSum (log2 sqrt : F → F) (idx0 idx : InvertedIndex F)
    (hw : calculateIDFandBuildDocMagnitudes log2 sqrt idx0 = some idx)
    (nd : (idx0.dictionary.map Prod.fst).Nodup)
    (hu : ∀ t, ((postingsOf idx0 t).map (fun p => p.docID)).Nodup) (j : Int) :
    squareSum log2 idx0.docsMaxFreq.length idx0.dictionary j = termSquareSum idx j := by
  rcases weighting_some log2 sqrt idx0 idx hw with ⟨hd, hmf, _, _, _, _⟩
  have hpost : ∀ t, postingsOf idx t = postingsOf idx0 t := by
    intro t; unfold postingsOf; rw [hd]
  have hent : ∀ e ∈ idx0.dictionary, postingsOf idx e.1 = e.2 ∧
      idfOf idx e.1 = idfValue log2 idx0.docsMaxFreq.length e.2.length ∧
      (e.2.map (fun p => p.docID)).Nodup := by
    intro e he
    have hf : mapFind e.1 idx0.dictionary = some e.2 := mapFind_of_mem e.1 e.2 _ nd he
    have hp0 : postingsOf idx0 e.1 = e.2 := by unfold postingsOf; rw [hf]; rfl
    refine ⟨by rw [hpost, hp0], ?_, by rw [← hp0]; exact hu e.1⟩
    rw [idfOf_weighted log2 sqrt idx0 idx hw nd e.1 e.2 (by rw [hd]; exact hf), hmf]
  rw [squareSum_entries log2 _ idx j idx0.dictionary hent]
  unfold termSquareSum termsOf
  rw [sum_map_filter_of_zero, hd, List.map_map]
  · rfl
  · intro t _ hany
    have : (postingsOf idx t).filter (fun p => p.docID = j) = [] := by
      rw [List.filter_eq_nil_iff]
      intro p hp hpj
      rw [List.any_eq_false] at hany
      exact hany p hp hpj
    rw [tfOf_of_filter_nil idx t j this]
    simp

theorem idfValue_pos (log2 : F → F) (hlog : ∀ x, 1 < x → 0 < log2 x) (N n : Nat)
    (hN : 0 < N) (hn : 0 < n) : 0 < idfValue log2 N n := by
  unfold idfValue
  apply hlog
  have : (0 : F) < (N : F) / (n : F) :=
    div_pos (by exact_mod_cast hN) (by exact_mod_cast hn)
  linarith

/-- The accumulated sum of a document is positive as soon as it has one posting (with
positive tf, in an index over at least one document). -/
theorem squareSum_pos (log2 : F → F) (hlog : ∀ x, 1 < x → 0 < log2 x) (N : Nat) (hN : 0 < N)
    (dict : List (Word × List (DocWordData F))) (j : Int)
    (htf : ∀ p ∈ allPostings dict, 0 < p.TF)
    (p : DocWordData F) (hp : p ∈ allPostings dict) (hj : p.docID = j) :
    0 < squareSum log2 N dict j := by
  unfold allPostings at hp
  rcases List.mem_flatMap.1 hp with ⟨e, he, hpe⟩
  have hlen : 0 < e.2.length := List.length_pos_of_mem hpe
  have hidf := idfValue_pos log2 hlog N e.2.length hN hlen
  have hterm : 0 < (p.TF * idfValue log2 N e.2.length) * (p.TF * idfValue log2 N e.2.length) := by
    have := mul_pos (htf p (List.mem_flatMap.2 ⟨e, he, hpe⟩)) hidf
    exact mul_pos this this
  have hmem : (p.TF * idfValue log2 N e.2.length) * (p.TF * idfValue log2 N e.2.length) ∈
      ((weightedPostings log2 N dict).filter (fun q => q.1 = j)).map (fun q => q.2) := by
    refine List.mem_map.2 ⟨(p.docID, _), List.mem_filter.2 ⟨?_, by simpa using hj⟩, rfl⟩
    unfold weightedPostings
    exact List.mem_flatMap.2 ⟨e, he, List.mem_map.2 ⟨p, hpe, rfl⟩⟩
  have hnn : ∀ x ∈ ((weightedPostings log2 N dict).filter (fun q => q.1 = j)).map
      (fun q => q.2), 0 ≤ x := by
    intro x hx
    rcases List.mem_map.1 hx with ⟨q, hq, rfl⟩
    have hq' := (List.mem_filter.1 hq).1
    unfold weightedPostings at hq'
    rcases List.mem_flatMap.1 hq' with ⟨e', _, hqe⟩
    rcases List.mem_map.1 hqe with ⟨p', _, rfl⟩
    exact mul_self_nonneg _
  exact lt_of_lt_of_le hterm (List.single_le_sum hnn _ hmem)

theorem squareSum_zero_of_no_posting (log2 : F → F) (N : Nat)
    (dict : List (Word × List (DocWordData F))) (j : Int)
    (h : ∀ p ∈ allPostings dict, p.docID ≠ j) : squareSum log2 N dict j = 0 := by
  unfold squareSum
  have : (weightedPostings log2 N dict).filter (fun q => q.1 = j) = [] := by
    rw [List.filter_eq_nil_iff]
    intro q hq hqj
    have hk : q.1 ∈ (weightedPostings log2 N dict).map Prod.fst := List.mem_map_of_mem _ hq
    rw [weightedPostings_keys, List.mem_map] at hk
    rcases hk with ⟨p, hp, e⟩
    simp only [decide_eq_true_eq] at hqj
    exact h p hp (e.trans hqj)
  rw [this]
  rfl

theorem sqrt_eq_zero_iff (sqrt : F → F) (hsqrt : ∀ x, 0 ≤ x → sqrt x * sqrt x = x)
    (x : F) (hx : 0 ≤ x) : sqrt x = 0 ↔ x = 0 := by
  constructor
  · intro h
    have := hsqrt x hx
    rw [h] at this
    simpa using this.symm
  · intro h
    have := hsqrt x hx
    rw [h] at this
    exact mul_self_eq_zero.1 (by rw [h]; exact this)

theorem shardPostings_docIDs_nodup (docs : List (Int × List Char))
    (nd : (docs.map Prod.fst).Nodup) (w : Word) :
    ((shardPostings docs w : List (DocWordData F)).map (fun p => p.docID)).Nodup := by
  unfold shardPostings
  rw [List.map_map]
  have : ((fun p : DocWordData F => p.docID) ∘
      fun d : Int × List Char => (finalPosting d.1 (tokenize d.2) w : DocWordData F)) =
      Prod.fst := by
    funext d; rfl
  rw [this]
  exact (List.Nodup.sublist ((List.filter_sublist _).map Prod.fst) nd)

/-- Facts about the postings of a finished shard. -/
theorem isShardOf_postings (N : Nat) (A : List (Int × List Char)) (s : InvertedIndex F)
    (hs : IsShardOf N A s) (nd : (A.map Prod.fst).Nodup) (hr : ∀ d ∈ A, InRange N d.1) :
    (∀ t, ((postingsOf s t).map (fun p => p.docID)).Nodup) ∧
      (∀ p ∈ allPostings s.dictionary, 0 < p.TF) ∧
      (∀ p ∈ allPostings s.dictionary, InRange N p.docID) ∧
      (∀ p ∈ allPostings s.dictionary, ∃ d ∈ A, p.docID = d.1 ∧ tokenize d.2 ≠ []) ∧
      ∀ d ∈ A, tokenize d.2 ≠ [] → ∃ p ∈ allPostings s.dictionary, p.docID = d.1 := by
  rcases hs with ⟨ok, _, _, hp⟩
  have hall : ∀ p ∈ allPostings s.dictionary, ∃ w, ∃ d ∈ A, w ∈ tokenize d.2 ∧
      p = finalPosting d.1 (tokenize d.2) w := by
    intro p hpm
    rcases (mem_allPostings_iff s ok.1 p).1 hpm with ⟨w, hw⟩
    rw [hp w] at hw
    exact ⟨w, mem_shardPostings A w p hw⟩
  refine ⟨?_, ?_, ?_, ?_, ?_⟩
  · intro t
    rw [hp t]
    exact shardPostings_docIDs_nodup A nd t
  · intro p hpm
    rcases hall p hpm with ⟨w, d, _, hw, rfl⟩
    have hcount : 0 < (tokenize d.2).count w := List.count_pos_iff.2 hw
    have hmax : 0 < maxTermFreq (tokenize d.2) :=
      lt_of_lt_of_le hcount (count_le_maxTermFreq _ w)
    show (0 : F) < ((tokenize d.2).count w : F) / (maxTermFreq (tokenize d.2) : F)
    exact div_pos (by exact_mod_cast hcount) (by exact_mod_cast hmax)
  · intro p hpm
    rcases hall p hpm with ⟨w, d, hd, _, rfl⟩
    exact hr d hd
  · intro p hpm
    rcases hall p hpm with ⟨w, d, hd, hw, rfl⟩
    exact ⟨d, hd, rfl, List.ne_nil_of_mem hw⟩
  · intro d hd hne
    rcases List.exists_mem_of_ne_nil _ hne with ⟨w, hw⟩
    refine ⟨finalPosting d.1 (tokenize d.2) w, ?_, rfl⟩
    apply postingsOf_subset_allPostings s w
    rw [hp w]
    unfold shardPostings
    exact List.mem_map.2 ⟨d, List.mem_filter.2 ⟨hd, by simpa using hw⟩, rfl⟩

/-- The magnitudes of a weighted index that was the finished shard of the documents `A`
with all magnitudes zero. -/
theorem weighted_magnitudes (log2 sqrt : F → F) (hsqrt0 : ∀ x, 0 ≤ sqrt x)
    (hsqrt : ∀ x, 0 ≤ x → sqrt x * sqrt x = x) (hlog : ∀ x, 1 < x → 0 < log2 x)
    (N : Nat) (A : List (Int × List Char)) (s idx : InvertedIndex F)
    (hs : IsShardOf N A s) (hmag : s.docsMagnitudes = List.replicate N 0)
    (nd : (A.map Prod.fst).Nodup) (hr : ∀ d ∈ A, InRange N d.1)
    (hw : calculateIDFandBuildDocMagnitudes log2 sqrt s = some idx) :
    (∀ d ∈ A, ∃ m, vecGet idx.docsMagnitudes d.1 = some m ∧ 0 ≤ m ∧
        m * m = termSquareSum idx d.1 ∧ (m = 0 ↔ tokenize d.2 = [])) ∧
      ∀ tokens, ∀ j ∈ (similarities idx tokens).map Prod.fst,
        ∃ m, vecGet idx.docsMagnitudes j = some m ∧ 0 < m := by
  rcases isShardOf_postings N A s hs nd hr with ⟨hu, htf, _, hdoc, htok⟩
  rcases weighting_some log2 sqrt s idx hw with ⟨hd, _, _, _, _, hget⟩
  have hlenN : s.docsMaxFreq.length = N := hs.2.1
  have hval : ∀ d ∈ A, vecGet idx.docsMagnitudes d.1 =
      some (sqrt (0 + squareSum log2 N s.dictionary d.1)) := by
    intro d hdA
    rw [hget d.1, hmag, vecGet_replicate, hlenN]
    simp only [hr d hdA, if_true, Option.map_some']
  have hzero : ∀ d ∈ A, (sqrt (0 + squareSum log2 N s.dictionary d.1) = 0 ↔
      tokenize d.2 = []) := by
    intro d hdA
    have hN : 0 < N := by
      have := (hr d hdA).2
      omega
    rw [zero_add, sqrt_eq_zero_iff sqrt hsqrt _ (squareSum_nonneg log2 N s.dictionary d.1)]
    constructor
    · intro h0
      by_contra hne
      rcases htok d hdA hne with ⟨p, hp, hpj⟩
      have := squareSum_pos log2 hlog N hN s.dictionary d.1 htf p hp hpj
      rw [h0] at this
      exact lt_irrefl _ this
    · intro hnil
      apply squareSum_zero_of_no_posting
      intro p hp hpj
      rcases hdoc p hp with ⟨d', hd', e, hne⟩
      have : d' = d := List.inj_on_of_nodup_map nd hd' hdA (e.symm.trans hpj)
      subst this
      exact hne hnil
  constructor
  · intro d hdA
    refine ⟨_, hval d hdA, hsqrt0 _, ?_, hzero d hdA⟩
    rw [zero_add, hsqrt _ (squareSum_nonneg log2 N s.dictionary d.1), ← hlenN]
    exact squareSum_eq_termSquareSum log2 sqrt s idx hw hs.1.1 hu d.1
  · intro tokens j hj
    rcases (mem_keys_similarities idx tokens j).1 hj with ⟨u, _, _, p, hp, hpj⟩
    have hp' : p ∈ allPostings s.dictionary := by
      rw [← hd]
      exact postingsOf_subset_allPostings idx u p hp
    rcases hdoc p hp' with ⟨d, hdA, e, hne⟩
    have hjd : j = d.1 := hpj.symm.trans e
    rw [hjd]
    refine ⟨_, hval d hdA, ?_⟩
    apply lt_of_le_of_ne (hsqrt0 _)
    intro h0
    exact hne ((hzero d hdA).1 h0.symm)

/-- C9: after build, merge and one run of `calculateIDFandBuildDocMagnitudes`, over exact
arithmetic with a square root and a logarithm (`sqrt` non-negative with `sqrt x ^ 2 = x` on
`x ≥ 0`, `log2` positive above 1): for every document `d` in `[0, N)`, `docsMagnitudes[d]`
is non-negative, its square is the sum over the terms `t` with a posting in `d` of
`(tf(t,d) * idf(t))^2`, and it is 0 exactly when `d` has no tokens; so every docID that
enters the similarities map of a query has a strictly positive magnitude. -/
theorem docsMagnitudes_after_weighting (log2 sqrt : F → F) (hsqrt0 : ∀ x, 0 ≤ sqrt x)
    (hsqrt : ∀ x, 0 ≤ x → sqrt x * sqrt x = x) (hlog : ∀ x, 1 < x → 0 < log2 x)
    (corpus : List (List Char)) (first : List (Int × List Char))
    (rest : List (List (Int × List Char)))
    (hinc : ∀ part ∈ first :: rest, (part.map Prod.fst).Pairwise (fun a b => a < b))
    (hperm : (first :: rest).flatten.Perm (numberDocs corpus)) :
    ∃ (s0 : InvertedIndex F) (ss : List (InvertedIndex F)) (merged idx : InvertedIndex F),
      buildShard corpus.length first = some s0 ∧
      rest.mapM (buildShard corpus.length) = some ss ∧
      joinAll s0 ss = some merged ∧
      calculateIDFandBuildDocMagnitudes log2 sqrt merged = some idx ∧
      (∀ d ∈ numberDocs corpus, ∃ m, vecGet idx.docsMagnitudes d.1 = some m ∧ 0 ≤ m ∧
        m * m = termSquareSum idx d.1 ∧ (m = 0 ↔ tokenize d.2 = [])) ∧
      ∀ tokens, ∀ j ∈ (similarities idx tokens).map Prod.fst,
        ∃ m, vecGet idx.docsMagnitudes j = some m ∧ 0 < m := by
  have hmemAll : ∀ part ∈ first :: rest, ∀ d ∈ part, d ∈ numberDocs corpus := by
    intro part hpart d hd
    exact hperm.mem_iff.1 (List.mem_flatten.2 ⟨part, hpart, hd⟩)
  have hrAll : ∀ part ∈ first :: rest, ∀ d ∈ part, InRange corpus.length d.1 :=
    fun part hpart d hd => numberDocs_inRange corpus d (hmemAll part hpart d hd)
  have ndAll : ∀ part ∈ first :: rest, (part.map Prod.fst).Nodup :=
    fun part hpart => nodup_of_increasing _ (hinc part hpart)
  have ndNum : ((numberDocs corpus).map Prod.fst).Nodup :=
    nodup_of_increasing _ (numberDocs_increasing corpus)
  have ndFlat : ((first ++ rest.flatten).map Prod.fst).Nodup := by
    have := (hperm.map Prod.fst).nodup_iff.2 ndNum
    simpa using this
  have hperm' : (first ++ rest.flatten).Perm (numberDocs corpus) := by simpa using hperm
  have hrFlat : ∀ d ∈ first ++ rest.flatten, InRange corpus.length d.1 :=
    fun d hd => numberDocs_inRange corpus d (hperm'.mem_iff.1 hd)
  rcases buildShard_isShardOf (F := F) corpus.length first
    (ndAll first (List.mem_cons_self _ _)) (hrAll first (List.mem_cons_self _ _)) with
    ⟨s0, h0, sh0, _, hm0⟩
  rcases buildShards_isShardOf (F := F) corpus.length rest
    (fun p hp => ndAll p (List.mem_cons_of_mem _ hp))
    (fun p hp => hrAll p (List.mem_cons_of_mem _ hp)) with ⟨ss, hss, shs⟩
  rcases joinAll_isShardOf corpus.length rest ss shs first s0 sh0 ndFlat with
    ⟨merged, hm, shm, _, hmm⟩
  have hmag : merged.docsMagnitudes = List.replicate corpus.length 0 := hmm.trans hm0
  have hin : ∀ p ∈ allPostings merged.dictionary,
      InRange merged.docsMagnitudes.length p.docID := by
    rw [hmag, List.length_replicate]
    exact (isShardOf_postings corpus.length _ merged shm ndFlat hrFlat).2.2.1
  rcases weighting_isSome log2 sqrt merged hin with ⟨idx, hidx⟩
  rcases weighted_magnitudes log2 sqrt hsqrt0 hsqrt hlog corpus.length _ merged idx shm hmag
    ndFlat hrFlat hidx with ⟨r1, r2⟩
  exact ⟨s0, ss, merged, idx, h0, hss, hm, hidx,
    fun d hd => r1 d (hperm'.mem_iff.2 hd), r2⟩

/-- Witness of C9 over the real numbers, with the real square root and the logarithm to
base 2, on three documents in two shards. -/
theorem docsMagnitudes_after_weighting_witness :
    ∃ (s0 : InvertedIndex ℝ) (ss : List (InvertedIndex ℝ)) (merged idx : InvertedIndex ℝ),
      buildShard 3 [(0, "the quick fox".toList), (2, "lazy dog".toList)] = some s0 ∧
      [[((1 : Int), "Quick, quick dog".toList)]].mapM (buildShard 3) = some ss ∧
      joinAll s0 ss = some merged ∧
      calculateIDFandBuildDocMagnitudes (Real.logb 2) Real.sqrt merged = some idx ∧
      ∀ tokens, ∀ j ∈ (similarities idx tokens).map Prod.fst,
        ∃ m, vecGet idx.docsMagnitudes j = some m ∧ 0 < m :=
  match docsMagnitudes_after_weighting (Real.logb 2) Real.sqrt Real.sqrt_nonneg
    (fun _ hx => Real.mul_self_sqrt hx)
    (fun _ hx => Real.logb_pos (by norm_num) hx) demoLines
    [(0, "the quick fox".toList), (2, "lazy dog".toList)]
    [[(1, "Quick, quick dog".toList)]] (by decide) (by decide) with
  | ⟨s0, ss, merged, idx, h1, h2, h3, h4, _, h6⟩ => ⟨s0, ss, merged, idx, h1, h2, h3, h4, h6⟩

theorem vecGet_mem {β : Type} (v : List β) (j : Int) (x : β) (h : vecGet v j = some x) :
    x ∈ v := by
  unfold vecGet at h
  by_cases h0 : 0 ≤ j
  · simp only [h0, if_true] at h
    exact List.get?_mem h
  · simp [h0] at h

/-- A second run of the weighting pass on the index a first run produced from all-zero
magnitudes. -/
theorem weighting_second_run (log2 sqrt : F → F) (hsqrt0 : ∀ x, 0 ≤ sqrt x)
    (hsqrt : ∀ x, 0 ≤ x → sqrt x * sqrt x = x) (idx0 idx1 : InvertedIndex F)
    (hz : ∀ x ∈ idx0.docsMagnitudes, x = 0)
    (h1 : calculateIDFandBuildDocMagnitudes log2 sqrt idx0 = some idx1) :
    ∃ idx2, calculateIDFandBuildDocMagnitudes log2 sqrt idx1 = some idx2 ∧
      idx2.dictionary = idx1.dictionary ∧
      (∀ t, mapFind t idx2.IDF = mapFind t idx1.IDF) ∧
      ∀ j m1, vecGet idx1.docsMagnitudes j = some m1 →
        0 ≤ m1 ∧ vecGet idx2.docsMagnitudes j = some (sqrt (m1 + m1 * m1)) ∧
        (sqrt (m1 + m1 * m1) = m1 ↔ m1 = 0) := by
  rcases weighting_some log2 sqrt idx0 idx1 h1 with ⟨hd1, hmf1, hidf1, hl1, hr1, hg1⟩
  have hin : ∀ p ∈ allPostings idx1.dictionary,
      InRange idx1.docsMagnitudes.length p.docID := by
    rw [hd1, hl1]; exact hr1
  rcases weighting_isSome log2 sqrt idx1 hin with ⟨idx2, h2⟩
  rcases weighting_some log2 sqrt idx1 idx2 h2 with ⟨hd2, _, hidf2, _, _, hg2⟩
  refine ⟨idx2, h2, hd2, ?_, ?_⟩
  · intro t
    rw [hidf2, idfAfter_find, hidf1, hmf1, hd1]
    cases hl : lastIdf log2 idx0.docsMaxFreq.length t idx0.dictionary with
    | some v =>
      rw [idfAfter_find, hl]
    | none => rfl
  · intro j m1 hm1
    have hg := hg1 j
    rw [hm1] at hg
    cases hx : vecGet idx0.docsMagnitudes j with
    | none => rw [hx] at hg; cases hg
    | some x0 =>
      rw [hx] at hg
      have hx0 : x0 = 0 := hz x0 (vecGet_mem _ j x0 hx)
      simp only [Option.map_some', Option.some.injEq] at hg
      have hS := squareSum_nonneg log2 idx0.docsMaxFreq.length idx0.dictionary j
      have hsq : m1 * m1 = squareSum log2 idx0.docsMaxFreq.length idx0.dictionary j := by
        rw [hg, hx0, zero_add]
        exact hsqrt _ hS
      have hm1nn : 0 ≤ m1 := by rw [hg]; exact hsqrt0 _
      refine ⟨hm1nn, ?_, ?_⟩
      · rw [hg2 j, hm1, hmf1, hd1, ← hsq]
        rfl
      · have hnn : 0 ≤ m1 + m1 * m1 := add_nonneg hm1nn (mul_self_nonneg m1)
        constructor
        · intro he
          have := hsqrt _ hnn
          rw [he] at this
          linarith
        · intro h0
          rw [h0]
          simp only [mul_zero, add_zero]
          exact (sqrt_eq_zero_iff sqrt hsqrt 0 (le_refl 0)).2 rfl

/-- C7, as the code has it: a second run of `calculateIDFandBuildDocMagnitudes` on an index
that a first run weighted (from the all-zero magnitudes of the constructor) leaves the
dictionary and the IDF table unchanged, but turns every magnitude `m` into
`sqrt(m + m^2)`, since the pass adds to the stored magnitudes without resetting them; the
entry is unchanged exactly when `m = 0`. -/
theorem weighting_twice (log2 sqrt : F → F) (hsqrt0 : ∀ x, 0 ≤ sqrt x)
    (hsqrt : ∀ x, 0 ≤ x → sqrt x * sqrt x = x) (idx0 idx1 : InvertedIndex F)
    (hz : ∀ x ∈ idx0.docsMagnitudes, x = 0)
    (h1 : calculateIDFandBuildDocMagnitudes log2 sqrt idx0 = some idx1) :
    ∃ idx2, calculateIDFandBuildDocMagnitudes log2 sqrt idx1 = some idx2 ∧
      idx2.dictionary = idx1.dictionary ∧
      (∀ t, mapFind t idx2.IDF = mapFind t idx1.IDF) ∧
      ∀ j m1, vecGet idx1.docsMagnitudes j = some m1 →
        0 ≤ m1 ∧ vecGet idx2.docsMagnitudes j = some (sqrt (m1 + m1 * m1)) ∧
        (vecGet idx2.docsMagnitudes j = vecGet idx1.docsMagnitudes j ↔ m1 = 0) := by
  rcases weighting_second_run log2 sqrt hsqrt0 hsqrt idx0 idx1 hz h1 with ⟨idx2, h2, hd, hi, hm⟩
  refine ⟨idx2, h2, hd, hi, ?_⟩
  intro j m1 hm1
  rcases hm j m1 hm1 with ⟨a, b, c⟩
  refine ⟨a, b, ?_⟩
  rw [b, hm1]
  constructor
  · intro h; exact c.1 (Option.some.inj h)
  · intro h; rw [c.2 h]

theorem oneDocShard_built :
    buildShard 1 [(0, "a".toList)] = some (oneDocShard : InvertedIndex F) := by
  have ht : tokenize "a".toList = ["a"] := by decide
  unfold buildShard ingest addDocument
  rw [ht]
  simp [ingest, addTokens, add, mapFind, mapAssign, InvertedIndex.new, freshPosting,
    calculateDocMaxFreq, maxFreqStep, vecGet, vecSet, calculateTF, tfStep, oneDocShard,
    List.mapM.loop]

/-- Counterexample to C7 as stated, over the real numbers with the real square root and the
logarithm to base 2: on the shard of the one document `a`, a second weighting pass changes
`docsMagnitudes[0]`. -/
theorem weighting_twice_counterexample :
    ∃ idx1 idx2 : InvertedIndex ℝ,
      buildShard 1 [(0, "a".toList)] = some (oneDocShard : InvertedIndex ℝ) ∧
      calculateIDFandBuildDocMagnitudes (Real.logb 2) Real.sqrt oneDocShard = some idx1 ∧
      calculateIDFandBuildDocMagnitudes (Real.logb 2) Real.sqrt idx1 = some idx2 ∧
      vecGet idx2.docsMagnitudes 0 ≠ vecGet idx1.docsMagnitudes 0 := by
  have hin : ∀ p ∈ allPostings (oneDocShard : InvertedIndex ℝ).dictionary,
      InRange (oneDocShard : InvertedIndex ℝ).docsMagnitudes.length p.docID := by
    intro p hp
    simp only [allPostings, oneDocShard, List.flatMap_cons, List.flatMap_nil,
      List.append_nil, List.mem_singleton] at hp
    rw [hp]
    exact ⟨le_refl _, by simp [oneDocShard]⟩
  rcases weighting_isSome (Real.logb 2) Real.sqrt oneDocShard hin with ⟨idx1, h1⟩
  rcases weighting_second_run (Real.logb 2) Real.sqrt Real.sqrt_nonneg
    (fun _ hx => Real.mul_self_sqrt hx) oneDocShard idx1
    (by intro x hx; simpa [oneDocShard] using hx) h1 with ⟨idx2, h2, _, _, hm⟩
  refine ⟨idx1, idx2, oneDocShard_built, h1, h2, ?_⟩
  rcases weighting_some (Real.logb 2) Real.sqrt oneDocShard idx1 h1 with ⟨_, _, _, _, _, hg⟩
  have hval : vecGet idx1.docsMagnitudes 0 =
      some (Real.sqrt (0 + squareSum (Real.logb 2) 1 (oneDocShard : InvertedIndex ℝ).dictionary 0)) := by
    rw [hg 0]
    simp [oneDocShard, vecGet]
  rcases hm 0 _ hval with ⟨_, hb, hc⟩
  rw [hb, hval]
  intro he
  have h0 := hc.1 (Option.some.inj he)
  have hpos : 0 < squareSum (Real.logb 2) 1 (oneDocShard : InvertedIndex ℝ).dictionary 0 := by
    apply squareSum_pos (Real.logb 2) (fun _ hx => Real.logb_pos (by norm_num) hx) 1
      (by norm_num) _ 0 _ { docID := 0, TF := 1, freq := 1, positions := [0] }
    · simp [allPostings, oneDocShard]
    · rfl
    · intro p hp
      simp only [allPostings, oneDocShard, List.flatMap_cons, List.flatMap_nil,
        List.append_nil, List.mem_singleton] at hp
      rw [hp]
      exact one_pos
  rw [zero_add] at h0
  have := (sqrt_eq_zero_iff Real.sqrt (fun _ hx => Real.mul_self_sqrt hx) _ (le_of_lt hpos)).1 h0
  rw [this] at hpos
  exact lt_irrefl _ hpos

theorem mem_matchingDocs (idx : InvertedIndex F) (tokens : List Word) (d : Int) :
    d ∈ matchingDocs idx tokens ↔ ∃ u ∈ tokens, ∃ p ∈ postingsOf idx u, p.docID = d := by
  unfold matchingDocs
  rw [List.mem_dedup, List.mem_flatMap]
  constructor
  · rintro ⟨u, hu, hd⟩
    rcases List.mem_map.1 hd with ⟨p, hp, e⟩
    exact ⟨u, (List.mem_filter.1 hu).1, p, hp, e⟩
  · rintro ⟨u, hu, p, hp, e⟩
    refine ⟨u, List.mem_filter.2 ⟨hu, ?_⟩, List.mem_map.2 ⟨p, hp, e⟩⟩
    unfold known
    unfold postingsOf at hp
    cases hf : mapFind u idx.dictionary with
    | none => rw [hf] at hp; simp at hp
    | some es => rfl

/-- In a weighted index over at least one document, a token of the query that has a posting
has a non-zero weight. -/
theorem queryWeight_ne_zero (log2 sqrt : F → F) (hlog : ∀ x, 1 < x → 0 < log2 x)
    (idx0 idx : InvertedIndex F)
    (hw : calculateIDFandBuildDocMagnitudes log2 sqrt idx0 = some idx)
    (nd : (idx0.dictionary.map Prod.fst).Nodup) (hN : 0 < idx0.docsMaxFreq.length)
    (tokens : List Word) (u : Word) (hu : u ∈ tokens) (p : DocWordData F)
    (hp : p ∈ postingsOf idx u) : queryWeight idx tokens u ≠ 0 := by
  rcases weighting_some log2 sqrt idx0 idx hw with ⟨_, hmf, _, _, _, _⟩
  unfold postingsOf at hp
  cases hf : mapFind u idx.dictionary with
  | none => rw [hf] at hp; simp at hp
  | some es =>
    rw [hf] at hp
    simp only [Option.getD_some] at hp
    have hidf := idfOf_weighted log2 sqrt idx0 idx hw nd u es hf
    have hpos : 0 < idfOf idx u := by
      rw [hidf]
      exact idfValue_pos log2 hlog _ _ (by rw [hmf]; exact hN) (List.length_pos_of_mem hp)
    have hcount : 0 < tokens.count u := List.count_pos_iff.2 hu
    have hmax : 0 < maxTermFreq tokens := lt_of_lt_of_le hcount (count_le_maxTermFreq _ u)
    unfold queryWeight
    apply ne_of_gt
    apply mul_pos _ hpos
    exact div_pos (by exact_mod_cast hcount) (by exact_mod_cast hmax)

/-- For `k ≥ 1`, on a weighted index over at least one document: the ranked list has
`min(k, M)` entries, `M` the number of matching documents, and holds every matching
document exactly once when `k ≥ M`. -/
theorem executeQuery_length_of_pos (log2 sqrt : F → F) (hlog : ∀ x, 1 < x → 0 < log2 x)
    (idx0 idx : InvertedIndex F)
    (hw : calculateIDFandBuildDocMagnitudes log2 sqrt idx0 = some idx)
    (nd : (idx0.dictionary.map Prod.fst).Nodup) (hN : 0 < idx0.docsMaxFreq.length)
    (nth : Nat → List (F × Int) → List (F × Int)) (sort : List (F × Int) → List (F × Int))
    (hn : NthElementSpec nth) (hs : SortSpec sort) (k : Int) (hk : 1 ≤ k)
    (tokens : List Word) :
    ∃ out, executeQueryTokens nth sort idx k tokens = some out ∧
      out.length = min k.toNat (matchingDocs idx tokens).length ∧
      ((matchingDocs idx tokens).length ≤ k.toNat →
        (out.map Prod.snd).Perm (matchingDocs idx tokens)) := by
  rcases queryResults_isSome idx tokens (weighted_inRange log2 sqrt idx0 idx hw) with ⟨res, hres⟩
  have hkeys := (queryResults_some idx tokens res hres).1
  have ndk : (res.map Prod.snd).Nodup := by
    rw [hkeys]; exact similarities_nodupKeys idx tokens
  have ndm : (matchingDocs idx tokens).Nodup := by
    unfold matchingDocs
    exact List.nodup_dedup _
  have hperm : (res.map Prod.snd).Perm (matchingDocs idx tokens) := by
    rw [List.perm_ext_iff_of_nodup ndk ndm]
    intro d
    rw [hkeys, mem_keys_similarities, mem_matchingDocs]
    constructor
    · rintro ⟨u, hu, _, p, hp, e⟩
      exact ⟨u, hu, p, hp, e⟩
    · rintro ⟨u, hu, p, hp, e⟩
      exact ⟨u, hu, queryWeight_ne_zero log2 sqrt hlog idx0 idx hw nd hN tokens u hu p hp,
        p, hp, e⟩
  have hlen : res.length = (matchingDocs idx tokens).length := by
    rw [← hperm.length_eq, List.length_map]
  rcases selectTop_topK hn hs k hk res with ⟨out, hout, htop⟩
  refine ⟨out, ?_, by rw [htop.2.2.1, hlen], ?_⟩
  · unfold executeQueryTokens
    rw [hres]
    exact hout
  · intro hle
    have hfull : out.Perm res :=
      htop.2.1.perm_of_length_le (by rw [htop.2.2.1, hlen, min_eq_right hle])
    exact (hfull.map Prod.snd).trans hperm

/-- C3 at `k = 0`: on the weighted demo index, for the query token quick (two matching
documents) and `k = 0`, `executeQuery` takes the branch `querySize < results.size()` and
hands `nth_element` the position `begin() + 0 - 1`, before the range: the call is undefined
and no ranked list is defined, whatever the library functions. -/
theorem executeQuery_zero_k_undefined (nth : Nat → List (ℚ × Int) → List (ℚ × Int))
    (sort : List (ℚ × Int) → List (ℚ × Int)) :
    (queryResults demoWeighted ["quick"]).map List.length = some 2 ∧
      executeQueryTokens nth sort demoWeighted 0 ["quick"] = none := by
  exact ⟨by with_unfolding_all rfl, by with_unfolding_all rfl⟩

theorem oneDocShard_inRange :
    ∀ p ∈ allPostings (oneDocShard : InvertedIndex F).dictionary,
      InRange (oneDocShard : InvertedIndex F).docsMagnitudes.length p.docID := by
  intro p hp
  simp only [allPostings, oneDocShard, List.flatMap_cons, List.flatMap_nil,
    List.append_nil, List.mem_singleton] at hp
  rw [hp]
  exact ⟨le_refl _, by simp [oneDocShard]⟩

/-- Witness of C7 (amended) over the real numbers, with the real square root and the
logarithm to base 2, on the shard of the one document `a`. -/
theorem weighting_twice_witness :
    ∃ idx1 idx2 : InvertedIndex ℝ,
      (∀ x ∈ (oneDocShard : InvertedIndex ℝ).docsMagnitudes, x = 0) ∧
      calculateIDFandBuildDocMagnitudes (Real.logb 2) Real.sqrt oneDocShard = some idx1 ∧
      calculateIDFandBuildDocMagnitudes (Real.logb 2) Real.sqrt idx1 = some idx2 ∧
      ∀ t, mapFind t idx2.IDF = mapFind t idx1.IDF :=
  match weighting_isSome (Real.logb 2) Real.sqrt (oneDocShard : InvertedIndex ℝ)
    oneDocShard_inRange with
  | ⟨idx1, h1⟩ =>
    match weighting_twice (Real.logb 2) Real.sqrt Real.sqrt_nonneg
      (fun _ hx => Real.mul_self_sqrt hx) oneDocShard idx1
      (by intro x hx; simpa [oneDocShard] using hx) h1 with
    | ⟨idx2, h2, _, hi, _⟩ =>
      ⟨idx1, idx2, by intro x hx; simpa [oneDocShard] using hx, h1, h2, hi⟩

/-- The length theorem for `k ≥ 1` on the demo index: the query token quick with `k = 1`
gives one result out of two matching documents. -/
theorem executeQuery_length_of_pos_demo :
    ∃ out, executeQueryTokens (fun _ xs => demoSort xs) demoSort demoWeighted 1 ["quick"] =
        some out ∧ out.length = 1 :=
  match executeQuery_length_of_pos (fun x : ℚ => x) (fun x : ℚ => x)
    (fun _ hx => lt_trans one_pos hx) demoShard demoWeighted (by with_unfolding_all rfl)
    (by decide) (by decide) (fun _ xs => demoSort xs) demoSort demoSort_nthElementSpec
    demoSort_sortSpec 1 (by decide) ["quick"] with
  | ⟨out, h, hl, _⟩ => ⟨out, h, by rw [hl]; with_unfolding_all rfl⟩

/-! ## The tokenizer -/

theorem char_le_iff (a b : Char) : a ≤ b ↔ a.toNat ≤ b.toNat := by
  rfl

theorem char_eq_iff (a b : Char) : a = b ↔ a.toNat = b.toNat := by
  constructor
  · intro h; rw [h]
  · intro h
    rw [← Char.ofNat_toNat a, ← Char.ofNat_toNat b, h]

theorem upper_to_lower (n : Nat) (h1 : 65 ≤ n) (h2 : n ≤ 90) :
    (Char.ofNat (n + 32)).toNat = n + 32 := by
  interval_cases n <;> rfl

theorem isAlnum_iff (c : Char) :
    isAlnum c = true ↔ (97 ≤ c.toNat ∧ c.toNat ≤ 122) ∨ (48 ≤ c.toNat ∧ c.toNat ≤ 57) ∨
      (65 ≤ c.toNat ∧ c.toNat ≤ 90) := by
  unfold isAlnum
  simp only [decide_eq_true_eq, char_le_iff]
  rfl

theorem isLowerAlnum_iff (c : Char) :
    isLowerAlnum c = true ↔ (97 ≤ c.toNat ∧ c.toNat ≤ 122) ∨ (48 ≤ c.toNat ∧ c.toNat ≤ 57) := by
  unfold isLowerAlnum
  simp only [decide_eq_true_eq, char_le_iff]
  rfl

theorem isSpace_iff (c : Char) :
    isSpace c = true ↔ c.toNat = 32 ∨ (9 ≤ c.toNat ∧ c.toNat ≤ 13) := by
  unfold isSpace
  simp only [Bool.or_eq_true, Bool.and_eq_true, decide_eq_true_eq, char_eq_iff]
  rfl

theorem lowerChar_toNat (c : Char) :
    (lowerChar c).toNat = if 65 ≤ c.toNat ∧ c.toNat ≤ 90 then c.toNat + 32 else c.toNat := by
  unfold lowerChar
  simp only [char_le_iff]
  have e1 : 'A'.toNat = 65 := rfl
  have e2 : 'Z'.toNat = 90 := rfl
  rw [e1, e2]
  by_cases h : 65 ≤ c.toNat ∧ c.toNat ≤ 90
  · simp only [h, and_self, if_true]
    exact upper_to_lower _ h.1 h.2
  · simp only [h, if_false]

theorem convertChar_toNat (c : Char) :
    (convertChar c).toNat =
      if (97 ≤ c.toNat ∧ c.toNat ≤ 122) ∨ c.toNat = 32 ∨ (48 ≤ c.toNat ∧ c.toNat ≤ 57)
      then c.toNat
      else if 65 ≤ c.toNat ∧ c.toNat ≤ 90 then c.toNat + 32 else 32 := by
  unfold convertChar
  simp only [char_le_iff, char_eq_iff]
  have e1 : 'A'.toNat = 65 := rfl
  have e2 : 'Z'.toNat = 90 := rfl
  have e3 : 'a'.toNat = 97 := rfl
  have e4 : 'z'.toNat = 122 := rfl
  have e5 : '0'.toNat = 48 := rfl
  have e6 : '9'.toNat = 57 := rfl
  have e7 : ' '.toNat = 32 := rfl
  rw [e1, e2, e3, e4, e5, e6, e7]
  by_cases h : (97 ≤ c.toNat ∧ c.toNat ≤ 122) ∨ c.toNat = 32 ∨ (48 ≤ c.toNat ∧ c.toNat ≤ 57)
  · simp only [h, if_true]
  · simp only [h, if_false]
    by_cases h' : 65 ≤ c.toNat ∧ c.toNat ≤ 90
    · simp only [h', and_self, if_true]
      exact upper_to_lower _ h'.1 h'.2
    · simp only [h', if_false]
      exact e7

/-- An alphanumeric byte is kept by `convertToLowerCase`, lowercased, and is no separator. -/
theorem convertChar_of_alnum (c : Char) (h : isAlnum c = true) :
    convertChar c = lowerChar c ∧ isLowerAlnum (lowerChar c) = true ∧
      isSpace (lowerChar c) = false := by
  rw [isAlnum_iff] at h
  refine ⟨?_, ?_, ?_⟩
  · rw [char_eq_iff, convertChar_toNat, lowerChar_toNat]
    split_ifs <;> omega
  · rw [isLowerAlnum_iff, lowerChar_toNat]
    split_ifs <;> omega
  · rw [Bool.eq_false_iff, ne_eq, isSpace_iff, lowerChar_toNat]
    split_ifs <;> omega

/-- Every other byte becomes a space. -/
theorem convertChar_of_not_alnum (c : Char) (h : isAlnum c = false) :
    convertChar c = ' ' := by
  rw [Bool.eq_false_iff, ne_eq, isAlnum_iff] at h
  rw [char_eq_iff, convertChar_toNat]
  have e7 : ' '.toNat = 32 := rfl
  rw [e7]
  split_ifs <;> omega

theorem isSpace_space : isSpace ' ' = true := by decide

theorem splitAux_nil (cur : List Char) :
    splitAux [] cur = if cur = [] then [] else [String.mk cur] := rfl

theorem splitAux_cons_space (s : Char) (hs : isSpace s = true) (l cur : List Char) :
    splitAux (s :: l) cur = splitAux [] cur ++ splitAux l [] := by
  by_cases hc : cur = []
  · simp [splitAux, hs, hc]
  · simp [splitAux, hs, hc]

theorem splitAux_cons_char (c : Char) (hc : isSpace c = false) (l cur : List Char) :
    splitAux (c :: l) cur = splitAux l (cur ++ [c]) := by
  simp [splitAux, hc]

/-- A separator splits the token sequence. -/
theorem splitAux_split (s : Char) (hs : isSpace s = true) (xs ys : List Char) :
    ∀ cur, splitAux (xs ++ s :: ys) cur = splitAux xs cur ++ splitAux ys [] := by
  induction xs with
  | nil =>
    intro cur
    exact splitAux_cons_space s hs ys cur
  | cons c xs ih =>
    intro cur
    by_cases hc : isSpace c = true
    · rw [List.cons_append, splitAux_cons_space c hc, splitAux_cons_space c hc, ih,
        List.append_assoc]
    · have hc' : isSpace c = false := by simpa using hc
      rw [List.cons_append, splitAux_cons_char c hc', splitAux_cons_char c hc', ih]

/-- A run without separator is one token. -/
theorem splitAux_run (run : List Char) (h : ∀ c ∈ run, isSpace c = false) :
    ∀ cur, splitAux run cur = if cur ++ run = [] then [] else [String.mk (cur ++ run)] := by
  induction run with
  | nil => intro cur; simp [splitAux]
  | cons c run ih =>
    intro cur
    rw [splitAux_cons_char c (h c (List.mem_cons_self _ _)),
      ih (fun x hx => h x (List.mem_cons_of_mem _ hx))]
    simp

theorem splitAux_tokens (l : List Char) :
    ∀ cur, ∀ t ∈ splitAux l cur, t.data ≠ [] ∧
      ∀ c ∈ t.data, c ∈ cur ∨ (c ∈ l ∧ isSpace c = false) := by
  induction l with
  | nil =>
    intro cur t ht
    by_cases hc : cur = []
    · simp [splitAux, hc] at ht
    · simp only [splitAux, hc, if_false, List.mem_singleton] at ht
      subst ht
      exact ⟨hc, fun c hcm => Or.inl hcm⟩
  | cons x l ih =>
    intro cur t ht
    by_cases hx : isSpace x = true
    · rw [splitAux_cons_space x hx, List.mem_append] at ht
      rcases ht with ht | ht
      · by_cases hc : cur = []
        · simp [splitAux, hc] at ht
        · simp only [splitAux, hc, if_false, List.mem_singleton] at ht
          subst ht
          exact ⟨hc, fun c hcm => Or.inl hcm⟩
      · rcases ih [] t ht with ⟨h1, h2⟩
        refine ⟨h1, fun c hcm => ?_⟩
        rcases h2 c hcm with h | h
        · simp at h
        · exact Or.inr ⟨List.mem_cons_of_mem _ h.1, h.2⟩
    · have hx' : isSpace x = false := by simpa using hx
      rw [splitAux_cons_char x hx'] at ht
      rcases ih (cur ++ [x]) t ht with ⟨h1, h2⟩
      refine ⟨h1, fun c hcm => ?_⟩
      rcases h2 c hcm with h | h
      · rw [List.mem_append, List.mem_singleton] at h
        rcases h with h | h
        · exact Or.inl h
        · exact Or.inr ⟨by rw [h]; exact List.mem_cons_self _ _, by rw [h]; exact hx'⟩
      · exact Or.inr ⟨List.mem_cons_of_mem _ h.1, h.2⟩

theorem splitAux_flatten (l : List Char) :
    ∀ cur, ((splitAux l cur).map String.data).flatten =
      cur ++ l.filter (fun c => !isSpace c) := by
  induction l with
  | nil =>
    intro cur
    by_cases hc : cur = []
    · simp [splitAux, hc]
    · simp [splitAux, hc]
  | cons x l ih =>
    intro cur
    by_cases hx : isSpace x = true
    · rw [splitAux_cons_space x hx, List.map_append, List.flatten_append, ih []]
      by_cases hc : cur = []
      · simp [splitAux, hc, hx]
      · simp [splitAux, hc, hx]
    · have hx' : isSpace x = false := by simpa using hx
      rw [splitAux_cons_char x hx', ih]
      simp [List.filter_cons, hx']

theorem convertChar_cases (c : Char) :
    (isAlnum c = true ∧ convertChar c = lowerChar c ∧ isLowerAlnum (convertChar c) = true ∧
        isSpace (convertChar c) = false) ∨
      (isAlnum c = false ∧ convertChar c = ' ') := by
  cases h : isAlnum c with
  | true =>
    rcases convertChar_of_alnum c h with ⟨h1, h2, h3⟩
    exact Or.inl ⟨rfl, h1, by rw [h1]; exact h2, by rw [h1]; exact h3⟩
  | false => exact Or.inr ⟨rfl, convertChar_of_not_alnum c h⟩

theorem convert_filter (line : List Char) :
    (convertToLowerCase line).filter (fun c => !isSpace c) =
      (line.filter isAlnum).map lowerChar := by
  unfold convertToLowerCase
  induction line with
  | nil => rfl
  | cons c line ih =>
    rcases convertChar_cases c with ⟨h1, h2, _, h4⟩ | ⟨h1, h2⟩
    · rw [h2] at h4
      simp [List.filter_cons, h1, h2, h4, ih]
    · simp only [List.map_cons, List.filter_cons, h1, h2, isSpace_space, Bool.not_true, ih]
      simp

/-- C11: for every line, the tokens `convertToLowerCase` and the whitespace split produce
are non-empty and made of characters in `a-z`, `0-9`; their concatenation, in order, is the
sequence of the line's ASCII alphanumeric bytes with `A-Z` lowercased; a non-alphanumeric
byte separates the tokens before it from the tokens after it, and a run of alphanumeric
bytes is a single token, so two alphanumeric bytes are in the same token exactly when no
non-alphanumeric byte lies between them. -/
theorem tokenize_runs (line : List Char) :
    (∀ t ∈ tokenize line, t.data ≠ [] ∧ ∀ c ∈ t.data, isLowerAlnum c = true) ∧
      ((tokenize line).map String.data).flatten = (line.filter isAlnum).map lowerChar ∧
      (∀ pre x post, line = pre ++ x :: post → isAlnum x = false →
        tokenize line = tokenize pre ++ tokenize post) ∧
      ((line ≠ [] ∧ ∀ c ∈ line, isAlnum c = true) → tokenize line = [tokenOf line]) := by
  refine ⟨?_, ?_, ?_, ?_⟩
  · intro t ht
    rcases splitAux_tokens (convertToLowerCase line) [] t ht with ⟨h1, h2⟩
    refine ⟨h1, fun c hc => ?_⟩
    rcases h2 c hc with h | ⟨hm, hs⟩
    · simp at h
    · unfold convertToLowerCase at hm
      rcases List.mem_map.1 hm with ⟨x, _, rfl⟩
      rcases convertChar_cases x with ⟨_, _, h3, _⟩ | ⟨_, h2'⟩
      · exact h3
      · rw [h2', isSpace_space] at hs
        cases hs
  · unfold tokenize splitTokens
    rw [splitAux_flatten, List.nil_append, convert_filter]
  · intro pre x post hl hx
    subst hl
    unfold tokenize splitTokens convertToLowerCase
    rw [List.map_append, List.map_cons, convertChar_of_not_alnum x hx,
      splitAux_split ' ' isSpace_space]
  · rintro ⟨hne, hall⟩
    unfold tokenize splitTokens
    have hconv : convertToLowerCase line = line.map lowerChar := by
      unfold convertToLowerCase
      exact List.map_congr_left (fun c hc => (convertChar_of_alnum c (hall c hc)).1)
    rw [hconv, splitAux_run]
    · simp [tokenOf, hne]
    · intro c hc
      rcases List.mem_map.1 hc with ⟨x, hx, rfl⟩
      exact (convertChar_of_alnum x (hall x hx)).2.2

/-! ## The header of a query line -/

theorem scanSpace_append (ds rest : List Char) (h : ∀ c ∈ ds, c ≠ ' ') :
    ∀ c, scanSpace (ds ++ ' ' :: rest) c = some (c + ds.length) := by
  induction ds with
  | nil => intro c; simp [scanSpace]
  | cons d ds ih =>
    intro c
    have hd : d ≠ ' ' := h d (List.mem_cons_self _ _)
    simp only [List.cons_append, scanSpace, hd, if_false, List.length_cons, List.append_eq]
    rw [ih (fun x hx => h x (List.mem_cons_of_mem _ hx))]
    congr 1
    omega

/-- Without a space the scan leaves the string. -/
theorem scanSpace_none (l : List Char) (h : ' ' ∉ l) : ∀ c, scanSpace l c = none := by
  induction l with
  | nil => intro c; rfl
  | cons d l ih =>
    intro c
    simp only [List.mem_cons, not_or] at h
    have hd : d ≠ ' ' := fun e => h.1 e.symm
    simp only [scanSpace, hd, if_false]
    exact ih h.2 _

theorem scanSpace_some (l : List Char) :
    ∀ c p, scanSpace l c = some p → c ≤ p ∧ l.get? (p - c) = some ' ' ∧
      ' ' ∉ l.take (p - c) := by
  induction l with
  | nil => intro c p h; simp [scanSpace] at h
  | cons d l ih =>
    intro c p h
    by_cases hd : d = ' '
    · simp only [scanSpace, hd, if_true, Option.some.injEq] at h
      subst h
      simp [hd]
    · simp only [scanSpace, hd, if_false] at h
      rcases ih (c + 1) p h with ⟨h1, h2, h3⟩
      have e : p - c = (p - (c + 1)) + 1 := by omega
      refine ⟨by omega, ?_, ?_⟩
      · rw [e, List.get?_cons_succ]; exact h2
      · rw [e, List.take_succ_cons, List.mem_cons, not_or]
        exact ⟨fun e' => hd e'.symm, h3⟩

theorem isDigit_iff (c : Char) : isDigit c = true ↔ 48 ≤ c.toNat ∧ c.toNat ≤ 57 := by
  unfold isDigit
  simp only [decide_eq_true_eq, char_le_iff]
  rfl

theorem digit_ne_space (c : Char) (h : isDigit c = true) : c ≠ ' ' := by
  rw [isDigit_iff] at h
  intro e
  rw [e] at h
  have e7 : ' '.toNat = 32 := rfl
  omega

theorem charValue_digit (c : Char) (h : isDigit c = true) :
    charValue c = ((c.toNat - 48 : Nat) : Int) := by
  rw [isDigit_iff] at h
  unfold charValue
  have : c.toNat < 128 := by omega
  simp only [this, if_true]
  omega

/-- The digits read most significant first, as a left fold. -/
theorem foldl_digits (ds : List Char) :
    ∀ acc : Nat, ds.foldl (fun n c => n * 10 + (c.toNat - 48)) acc =
      acc * 10 ^ ds.length + decimalValue ds := by
  induction ds with
  | nil => intro acc; simp [decimalValue]
  | cons d ds ih =>
    intro acc
    rw [List.foldl_cons, ih]
    unfold decimalValue
    simp only [List.map_cons, List.reverse_cons, Nat.ofDigits_append, Nat.ofDigits_singleton,
      List.length_reverse, List.length_map, List.length_cons]
    ring

theorem foldl_digits_mono (ds : List Char) :
    ∀ acc : Nat, acc ≤ ds.foldl (fun n c => n * 10 + (c.toNat - 48)) acc := by
  induction ds with
  | nil => intro acc; exact le_refl _
  | cons d ds ih =>
    intro acc
    rw [List.foldl_cons]
    exact le_trans (by omega) (ih _)

theorem checkInt_nat (n : Nat) (h : n ≤ 2147483647) : checkInt (n : Int) = some (n : Int) := by
  unfold checkInt
  have : -2147483648 ≤ (n : Int) ∧ (n : Int) ≤ 2147483647 := by omega
  simp [this]

/-- The header loop on a run of digits whose value fits an `int`: the decimal value. -/
theorem foldlM_digitStep (ds : List Char) (hd : ∀ c ∈ ds, isDigit c = true) :
    ∀ acc : Nat, ds.foldl (fun n c => n * 10 + (c.toNat - 48)) acc ≤ 2147483647 →
      ds.foldlM digitStep (acc : Int) =
        some ((ds.foldl (fun n c => n * 10 + (c.toNat - 48)) acc : Nat) : Int) := by
  induction ds with
  | nil => intro acc _; rfl
  | cons d ds ih =>
    intro acc hr
    rw [List.foldl_cons] at hr ⊢
    have hm := foldl_digits_mono ds (acc * 10 + (d.toNat - 48))
    have hstep : digitStep (acc : Int) d = some ((acc * 10 + (d.toNat - 48) : Nat) : Int) := by
      unfold digitStep
      have e1 : (acc : Int) * 10 = ((acc * 10 : Nat) : Int) := by push_cast; ring
      rw [e1, checkInt_nat (acc * 10) (by omega)]
      simp only [Option.some_bind]
      rw [charValue_digit d (hd d (List.mem_cons_self _ _))]
      have e2 : ((acc * 10 : Nat) : Int) + ((d.toNat - 48 : Nat) : Int) =
          ((acc * 10 + (d.toNat - 48) : Nat) : Int) := by push_cast; ring
      rw [e2, checkInt_nat _ (by omega)]
    rw [List.foldlM_cons, hstep]
    exact ih (fun x hx => hd x (List.mem_cons_of_mem _ hx)) _ hr

theorem parse_digits (ds : List Char) (hd : ∀ c ∈ ds, isDigit c = true)
    (hr : decimalValue ds ≤ 2147483647) :
    ds.foldlM digitStep 0 = some (decimalValue ds : Int) := by
  have h := foldlM_digitStep ds hd 0 (by rw [foldl_digits]; simpa using hr)
  rw [foldl_digits] at h
  simpa using h

theorem blankHeader_append (c1 c2 : Nat) (xs ys : List Char) :
    ∀ j, blankHeader c1 c2 j (xs ++ ys) =
      blankHeader c1 c2 j xs ++ blankHeader c1 c2 (j + xs.length) ys := by
  induction xs with
  | nil => intro j; simp [blankHeader]
  | cons x xs ih =>
    intro j
    simp only [List.cons_append, blankHeader, List.append_eq, ih, List.length_cons]
    have : j + 1 + xs.length = j + (xs.length + 1) := by omega
    rw [this]

theorem blankHeader_blank (c1 c2 : Nat) (xs : List Char) :
    ∀ j, (∀ i, j ≤ i → i < j + xs.length → i < c1 ∨ (c1 < i ∧ i < c2)) →
      blankHeader c1 c2 j xs = List.replicate xs.length ' ' := by
  induction xs with
  | nil => intro j _; rfl
  | cons x xs ih =>
    intro j h
    have h0 := h j (le_refl _) (by simp)
    simp only [blankHeader, h0, if_true, List.length_cons, List.replicate_succ]
    rw [ih (j + 1) (fun i hi1 hi2 => h i (by omega) (by simp only [List.length_cons]; omega))]

theorem blankHeader_keep (c1 c2 : Nat) (xs : List Char) :
    ∀ j, c1 ≤ j → c2 ≤ j → blankHeader c1 c2 j xs = xs := by
  induction xs with
  | nil => intro j _ _; rfl
  | cons x xs ih =>
    intro j h1 h2
    have h0 : ¬ (j < c1 ∨ (c1 < j ∧ j < c2)) := by omega
    simp only [blankHeader, h0, if_false]
    rw [ih (j + 1) (by omega) (by omega)]

theorem tokenize_cons_space (l : List Char) : tokenize (' ' :: l) = tokenize l := by
  unfold tokenize splitTokens convertToLowerCase
  have : convertChar ' ' = ' ' := by decide
  rw [List.map_cons, this, splitAux_cons_space ' ' isSpace_space]
  rfl

theorem tokenize_spaces (n : Nat) (l : List Char) :
    tokenize (List.replicate n ' ' ++ l) = tokenize l := by
  induction n with
  | zero => rfl
  | succ n ih => rw [List.replicate_succ, List.cons_append, tokenize_cons_space, ih]

/-! ## Query lines: malformed headers, well-formed headers, `k = 0`, unknown tokens -/

/-- A line with fewer than two spaces: one of the two scans of the header leaves the string. -/
theorem parseHeader_few_spaces (line : List Char) (h : line.count ' ' < 2) :
    parseHeader line = none := by
  unfold parseHeader
  cases h1 : scanSpace line 0 with
  | none => rfl
  | some c1 =>
    simp only [Option.some_bind]
    cases h2 : (line.take c1).foldlM digitStep 0 with
    | none => rfl
    | some qid =>
      simp only [Option.some_bind]
      have hnone : scanSpace (line.drop (c1 + 1)) (c1 + 1) = none := by
        apply scanSpace_none
        intro hmem
        rcases scanSpace_some line 0 c1 h1 with ⟨_, hget, _⟩
        simp only [Nat.sub_zero] at hget
        have hsplit : line.count ' ' =
            (line.take (c1 + 1)).count ' ' + (line.drop (c1 + 1)).count ' ' := by
          rw [← List.count_append, List.take_append_drop]
        have ha : 0 < (line.take (c1 + 1)).count ' ' := by
          rw [List.count_pos_iff]
          rw [List.mem_iff_get?]
          refine ⟨c1, ?_⟩
          rw [List.get?_eq_getElem?, List.getElem?_take_of_lt (Nat.lt_succ_self c1),
            ← List.get?_eq_getElem?]
          exact hget
        have hb : 0 < (line.drop (c1 + 1)).count ' ' := List.count_pos_iff.2 hmem
        omega
      rw [hnone]
      rfl

/-- C13: the header scans of `executeQuery` have no bound check.  On the lines `7` (no space)
and `7 3` (one space), and on every line with fewer than two spaces, a scan for a space reads
past the end of the string: the access is out of range and the run has no defined result,
whatever index is queried, instead of the query being skipped. -/
theorem executeQuery_malformed_header (nth : Nat → List (F × Int) → List (F × Int))
    (sort : List (F × Int) → List (F × Int)) (idx : InvertedIndex F) :
    scanSpace "7".toList 0 = none ∧ executeQuery nth sort idx "7".toList = none ∧
      scanSpace "7 3".toList 0 = some 1 ∧ scanSpace ("7 3".toList.drop 2) 2 = none ∧
      executeQuery nth sort idx "7 3".toList = none ∧
      ∀ line : List Char, line.count ' ' < 2 → executeQuery nth sort idx line = none := by
  have key : ∀ line : List Char, line.count ' ' < 2 →
      executeQuery nth sort idx line = none := by
    intro line h
    unfold executeQuery
    rw [parseHeader_few_spaces line h]
    rfl
  exact ⟨by decide, key _ (by decide), by decide, by decide, key _ (by decide), key⟩

/-- The header of a well-formed line: both fields parsed, and the header blanked. -/
theorem parseHeader_digits (ds1 ds2 text : List Char)
    (h1 : ∀ c ∈ ds1, isDigit c = true) (h2 : ∀ c ∈ ds2, isDigit c = true)
    (r1 : decimalValue ds1 ≤ 2147483647) (r2 : decimalValue ds2 ≤ 2147483647) :
    parseHeader (ds1 ++ ' ' :: (ds2 ++ ' ' :: text)) =
      some ((decimalValue ds1 : Int), (decimalValue ds2 : Int),
        List.replicate (ds1.length + 1 + ds2.length + 1) ' ' ++ text) := by
  unfold parseHeader
  rw [scanSpace_append ds1 _ (fun c hc => digit_ne_space c (h1 c hc)) 0]
  simp only [Nat.zero_add, Option.some_bind, List.take_left', List.take_left]
  rw [parse_digits ds1 h1 r1]
  simp only [Option.some_bind]
  have hdrop : (ds1 ++ ' ' :: (ds2 ++ ' ' :: text)).drop (ds1.length + 1) =
      ds2 ++ ' ' :: text := by
    have : ds1 ++ ' ' :: (ds2 ++ ' ' :: text) = (ds1 ++ [' ']) ++ (ds2 ++ ' ' :: text) := by
      simp
    rw [this]
    exact List.drop_left' (by simp)
  rw [hdrop, scanSpace_append ds2 _ (fun c hc => digit_ne_space c (h2 c hc))]
  simp only [Option.some_bind, Nat.add_sub_cancel_left, List.take_left', List.take_left]
  rw [parse_digits ds2 h2 r2]
  simp only [Option.some_bind]
  congr 3
  rw [blankHeader_append, blankHeader_blank _ _ ds1 0 (by intro i _ hi; left; omega)]
  have e1 : ' ' :: (ds2 ++ ' ' :: text) = [' '] ++ (ds2 ++ ([' '] ++ text)) := by simp
  rw [e1, blankHeader_append, blankHeader_append, blankHeader_append]
  rw [blankHeader_blank _ _ ds2 _ (by
    intro i hi1 hi2; right; simp only [List.length_singleton] at hi1 hi2; omega)]
  rw [blankHeader_keep _ _ text _ (by simp only [List.length_singleton]; omega)
    (by simp only [List.length_singleton]; omega)]
  have e2 : ∀ j, blankHeader ds1.length (ds1.length + 1 + ds2.length) j [' '] = [' '] := by
    intro j
    simp [blankHeader]
  rw [e2, e2]
  simp only [List.replicate_add, List.replicate_one, List.append_assoc]

/-- C14: on a line made of a run of digits, a space, a run of digits, a space and a text,
both runs with a value that fits an `int`, `executeQuery` parses `queryID` as the decimal
value of the first run and `querySize` as the decimal value of the second, and the tokens it
scores are the tokens of the text alone: the result is the ranked list of these tokens under
that `querySize`, paired with that `queryID`. -/
theorem executeQuery_header (nth : Nat → List (F × Int) → List (F × Int))
    (sort : List (F × Int) → List (F × Int)) (idx : InvertedIndex F)
    (ds1 ds2 text : List Char)
    (h1 : ∀ c ∈ ds1, isDigit c = true) (h2 : ∀ c ∈ ds2, isDigit c = true)
    (r1 : decimalValue ds1 ≤ 2147483647) (r2 : decimalValue ds2 ≤ 2147483647) :
    ∃ blanked, parseHeader (ds1 ++ ' ' :: (ds2 ++ ' ' :: text)) =
        some ((decimalValue ds1 : Int), (decimalValue ds2 : Int), blanked) ∧
      tokenize blanked = tokenize text ∧
      executeQuery nth sort idx (ds1 ++ ' ' :: (ds2 ++ ' ' :: text)) =
        (executeQueryTokens nth sort idx (decimalValue ds2 : Int) (tokenize text)).map
          (fun out => ((decimalValue ds1 : Int), out)) := by
  refine ⟨_, parseHeader_digits ds1 ds2 text h1 h2 r1 r2, tokenize_spaces _ _, ?_⟩
  unfold executeQuery
  rw [parseHeader_digits ds1 ds2 text h1 h2 r1 r2]
  simp only [Option.some_bind, tokenize_spaces]

/-- Witness of C14: the line `12 5 Quick fox` on the weighted demo index. -/
theorem executeQuery_header_witness :
    (∀ c ∈ "12".toList, isDigit c = true) ∧ (∀ c ∈ "5".toList, isDigit c = true) ∧
      decimalValue "12".toList = 12 ∧ decimalValue "5".toList = 5 ∧
      tokenize "Quick fox".toList = ["quick", "fox"] ∧
      ∃ blanked, parseHeader "12 5 Quick fox".toList = some (12, 5, blanked) ∧
        tokenize blanked = ["quick", "fox"] ∧
        executeQuery (fun _ xs => demoSort xs) demoSort demoWeighted "12 5 Quick fox".toList =
          (executeQueryTokens (fun _ xs => demoSort xs) demoSort demoWeighted 5
            ["quick", "fox"]).map (fun out => ((12 : Int), out)) :=
  match executeQuery_header (fun _ xs => demoSort xs) demoSort demoWeighted
    "12".toList "5".toList "Quick fox".toList (by decide) (by decide)
    (by decide) (by decide) with
  | ⟨blanked, hp, ht, he⟩ =>
    ⟨by decide, by decide, by decide, by decide, by decide, blanked, hp, ht, he⟩

/-- C15: with `querySize = 0` and at least one matching document, `executeQuery` takes the
branch `querySize < results.size()` and hands `nth_element` the position `begin() + 0 - 1`,
which lies before the result range: the selection is undefined and no ranked list is
returned, for every index and query; the line `3 0 dog` on the weighted demo index is such a
query (one matching document).  Only without a matching document is the empty list sorted and
returned. -/
theorem executeQuery_zero_querySize (nth : Nat → List (F × Int) → List (F × Int))
    (sort : List (F × Int) → List (F × Int))
    (nthQ : Nat → List (ℚ × Int) → List (ℚ × Int))
    (sortQ : List (ℚ × Int) → List (ℚ × Int)) :
    (∀ res : List (F × Int), res ≠ [] → selectTop nth sort 0 res = none) ∧
      (∀ (idx : InvertedIndex F) (tokens : List Word) (res : List (F × Int)),
        queryResults idx tokens = some res → res ≠ [] →
          executeQueryTokens nth sort idx 0 tokens = none) ∧
      selectTop nth sort 0 [] = some (sort []) ∧
      (queryResults demoWeighted (tokenize "dog".toList)).map List.length = some 1 ∧
      executeQuery nthQ sortQ demoWeighted "3 0 dog".toList = none := by
  have key : ∀ res : List (F × Int), res ≠ [] → selectTop nth sort 0 res = none := by
    intro res hres
    unfold selectTop
    have hpos : (0 : Int) < res.length := by
      have := List.length_pos.2 hres
      omega
    simp [hpos]
  refine ⟨key, ?_, ?_, by with_unfolding_all rfl, by with_unfolding_all rfl⟩
  · intro idx tokens res hq hres
    unfold executeQueryTokens
    rw [hq]
    exact key res hres
  · simp [selectTop]

theorem lastIdf_none (log2 : F → F) (N : Nat) (t : Word)
    (es : List (Word × List (DocWordData F))) (h : mapFind t es = none) :
    lastIdf log2 N t es = none := by
  induction es with
  | nil => rfl
  | cons e es ih =>
    obtain ⟨k, v⟩ := e
    simp only [mapFind] at h
    by_cases hk : k = t
    · simp [hk] at h
    · simp only [hk, if_false] at h
      simp [lastIdf, ih h, hk]

/-- A word without a dictionary entry leaves the similarities map as it is. -/
theorem simToken_unknown (idx : InvertedIndex F) (qv : List (Word × F)) (sim : List (Int × F))
    (u : Word) (h : mapFind u idx.dictionary = none) : simToken idx qv sim u = sim := by
  unfold simToken
  simp only [h]
  split_ifs <;> rfl

theorem simToken_foldl_unknown (idx : InvertedIndex F) (qv : List (Word × F))
    (us : List Word) (h : ∀ u ∈ us, mapFind u idx.dictionary = none) :
    ∀ sim, us.foldl (simToken idx qv) sim = sim := by
  induction us with
  | nil => intro sim; rfl
  | cons u us ih =>
    intro sim
    rw [List.foldl_cons, simToken_unknown idx qv sim u (h u (List.mem_cons_self _ _))]
    exact ih (fun x hx => h x (List.mem_cons_of_mem _ hx)) sim

/-- C16: on an index weighted from a shard with an empty IDF table, for a query all of whose
tokens have no dictionary entry (a query without tokens included), every weight of the query
vector is 0, the similarities map stays empty, and `executeQuery` returns the empty ranked
list for every `querySize`, also when the tokens come from a parsed query line. -/
theorem executeQuery_unknown_tokens (log2 sqrt : F → F)
    (nth : Nat → List (F × Int) → List (F × Int))
    (sort : List (F × Int) → List (F × Int)) (hsort : SortSpec sort)
    (idx0 idx : InvertedIndex F)
    (hw : calculateIDFandBuildDocMagnitudes log2 sqrt idx0 = some idx)
    (h0 : idx0.IDF = []) (tokens : List Word)
    (hunk : ∀ u ∈ tokens, known idx u = false) :
    (∀ e ∈ queryVector idx tokens, e.2 = 0) ∧ similarities idx tokens = [] ∧
      (∀ k : Int, executeQueryTokens nth sort idx k tokens = some []) ∧
      ∀ (line rest : List Char) (qid k : Int), parseHeader line = some (qid, k, rest) →
        tokenize rest = tokens → executeQuery nth sort idx line = some (qid, []) := by
  rcases weighting_some log2 sqrt idx0 idx hw with ⟨hd, _, hidf, _, _, _⟩
  have hdict : ∀ u ∈ tokens, mapFind u idx.dictionary = none := by
    intro u hu
    have := hunk u hu
    unfold known at this
    cases hm : mapFind u idx.dictionary with
    | none => rfl
    | some v => rw [hm] at this; simp at this
  have hsim : similarities idx tokens = [] := by
    unfold similarities
    exact simToken_foldl_unknown idx _ tokens hdict []
  have hsel : ∀ k : Int, selectTop nth sort k [] = some [] := by
    intro k
    unfold selectTop
    have hc : ¬ (0 ≤ k ∧ k < (([] : List (F × Int)).length : Int)) := by
      simp only [List.length_nil, Nat.cast_zero]
      omega
    rw [if_neg hc]
    have := (hsort []).1
    rw [List.perm_nil] at this
    rw [this]
  have hall : ∀ k : Int, executeQueryTokens nth sort idx k tokens = some [] := by
    intro k
    unfold executeQueryTokens queryResults
    rw [hsim]
    exact hsel k
  refine ⟨?_, hsim, hall, ?_⟩
  · intro e he
    unfold queryVector at he
    rcases List.mem_map.1 he with ⟨e0, he0, rfl⟩
    have hk : e0.1 ∈ tokens := by
      by_contra hnot
      have h1 := (queryCounts_spec tokens).1 e0.1
      rw [if_pos (List.count_eq_zero.2 hnot), mapFind_eq_none_iff] at h1
      exact h1 (List.mem_map_of_mem Prod.fst he0)
    have hnone : mapFind e0.1 idx.IDF = none := by
      rw [hidf, idfAfter_find, lastIdf_none log2 _ e0.1 idx0.dictionary
        (by rw [← hd]; exact hdict e0.1 hk), h0]
      rfl
    unfold weightEntry
    simp only [hnone]
  · intro line rest qid k hp ht
    unfold executeQuery
    rw [hp]
    simp only [Option.some_bind, ht, hall k, Option.map_some']

/-- Witness of C16: the line `3 2 zebra, cat` on the weighted demo index. -/
theorem executeQuery_unknown_tokens_witness :
    calculateIDFandBuildDocMagnitudes id id demoShard = some demoWeighted ∧
      demoShard.IDF = [] ∧ tokenize "zebra, cat".toList = ["zebra", "cat"] ∧
      (∀ u ∈ ["zebra", "cat"], known demoWeighted u = false) ∧
      (∀ e ∈ queryVector demoWeighted ["zebra", "cat"], e.2 = 0) ∧
      similarities demoWeighted ["zebra", "cat"] = [] ∧
      executeQuery (fun _ xs => demoSort xs) demoSort demoWeighted "3 2 zebra, cat".toList =
        some (3, []) :=
  match executeQuery_unknown_tokens id id (fun _ xs => demoSort xs) demoSort
    demoSort_sortSpec demoShard demoWeighted (by with_unfolding_all rfl) rfl
    ["zebra", "cat"] (by decide) with
  | ⟨hq, hs, _, hl⟩ =>
    ⟨by with_unfolding_all rfl, rfl, by decide, by decide, hq, hs,
      hl "3 2 zebra, cat".toList ("    zebra, cat".toList) 3 2 (by decide) (by decide)⟩

/-! ## Postings: frequency, positions, and one posting per document -/

theorem positionsFrom_length (w : Word) (ts : List Word) :
    ∀ i, (positionsFrom w i ts).length = ts.count w := by
  induction ts with
  | nil => intro i; rfl
  | cons t ts ih =>
    intro i
    by_cases h : t = w
    · simp [positionsFrom, h, ih]
    · have h' : (t == w) = false := by simpa using h
      simp [positionsFrom, h, ih, List.count_cons, h']

theorem positionsFrom_mem (w : Word) (ts : List Word) :
    ∀ i j, j ∈ positionsFrom w i ts ↔ i ≤ j ∧ ts.get? (j - i) = some w := by
  induction ts with
  | nil => intro i j; simp [positionsFrom]
  | cons t ts ih =>
    intro i j
    have hrec : j ∈ positionsFrom w (i + 1) ts ↔ i + 1 ≤ j ∧ ts.get? (j - (i + 1)) = some w :=
      ih (i + 1) j
    by_cases hij : j = i
    · subst hij
      by_cases h : t = w
      · simp [positionsFrom, h]
      · simp only [positionsFrom, h, if_false, hrec]
        simp [h]
    · by_cases hlt : j < i
      · by_cases h : t = w
        · simp only [positionsFrom, h, if_true, List.mem_cons, hrec]
          constructor
          · rintro (h1 | h1) <;> omega
          · rintro ⟨h1, _⟩; omega
        · simp only [positionsFrom, h, if_false, hrec]
          constructor
          · rintro ⟨h1, _⟩; omega
          · rintro ⟨h1, _⟩; omega
      · have e : j - i = (j - (i + 1)) + 1 := by omega
        have hle : i ≤ j := by omega
        have hle1 : i + 1 ≤ j := by omega
        by_cases h : t = w
        · simp only [positionsFrom, h, if_true, List.mem_cons, hrec, hij, false_or]
          rw [e, List.get?_cons_succ]
          simp [hle, hle1]
        · simp only [positionsFrom, h, if_false, hrec]
          rw [e, List.get?_cons_succ]
          simp [hle, hle1]

theorem positionsFrom_increasing (w : Word) (ts : List Word) :
    ∀ i, (positionsFrom w i ts).Pairwise (fun a b => a < b) := by
  induction ts with
  | nil => intro i; exact List.Pairwise.nil
  | cons t ts ih =>
    intro i
    by_cases h : t = w
    · simp only [positionsFrom, h, if_true, List.pairwise_cons]
      refine ⟨?_, ih (i + 1)⟩
      intro j hj
      have := ((positionsFrom_mem w ts (i + 1) j).1 hj).1
      omega
    · simp only [positionsFrom, h, if_false]
      exact ih (i + 1)

theorem absorb_postingOk (d : Int) (c : Nat) (ps : List Nat) (es : List (DocWordData F))
    (hes : ∀ p ∈ es, PostingOk p) (hc : c = ps.length) :
    ∀ p ∈ absorb d c ps es, PostingOk p := by
  unfold absorb
  by_cases h0 : c = 0
  · simp only [h0, if_true]
    exact hes
  · simp only [h0, if_false]
    have hpos : 1 ≤ c := Nat.one_le_iff_ne_zero.2 h0
    cases hl : es.getLast? with
    | none =>
      intro p hp
      simp only [List.mem_singleton] at hp
      rw [hp]
      exact ⟨hc, hpos⟩
    | some last =>
      have hlast : last ∈ es := List.mem_of_mem_getLast? (Option.mem_def.2 hl)
      have hlok := hes last hlast
      by_cases hd : last.docID = d
      · simp only [hd, if_true]
        intro p hp
        rcases List.mem_append.1 hp with hp | hp
        · exact hes p (List.dropLast_subset es hp)
        · simp only [List.mem_singleton] at hp
          rw [hp]
          refine ⟨?_, ?_⟩
          · simp only [List.length_append]
            rw [hlok.1, hc]
          · simp only
            omega
      · simp only [hd, if_false]
        intro p hp
        rcases List.mem_append.1 hp with hp | hp
        · exact hes p hp
        · simp only [List.mem_singleton] at hp
          rw [hp]
          exact ⟨hc, hpos⟩

/-- Any sequence of `addDocument` calls on an index without empty postings lists runs
through, and keeps `freq = |positions| ≥ 1` on every posting. -/
theorem ingest_postingOk (docs : List (Int × List Char)) :
    ∀ idx : InvertedIndex F, DictOk idx → (∀ w, ∀ p ∈ postingsOf idx w, PostingOk p) →
      ∃ idx', ingest idx docs = some idx' ∧ DictOk idx' ∧
        ∀ w, ∀ p ∈ postingsOf idx' w, PostingOk p := by
  induction docs with
  | nil => intro idx h1 h2; exact ⟨idx, rfl, h1, h2⟩
  | cons d docs ih =>
    intro idx h1 h2
    rcases addTokens_spec d.1 (tokenize d.2) idx 0 h1 with ⟨idx1, ha, hok1, _, _, _, hp1⟩
    have h3 : ∀ w, ∀ p ∈ postingsOf idx1 w, PostingOk p := by
      intro w
      rw [hp1 w]
      exact absorb_postingOk d.1 _ _ _ (h2 w) (positionsFrom_length w _ 0).symm
    rcases ih idx1 hok1 h3 with ⟨idx2, hb, hok2, hp2⟩
    refine ⟨idx2, ?_, hok2, hp2⟩
    simp only [ingest, addDocument, ha, Option.some_bind]
    exact hb

theorem postingsOf_new (N : Nat) (w : Word) :
    postingsOf (InvertedIndex.new N : InvertedIndex F) w = [] := rfl

/-- C19 (amended): every sequence of `addDocument` calls on a fresh shard runs through, and
afterwards every posting of the dictionary has `freq` equal to the length of `positions` and
`freq ≥ 1`.  If no two calls carry the same docID, every posting belongs to one of the
documents fed, and its `positions` are strictly increasing and hold exactly the 0-based
offsets at which the term occurs in the token sequence of that document. -/
theorem addDocument_freq_positions (N : Nat) (docs : List (Int × List Char)) :
    ∃ idx : InvertedIndex F, ingest (InvertedIndex.new N) docs = some idx ∧
      (∀ p ∈ allPostings idx.dictionary, p.freq = p.positions.length ∧ 1 ≤ p.freq) ∧
      ((docs.map Prod.fst).Nodup →
        (∀ t, ∀ p ∈ postingsOf idx t, ∃ d ∈ docs, p.docID = d.1) ∧
        ∀ d ∈ docs, ∀ t, ∀ p ∈ postingsOf idx t, p.docID = d.1 →
          p.positions.Pairwise (fun a b => a < b) ∧
          ∀ i, i ∈ p.positions ↔ (tokenize d.2).get? i = some t) := by
  rcases ingest_postingOk docs (InvertedIndex.new N : InvertedIndex F) (dictOk_new N)
    (by intro w p hp; rw [postingsOf_new] at hp; simp at hp) with ⟨idx, hi, hok, hp⟩
  refine ⟨idx, hi, ?_, ?_⟩
  · intro p hmem
    rcases (mem_allPostings_iff idx hok.1 p).1 hmem with ⟨w, hw⟩
    exact hp w p hw
  · intro nd
    rcases ingest_new (F := F) N docs nd with ⟨idx', hi', _, _, _, _, hpost⟩
    rw [hi] at hi'
    cases hi'
    constructor
    · intro t p hpt
      rw [hpost t] at hpt
      have := expectedPostings_docID docs t p hpt
      rcases List.mem_map.1 this with ⟨d, hd, hde⟩
      exact ⟨d, hd, hde.symm⟩
    · intro d hd t p hpt hdoc
      rw [hpost t] at hpt
      have hpd := ((mem_expectedPostings docs nd t d hd p).1 ⟨hpt, hdoc⟩).2
      rw [hpd]
      refine ⟨positionsFrom_increasing t _ 0, ?_⟩
      intro i
      simp only [docPosting]
      rw [positionsFrom_mem]
      simp

/-- Witness of C19 (amended) on the demo corpus: the posting of quick in document 1. -/
theorem addDocument_freq_positions_witness :
    (demoCorpus.map Prod.fst).Nodup ∧
      tokenize "Quick, quick dog".toList = ["quick", "quick", "dog"] ∧
      ∃ idx : InvertedIndex ℚ, ingest (InvertedIndex.new 2) demoCorpus = some idx ∧
        (∀ p ∈ allPostings idx.dictionary, p.freq = p.positions.length ∧ 1 ≤ p.freq) ∧
        ∀ p ∈ postingsOf idx "quick", p.docID = 1 →
          p.positions.Pairwise (fun a b => a < b) ∧
          ∀ i, i ∈ p.positions ↔ ["quick", "quick", "dog"].get? i = some "quick" :=
  match addDocument_freq_positions (F := ℚ) 2 demoCorpus with
  | ⟨idx, hi, hf, hrest⟩ =>
    ⟨by decide, by decide, idx, hi, hf,
      (hrest (by decide)).2 (1, "Quick, quick dog".toList) (by decide) "quick"⟩

/-- Counterexample to C19 as stated: two `addDocument` calls with the same docID 0, for the
lines `a b` and `b`.  Both run through; the one posting of b then has `freq = 2` and the
positions 1, 0, which are not increasing and are the offsets of b in neither line. -/
theorem addDocument_freq_positions_counterexample :
    tokenize "a b".toList = ["a", "b"] ∧ tokenize "b".toList = ["b"] ∧
      (ingest (InvertedIndex.new 1 : InvertedIndex ℚ)
          [(0, "a b".toList), (0, "b".toList)]).map (fun idx => postingsOf idx "b") =
        some [{ docID := 0, TF := 0, freq := 2, positions := [1, 0] }] ∧
      ¬ ([1, 0] : List Nat).Pairwise (fun a b => a < b) := by
  refine ⟨by decide, by decide, ?_, by decide⟩
  have h1 : tokenize "a b".toList = ["a", "b"] := by decide
  have h2 : tokenize "b".toList = ["b"] := by decide
  simp only [ingest, addDocument, h1, h2]
  with_unfolding_all rfl

/-- The docIDs of the postings of a word over documents fed in increasing docID order. -/
theorem expectedPostings_increasing (docs : List (Int × List Char))
    (hinc : (docs.map Prod.fst).Pairwise (fun a b => a < b)) (w : Word) :
    ((expectedPostings docs w : List (DocWordData F)).map (fun p => p.docID)).Pairwise
      (fun a b => a < b) := by
  have e : (expectedPostings docs w : List (DocWordData F)).map (fun p => p.docID) =
      (docs.filter (fun d => decide (w ∈ tokenize d.2))).map Prod.fst := by
    unfold expectedPostings
    rw [List.map_map]
    rfl
  rw [e]
  exact hinc.sublist ((List.filter_sublist docs).map Prod.fst)

/-- C20: if the documents of every shard are fed to `addDocument` in strictly increasing
docID order, then after every call (on every prefix of a shard's documents) the docIDs of
every term's postings list are strictly increasing, so no term has two postings with the same
docID; and when the shards own pairwise disjoint docIDs, all in `[0, N)`, the shards are
built, `joinIndex` merges them, and in the merged index no term has two postings with the
same docID. -/
theorem add_docIDs_increasing (N : Nat) (first : List (Int × List Char))
    (parts : List (List (Int × List Char)))
    (hinc : ∀ part ∈ first :: parts, (part.map Prod.fst).Pairwise (fun a b => a < b)) :
    (∀ part ∈ first :: parts, ∀ n, ∃ idx : InvertedIndex F,
        ingest (InvertedIndex.new N) (part.take n) = some idx ∧
        ∀ t, ((postingsOf idx t).map (fun p => p.docID)).Pairwise (fun a b => a < b) ∧
          ((postingsOf idx t).map (fun p => p.docID)).Nodup) ∧
      (((first ++ parts.flatten).map Prod.fst).Nodup →
        (∀ d ∈ first ++ parts.flatten, InRange N d.1) →
        ∃ (a : InvertedIndex F) (shards : List (InvertedIndex F)) (r : InvertedIndex F),
          buildShard N first = some a ∧ parts.mapM (buildShard N) = some shards ∧
          joinAll a shards = some r ∧
          ∀ t, ((postingsOf r t).map (fun p => p.docID)).Nodup) := by
  constructor
  · intro part hpart n
    have hp : ((part.take n).map Prod.fst).Pairwise (fun a b => a < b) :=
      (hinc part hpart).sublist ((List.take_sublist n part).map Prod.fst)
    rcases ingest_new (F := F) N (part.take n) (nodup_of_increasing _ hp) with
      ⟨idx, hi, _, _, _, _, hpost⟩
    refine ⟨idx, hi, fun t => ?_⟩
    rw [hpost t]
    exact ⟨expectedPostings_increasing _ hp t,
      nodup_of_increasing _ (expectedPostings_increasing _ hp t)⟩
  · intro nd hr
    have ndf : (first.map Prod.fst).Nodup :=
      nodup_of_increasing _ (hinc first (List.mem_cons_self _ _))
    have hrf : ∀ d ∈ first, InRange N d.1 := fun d hd => hr d (List.mem_append_left _ hd)
    rcases buildShard_isShardOf (F := F) N first ndf hrf with ⟨a, ha, hsa, _, _⟩
    rcases buildShards_isShardOf (F := F) N parts
      (fun part hp => nodup_of_increasing _ (hinc part (List.mem_cons_of_mem _ hp)))
      (fun part hp d hd => hr d (List.mem_append_right _ (List.mem_flatten.2 ⟨part, hp, hd⟩)))
      with ⟨shards, hsh, hfa⟩
    rcases joinAll_isShardOf N parts shards hfa first a hsa nd with ⟨r, hj, hsr, _, _⟩
    exact ⟨a, shards, r, ha, hsh, hj, (isShardOf_postings N _ r hsr nd hr).1⟩

/-- Witness of C20: two shards, one document each, `N = 2`. -/
theorem add_docIDs_increasing_witness :
    (∀ part ∈ [[((0 : Int), "the quick fox".toList)], [((1 : Int), "Quick, quick dog".toList)]],
        (part.map Prod.fst).Pairwise (fun a b => a < b)) ∧
      (∃ idx : InvertedIndex ℚ,
        ingest (InvertedIndex.new 2) [((0 : Int), "the quick fox".toList)] = some idx ∧
        ∀ t, ((postingsOf idx t).map (fun p => p.docID)).Pairwise (fun a b => a < b) ∧
          ((postingsOf idx t).map (fun p => p.docID)).Nodup) ∧
      ∃ (a : InvertedIndex ℚ) (shards : List (InvertedIndex ℚ)) (r : InvertedIndex ℚ),
        buildShard 2 [((0 : Int), "the quick fox".toList)] = some a ∧
        [[((1 : Int), "Quick, quick dog".toList)]].mapM (buildShard 2) = some shards ∧
        joinAll a shards = some r ∧
        ∀ t, ((postingsOf r t).map (fun p => p.docID)).Nodup :=
  match add_docIDs_increasing (F := ℚ) 2 [(0, "the quick fox".toList)]
    [[(1, "Quick, quick dog".toList)]] (by decide) with
  | ⟨h1, h2⟩ =>
    ⟨by decide, h1 [(0, "the quick fox".toList)] (List.mem_cons_self _ _) 1,
      h2 (by decide) (by decide)⟩

/-! ## The document source: which lines a single worker pulls -/

/-- The loop of `buildInvertedIndex` in terms of `getNextDocument`: the next document is
pulled; an empty one ends the loop, another one is passed to `addDocument` with the counter
as it stands after the pull. -/
theorem pulledDocs_step (totalDocs : Int) (input : List (List Char)) (c : Int) :
    pulledDocs totalDocs input c =
      if (getNextDocument totalDocs input c).1 = [] then []
      else ((getNextDocument totalDocs input c).2.2, (getNextDocument totalDocs input c).1) ::
        pulledDocs totalDocs (getNextDocument totalDocs input c).2.1
          (getNextDocument totalDocs input c).2.2 := by
  cases input with
  | nil =>
    unfold getNextDocument
    by_cases h : c ≥ totalDocs <;> simp [pulledDocs, h]
  | cons l rest =>
    unfold getNextDocument
    by_cases h : c ≥ totalDocs
    · simp [pulledDocs, h]
    · by_cases hl : l = []
      · simp [pulledDocs, h, hl]
      · simp [pulledDocs, h, hl]

theorem pulledDocs_from (N : Nat) (lines : List (List Char)) :
    ∀ k : Nat, pulledDocs (N : Int) lines ((k : Int) - 1) =
      (((lines.take (N + 1 - k)).takeWhile (fun l => decide (l ≠ []))).enumFrom k).map
        (fun e => ((e.1 : Int), e.2)) := by
  induction lines with
  | nil => intro k; simp [pulledDocs]
  | cons l rest ih =>
    intro k
    by_cases hk : (k : Int) - 1 ≥ (N : Int)
    · have e : N + 1 - k = 0 := by omega
      simp [pulledDocs, hk, e]
    · obtain ⟨m, hm⟩ : ∃ m, N + 1 - k = m + 1 := ⟨N - k, by omega⟩
      have hm' : N + 1 - (k + 1) = m := by omega
      have e1 : (k : Int) - 1 + 1 = ((k + 1 : Nat) : Int) - 1 := by push_cast; ring
      have e2 : (k : Int) - 1 + 1 = (k : Int) := by ring
      by_cases hl : l = []
      · simp [pulledDocs, hk, hm, hl]
      · have ih' := ih (k + 1)
        rw [hm'] at ih'
        simp only [pulledDocs, hk, if_false, hl, hm, List.take_succ_cons]
        rw [List.takeWhile_cons_of_pos (by simpa using hl)]
        simp only [List.enumFrom_cons, List.map_cons]
        rw [e1, ih']
        congr 2
        push_cast
        ring

/-- The documents a single worker indexes: the lines before the first empty one among the
first `N + 1` lines after the header, numbered from 0. -/
theorem pulledDocs_closed (N : Nat) (lines : List (List Char)) :
    pulledDocs (N : Int) lines (-1) =
      numberDocs ((lines.take (N + 1)).takeWhile (fun l => decide (l ≠ []))) := by
  have h := pulledDocs_from N lines 0
  simpa [numberDocs, List.enum] using h

theorem takeWhile_nonempty (lines : List (List Char)) (h : ∀ l ∈ lines, l ≠ []) :
    lines.takeWhile (fun l => decide (l ≠ [])) = lines := by
  rw [List.takeWhile_eq_self_iff]
  intro l hl
  simpa using h l hl

/-- C12: the guard `documentsCounter >= totalDocs` of `getNextDocument`, with the counter
started at -1, lets `N + 1` lines through.  On the stream with header 1 and the two lines `a`
and `b`, the line `b` is passed to `addDocument` with docID 1, outside `[0, 1)`; its posting
has docID 1, and `calculateDocMaxFreq` then indexes `docsMaxFreq` of length 1 at 1, out of
bounds: the build has no defined result.  In general, when more than `N` lines without an
empty one follow the header, `N + 1` lines are handed out and docID `N` is passed to
`addDocument`; when at most `N` lines follow, every docID passed lies in `[0, N)`. -/
theorem getNextDocument_off_by_one :
    pulledDocs 1 ["a".toList, "b".toList] (-1) = [(0, "a".toList), (1, "b".toList)] ∧
      ¬ InRange 1 1 ∧
      (ingest (InvertedIndex.new 1 : InvertedIndex ℚ)
          (pulledDocs 1 ["a".toList, "b".toList] (-1))).map (fun idx => postingsOf idx "b") =
        some [{ docID := 1, TF := 0, freq := 1, positions := [0] }] ∧
      (buildInvertedIndex 1 ["a".toList, "b".toList] : Option (InvertedIndex ℚ)) = none ∧
      (∀ (N : Nat) (lines : List (List Char)), (∀ l ∈ lines, l ≠ []) → N < lines.length →
        (pulledDocs (N : Int) lines (-1)).length = N + 1 ∧
        ∃ d ∈ pulledDocs (N : Int) lines (-1), d.1 = (N : Int) ∧ ¬ InRange N d.1) ∧
      ∀ (N : Nat) (lines : List (List Char)), lines.length ≤ N →
        ∀ d ∈ pulledDocs (N : Int) lines (-1), InRange N d.1 := by
  have ha : tokenize "a".toList = ["a"] := by decide
  have hb : tokenize "b".toList = ["b"] := by decide
  have hp : pulledDocs 1 ["a".toList, "b".toList] (-1) =
      [(0, "a".toList), (1, "b".toList)] := by decide
  refine ⟨hp, by decide, ?_, ?_, ?_, ?_⟩
  · rw [hp]
    simp only [ingest, addDocument, ha, hb]
    with_unfolding_all rfl
  · unfold buildInvertedIndex buildShard
    have hp' : pulledDocs ((1 : Nat) : Int) ["a".toList, "b".toList] (-1) =
      [(0, "a".toList), (1, "b".toList)] := hp
    rw [hp']
    simp only [ingest, addDocument, ha, hb]
    with_unfolding_all rfl
  · intro N lines hne hlen
    rw [pulledDocs_closed, takeWhile_nonempty _ (fun l hl => hne l (List.mem_of_mem_take hl))]
    have hl : (lines.take (N + 1)).length = N + 1 := by
      rw [List.length_take]; omega
    have hlen' : (numberDocs (lines.take (N + 1))).length = N + 1 := by
      simp only [numberDocs, List.length_map, List.enum_length, hl]
    refine ⟨hlen', ?_⟩
    have hmem : (N : Int) ∈ (numberDocs (lines.take (N + 1))).map Prod.fst := by
      rw [numberDocs_ids, hl]
      exact List.mem_map.2 ⟨N, List.mem_range.2 (Nat.lt_succ_self N), rfl⟩
    rcases List.mem_map.1 hmem with ⟨d, hd, hdN⟩
    refine ⟨d, hd, hdN, ?_⟩
    rw [hdN]
    unfold InRange
    simp
  · intro N lines hlen d hd
    rw [pulledDocs_closed] at hd
    have h := numberDocs_inRange _ d hd
    have hle : ((lines.take (N + 1)).takeWhile (fun l => decide (l ≠ []))).length ≤ N :=
      le_trans (List.takeWhile_sublist _).length_le
        (le_trans (List.take_sublist _ _).length_le hlen)
    exact ⟨h.1, lt_of_lt_of_le h.2 hle⟩

/-! ## The four-document corpus -/

theorem fourDocs_pulled :
    pulledDocs ((4 : Nat) : Int) fourDocs (-1) =
      [(0, "the quick brown fox".toList), (1, "the quick brown dog".toList),
        (2, "lazy dog sleeps".toList), (3, "QUICK QUICK quick".toList)] := by
  decide

theorem fourDocs_built : buildInvertedIndex 4 fourDocs = some (fourShard : InvertedIndex F) := by
  have h0 : tokenize "the quick brown fox".toList = ["the", "quick", "brown", "fox"] := by
    decide
  have h1 : tokenize "the quick brown dog".toList = ["the", "quick", "brown", "dog"] := by
    decide
  have h2 : tokenize "lazy dog sleeps".toList = ["lazy", "dog", "sleeps"] := by decide
  have h3 : tokenize "QUICK QUICK quick".toList = ["quick", "quick", "quick"] := by decide
  unfold buildInvertedIndex buildShard
  rw [fourDocs_pulled]
  simp only [ingest, addDocument, h0, h1, h2, h3]
  simp [addTokens, add, mapFind, mapAssign, InvertedIndex.new, freshPosting, bumpPosting,
    calculateDocMaxFreq, maxFreqStep, vecGet, vecSet, calculateTF, tfStep, fourShard,
    List.mapM.loop]

theorem fourShard_weighted (log2 sqrt : F → F) :
    calculateIDFandBuildDocMagnitudes log2 sqrt (fourShard : InvertedIndex F) =
      some (fourWeighted log2 sqrt) := by
  simp [calculateIDFandBuildDocMagnitudes, weightStep, magnitudeStep, fourShard, fourWeighted,
    mapAssign, mapFind, vecGet, vecSet]

theorem fourWeighted_similarities_quick_fox (log2 sqrt : F → F)
    (ha : idfValue log2 4 3 ≠ 0) (hf : idfValue log2 4 1 ≠ 0) :
    similarities (fourWeighted log2 sqrt) ["quick", "fox"] =
      [(0, idfValue log2 4 3 * idfValue log2 4 3 + idfValue log2 4 1 * idfValue log2 4 1),
        (1, idfValue log2 4 3 * idfValue log2 4 3),
        (3, idfValue log2 4 3 * idfValue log2 4 3)] := by
  simp [similarities, queryVector, queryCounts, countStep, weightEntry, simToken, simStep,
    fourWeighted, fourShard, mapAssign, mapFind, ha, hf]

theorem fourWeighted_similarities_quick (log2 sqrt : F → F)
    (ha : idfValue log2 4 3 ≠ 0) :
    similarities (fourWeighted log2 sqrt) ["quick"] =
      [(0, idfValue log2 4 3 * idfValue log2 4 3),
        (1, idfValue log2 4 3 * idfValue log2 4 3),
        (3, idfValue log2 4 3 * idfValue log2 4 3)] := by
  simp [similarities, queryVector, queryCounts, countStep, weightEntry, simToken, simStep,
    fourWeighted, fourShard, mapAssign, mapFind, ha]

/-- With pairwise different scores a top-`k` selection is determined: it is the first `k`
entries of the strictly descending arrangement of the results. -/
theorem topK_eq_take {res : List (F × Int)} {k : Nat} {out : List (F × Int)}
    (h : TopK res k out) (S : List (F × Int)) (hp : S.Perm res)
    (hS : S.Pairwise (fun a b => b.1 < a.1)) : out = S.take k := by
  rcases h with ⟨hsorted, hsub, hlen, htop⟩
  have hSnd : S.Nodup := hS.imp (fun {a b} hab e => by subst e; exact lt_irrefl _ hab)
  have hres_nd : res.Nodup := hp.nodup_iff.1 hSnd
  have hout_nd : out.Nodup := by
    rcases hsub with ⟨l, hl1, hl2⟩
    exact hl1.nodup_iff.1 (hl2.nodup hres_nd)
  have hinj : ∀ x ∈ S, ∀ y ∈ S, x ≠ y → x.1 ≠ y.1 := by
    have hne : S.Pairwise (fun a b => a.1 ≠ b.1) := hS.imp (fun {a b} hab => ne_of_gt hab)
    exact hne.forall (fun a b hab => hab.symm)
  have hout_res : ∀ x ∈ out, x ∈ S := fun x hx => hp.symm.subset (hsub.subset hx)
  have hout_strict : out.Pairwise (fun a b => b.1 < a.1) := by
    have hboth := hsorted.and hout_nd
    refine hboth.imp_of_mem ?_
    intro a b ha hb hab
    exact lt_of_le_of_ne hab.1 (hinj b (hout_res b hb) a (hout_res a ha) (Ne.symm hab.2))
  have hT_strict : (S.take k).Pairwise (fun a b => b.1 < a.1) :=
    hS.sublist (List.take_sublist k S)
  have hT_nd : (S.take k).Nodup := hSnd.sublist (List.take_sublist k S)
  have hT_len : (S.take k).length = out.length := by
    rw [List.length_take, hlen, hp.length_eq]
  have hperm : out.Perm (S.take k) := by
    by_cases hall : ∀ x ∈ out, x ∈ S.take k
    · exact (List.subperm_of_subset hout_nd hall).perm_of_length_le (le_of_eq hT_len)
    · push_neg at hall
      rcases hall with ⟨x, hx, hxT⟩
      have hxS : x ∈ S.take k ++ S.drop k := by
        rw [List.take_append_drop]; exact hout_res x hx
      have hxD : x ∈ S.drop k := by
        rcases List.mem_append.1 hxS with h1 | h1
        · exact absurd h1 hxT
        · exact h1
      have hsplit := hS
      rw [← List.take_append_drop k S, List.pairwise_append] at hsplit
      have hTsub : ∀ y ∈ S.take k, y ∈ out := by
        intro y hy
        by_contra hyo
        have hle := htop x hx y (hp.subset (List.mem_of_mem_take hy)) hyo
        exact absurd (hsplit.2.2 y hy x hxD) (not_lt.2 hle)
      have hp' : (S.take k).Perm out :=
        (List.subperm_of_subset hT_nd hTsub).perm_of_length_le (le_of_eq hT_len.symm)
      exact absurd (hp'.symm.subset hx) hxT
  haveI : IsAntisymm (F × Int) (fun a b => b.1 < a.1) :=
    ⟨fun a b h1 h2 => absurd h1 (lt_asymm h2)⟩
  exact List.eq_of_perm_of_sorted hperm hout_strict hT_strict

/-- The order of the scores on the four-document corpus, from the order of the IDF values:
`a`, `t`, `f` stand for the IDF of a word with 3, 2 and 1 documents, `m0`, `m1`, `m3` for the
magnitudes of D0, D1, D3. -/
theorem fourDocs_scores (a t f m0 m1 m3 : F) (ha : 0 < a) (ht : 0 < t) (htf : t < f)
    (haf : a < f) (h0 : 0 ≤ m0) (h1 : 0 ≤ m1) (h3 : 0 ≤ m3)
    (e0 : m0 * m0 = t * t + a * a + t * t + f * f)
    (e1 : m1 * m1 = t * t + a * a + t * t + t * t) (e3 : m3 * m3 = a * a) :
    a * a / m1 < a * a / m3 ∧ a * a / m3 < (a * a + f * f) / m0 ∧
      a * a / m0 < a * a / m1 := by
  have hf : 0 < f := lt_trans ht htf
  have hm3 : m3 = a := (mul_self_inj h3 ha.le).1 e3
  have haa : 0 < a * a := mul_pos ha ha
  have htt : 0 < t * t := mul_pos ht ht
  have hff : t * t < f * f := mul_self_lt_mul_self ht.le htf
  have hatf : a * t < f * f := mul_lt_mul'' haf htf ha.le ht.le
  have ham1 : a < m1 := lt_of_mul_self_lt_mul_self₀ h1 (by rw [e1]; linarith)
  have hm1 : 0 < m1 := lt_trans ha ham1
  have hm10 : m1 < m0 := lt_of_mul_self_lt_mul_self₀ h0 (by rw [e0, e1]; linarith)
  have hm0 : 0 < m0 := lt_trans hm1 hm10
  have hs3 : a * a / m3 = a := by rw [hm3]; field_simp
  refine ⟨?_, ?_, ?_⟩
  · rw [hs3, div_lt_iff₀ hm1]
    exact mul_lt_mul_of_pos_left ham1 ha
  · rw [hs3, lt_div_iff₀ hm0]
    apply lt_of_mul_self_lt_mul_self₀ (by positivity)
    have e : a * m0 * (a * m0) = a * a * (m0 * m0) := by ring
    rw [e, e0]
    have h5 : a * a * (t * t) < a * a * (f * f) := mul_lt_mul_of_pos_left hff haa
    have h6 : a * t * (a * t) < f * f * (f * f) :=
      mul_self_lt_mul_self (by positivity) hatf
    nlinarith [h5, h6]
  · exact div_lt_div_of_pos_left haa hm1 hm10

/-- The order of the IDF values of the four-document corpus. -/
theorem fourDocs_idf (log2 : F → F) (hlog : ∀ x, 1 < x → 0 < log2 x)
    (hmono : ∀ x y, 0 < x → x < y → log2 x < log2 y) :
    0 < idfValue log2 4 3 ∧ 0 < idfValue log2 4 2 ∧ idfValue log2 4 2 < idfValue log2 4 1 ∧
      idfValue log2 4 3 < idfValue log2 4 1 := by
  refine ⟨idfValue_pos log2 hlog 4 3 (by decide) (by decide),
    idfValue_pos log2 hlog 4 2 (by decide) (by decide), ?_, ?_⟩
  · unfold idfValue
    apply hmono <;> norm_num
  · unfold idfValue
    apply hmono <;> norm_num

/-- With pairwise different scores the answer to a query line is determined: the first
`querySize` entries of the strictly descending arrangement of the scored results. -/
theorem executeQuery_of_strict {nth : Nat → List (F × Int) → List (F × Int)}
    {sort : List (F × Int) → List (F × Int)} (hn : NthElementSpec nth) (hs : SortSpec sort)
    (idx : InvertedIndex F) (line rest : List Char) (qid k : Int) (tokens : List Word)
    (res S : List (F × Int)) (hparse : parseHeader line = some (qid, k, rest))
    (htok : tokenize rest = tokens) (hk : 1 ≤ k) (hres : queryResults idx tokens = some res)
    (hp : S.Perm res) (hS : S.Pairwise (fun a b => b.1 < a.1)) :
    executeQuery nth sort idx line = some (qid, S.take k.toNat) := by
  rcases selectTop_topK hn hs k hk res with ⟨out, hout, htop⟩
  unfold executeQuery executeQueryTokens
  rw [hparse]
  simp only [Option.some_bind, htok, hres, hout, Option.map_some']
  rw [topK_eq_take htop S hp hS]

/-- The scored results of a query on the weighted four-document index whose similarities are
`x0`, `x1`, `x3` for D0, D1, D3: each divided by the magnitude of its document. -/
theorem fourWeighted_results (log2 sqrt : F → F) (hsqrt0 : ∀ x, 0 ≤ sqrt x)
    (hsqrt : ∀ x, 0 ≤ x → sqrt x * sqrt x = x) :
    ∃ m0 m1 m3 : F, 0 ≤ m0 ∧ 0 ≤ m1 ∧ 0 ≤ m3 ∧
      m0 * m0 = idfValue log2 4 2 * idfValue log2 4 2 + idfValue log2 4 3 * idfValue log2 4 3 +
        idfValue log2 4 2 * idfValue log2 4 2 + idfValue log2 4 1 * idfValue log2 4 1 ∧
      m1 * m1 = idfValue log2 4 2 * idfValue log2 4 2 + idfValue log2 4 3 * idfValue log2 4 3 +
        idfValue log2 4 2 * idfValue log2 4 2 + idfValue log2 4 2 * idfValue log2 4 2 ∧
      m3 * m3 = idfValue log2 4 3 * idfValue log2 4 3 ∧
      (fourWeighted log2 sqrt).docsMagnitudes.get? 0 = some m0 ∧
      (fourWeighted log2 sqrt).docsMagnitudes.get? 1 = some m1 ∧
      (fourWeighted log2 sqrt).docsMagnitudes.get? 3 = some m3 ∧
      ∀ (tokens : List Word) (x0 x1 x3 : F),
        similarities (fourWeighted log2 sqrt) tokens = [(0, x0), (1, x1), (3, x3)] →
        queryResults (fourWeighted log2 sqrt) tokens =
          some [(x0 / m0, 0), (x1 / m1, 1), (x3 / m3, 3)] := by
  have p0 : 0 ≤ idfValue log2 4 2 * idfValue log2 4 2 +
      idfValue log2 4 3 * idfValue log2 4 3 + idfValue log2 4 2 * idfValue log2 4 2 +
      idfValue log2 4 1 * idfValue log2 4 1 :=
    add_nonneg (add_nonneg (add_nonneg (mul_self_nonneg _) (mul_self_nonneg _))
      (mul_self_nonneg _)) (mul_self_nonneg _)
  have p1 : 0 ≤ idfValue log2 4 2 * idfValue log2 4 2 +
      idfValue log2 4 3 * idfValue log2 4 3 + idfValue log2 4 2 * idfValue log2 4 2 +
      idfValue log2 4 2 * idfValue log2 4 2 :=
    add_nonneg (add_nonneg (add_nonneg (mul_self_nonneg _) (mul_self_nonneg _))
      (mul_self_nonneg _)) (mul_self_nonneg _)
  have p3 : 0 ≤ idfValue log2 4 3 * idfValue log2 4 3 := mul_self_nonneg _
  refine ⟨_, _, _, hsqrt0 _, hsqrt0 _, hsqrt0 _, hsqrt _ p0, hsqrt _ p1, hsqrt _ p3,
    rfl, rfl, rfl, ?_⟩
  intro tokens x0 x1 x3 h
  unfold queryResults
  rw [h]
  simp [fourWeighted, vecGet, List.mapM.loop]

/-- The query line `0 2 quick fox` on the weighted four-document index: D0, D1 and D3 match,
with scores `s1 < s3 < s0`, and the answer is D0, D3. -/
theorem fourWeighted_quick_fox (log2 sqrt : F → F) (hsqrt0 : ∀ x, 0 ≤ sqrt x)
    (hsqrt : ∀ x, 0 ≤ x → sqrt x * sqrt x = x) (hlog : ∀ x, 1 < x → 0 < log2 x)
    (hmono : ∀ x y, 0 < x → x < y → log2 x < log2 y)
    (nth : Nat → List (F × Int) → List (F × Int)) (sort : List (F × Int) → List (F × Int))
    (hn : NthElementSpec nth) (hs : SortSpec sort) :
    ∃ s0 s1 s3 : F,
      queryResults (fourWeighted log2 sqrt) ["quick", "fox"] =
        some [(s0, 0), (s1, 1), (s3, 3)] ∧
      executeQuery nth sort (fourWeighted log2 sqrt) "0 2 quick fox".toList =
        some (0, [(s0, 0), (s3, 3)]) ∧
      s1 < s3 ∧ s3 < s0 := by
  rcases fourDocs_idf log2 hlog hmono with ⟨ha, ht, htf, haf⟩
  have hf : 0 < idfValue log2 4 1 := lt_trans ht htf
  rcases fourWeighted_results log2 sqrt hsqrt0 hsqrt with
    ⟨m0, m1, m3, h0, h1, h3, e0, e1, e3, _, _, _, hq⟩
  have hres := hq ["quick", "fox"] _ _ _
    (fourWeighted_similarities_quick_fox log2 sqrt ha.ne' hf.ne')
  have hsc := fourDocs_scores _ _ _ m0 m1 m3 ha ht htf haf h0 h1 h3 e0 e1 e3
  generalize idfValue log2 4 3 = a at *
  generalize idfValue log2 4 1 = f at *
  refine ⟨(a * a + f * f) / m0, a * a / m1, a * a / m3, hres, ?_, hsc.1, hsc.2.1⟩
  exact executeQuery_of_strict hn hs _ _ "    quick fox".toList 0 2 ["quick", "fox"] _
    [((a * a + f * f) / m0, 0), (a * a / m3, 3), (a * a / m1, 1)] (by decide) (by decide)
    (by decide) hres ((List.Perm.swap _ _ _).cons _) (by
      simp only [List.pairwise_cons, List.mem_cons, List.mem_singleton, List.not_mem_nil,
        forall_eq_or_imp, forall_eq, IsEmpty.forall_iff, implies_true, List.Pairwise.nil,
        and_true]
      exact ⟨⟨hsc.2.1, lt_trans hsc.1 hsc.2.1⟩, hsc.1⟩)

/-- The query line `4 10 quick` on the weighted four-document index: D0, D1 and D3 match,
with scores `s0 < s1 < s3`, and the answer is D3, D1, D0. -/
theorem fourWeighted_quick (log2 sqrt : F → F) (hsqrt0 : ∀ x, 0 ≤ sqrt x)
    (hsqrt : ∀ x, 0 ≤ x → sqrt x * sqrt x = x) (hlog : ∀ x, 1 < x → 0 < log2 x)
    (hmono : ∀ x y, 0 < x → x < y → log2 x < log2 y)
    (nth : Nat → List (F × Int) → List (F × Int)) (sort : List (F × Int) → List (F × Int))
    (hn : NthElementSpec nth) (hs : SortSpec sort) :
    ∃ s0 s1 s3 : F,
      queryResults (fourWeighted log2 sqrt) ["quick"] = some [(s0, 0), (s1, 1), (s3, 3)] ∧
      executeQuery nth sort (fourWeighted log2 sqrt) "4 10 quick".toList =
        some (4, [(s3, 3), (s1, 1), (s0, 0)]) ∧
      s0 < s1 ∧ s1 < s3 := by
  rcases fourDocs_idf log2 hlog hmono with ⟨ha, ht, htf, haf⟩
  rcases fourWeighted_results log2 sqrt hsqrt0 hsqrt with
    ⟨m0, m1, m3, h0, h1, h3, e0, e1, e3, _, _, _, hq⟩
  have hres := hq ["quick"] _ _ _ (fourWeighted_similarities_quick log2 sqrt ha.ne')
  have hsc := fourDocs_scores _ _ _ m0 m1 m3 ha ht htf haf h0 h1 h3 e0 e1 e3
  generalize idfValue log2 4 3 = a at *
  generalize idfValue log2 4 1 = f at *
  refine ⟨a * a / m0, a * a / m1, a * a / m3, hres, ?_, hsc.2.2, hsc.1⟩
  exact executeQuery_of_strict hn hs _ _ "     quick".toList 4 10 ["quick"] _
    [(a * a / m3, 3), (a * a / m1, 1), (a * a / m0, 0)] (by decide) (by decide)
    (by decide) hres
    (((List.Perm.swap _ _ _).cons _).trans ((List.Perm.swap _ _ _).trans
      ((List.Perm.swap _ _ _).cons _)))
    (by
      simp only [List.pairwise_cons, List.mem_cons, List.mem_singleton, List.not_mem_nil,
        forall_eq_or_imp, forall_eq, IsEmpty.forall_iff, implies_true, List.Pairwise.nil,
        and_true]
      exact ⟨⟨hsc.1, lt_trans hsc.2.2 hsc.1⟩, hsc.2.2⟩)

/-- The single-worker build of the four-document corpus followed by the weighting pass. -/
theorem fourDocs_pipeline (log2 sqrt : F → F) :
    (buildInvertedIndex 4 fourDocs).bind (calculateIDFandBuildDocMagnitudes log2 sqrt) =
      some (fourWeighted log2 sqrt) := by
  rw [fourDocs_built, Option.some_bind, fourShard_weighted]

/-- The tf of quick in D0, D1 and D3, as the weighted four-document index holds it. -/
theorem fourWeighted_tf_quick (log2 sqrt : F → F) :
    tfOf (fourWeighted log2 sqrt) "quick" 0 = 1 ∧ tfOf (fourWeighted log2 sqrt) "quick" 1 = 1 ∧
      tfOf (fourWeighted log2 sqrt) "quick" 3 = 1 := by
  refine ⟨?_, ?_, ?_⟩ <;>
    simp [tfOf, postingsOf, fourWeighted, fourShard, mapFind, List.filter]

/-- C17: on the four-document corpus with `N = 4`, over the real numbers with the logarithm
to base 2 and the real square root, a single-worker build and the weighting pass give the
index `fourWeighted`, with `docsMaxFreq = [1, 1, 1, 3]`.  On it the query line
`0 2 quick fox` has the matching documents D0, D1 and D3 (not D2), D1 scores strictly below
D3 and D3 strictly below D0, and with any conforming `nth_element` and `sort` the answer is
the list of length 2 with D0 first and D3 second. -/
theorem fourDocs_query_quick_fox (nth : Nat → List (ℝ × Int) → List (ℝ × Int))
    (sort : List (ℝ × Int) → List (ℝ × Int)) (hn : NthElementSpec nth) (hs : SortSpec sort) :
    (buildInvertedIndex 4 fourDocs).bind
        (calculateIDFandBuildDocMagnitudes (Real.logb 2) Real.sqrt) =
        some (fourWeighted (Real.logb 2) Real.sqrt) ∧
      (fourWeighted (Real.logb 2) Real.sqrt).docsMaxFreq = [1, 1, 1, 3] ∧
      ∃ s0 s1 s3 : ℝ,
        queryResults (fourWeighted (Real.logb 2) Real.sqrt) ["quick", "fox"] =
          some [(s0, 0), (s1, 1), (s3, 3)] ∧
        executeQuery nth sort (fourWeighted (Real.logb 2) Real.sqrt) "0 2 quick fox".toList =
          some (0, [(s0, 0), (s3, 3)]) ∧
        s1 < s3 ∧ s3 < s0 :=
  ⟨fourDocs_pipeline _ _, rfl,
    fourWeighted_quick_fox (Real.logb 2) Real.sqrt Real.sqrt_nonneg
      (fun _ hx => Real.mul_self_sqrt hx) (fun _ hx => Real.logb_pos (by norm_num) hx)
      (fun _ _ hx hxy => Real.logb_lt_logb (by norm_num) hx hxy) nth sort hn hs⟩

/-- Witness of C17: insertion sort as `sort` and as `nth_element`. -/
theorem fourDocs_query_quick_fox_witness :
    NthElementSpec (fun (_ : Nat) (xs : List (ℝ × Int)) => demoSort xs) ∧
      SortSpec (demoSort : List (ℝ × Int) → List (ℝ × Int)) ∧
      ∃ s0 s3 : ℝ,
        executeQuery (fun _ xs => demoSort xs) demoSort
            (fourWeighted (Real.logb 2) Real.sqrt) "0 2 quick fox".toList =
          some (0, [(s0, 0), (s3, 3)]) ∧ s3 < s0 :=
  match fourDocs_query_quick_fox (fun _ xs => demoSort xs) demoSort demoSort_nthElementSpec
    demoSort_sortSpec with
  | ⟨_, _, s0, _, s3, _, he, _, h30⟩ =>
    ⟨demoSort_nthElementSpec, demoSort_sortSpec, s0, s3, he, h30⟩

/-- C18 (amended): on the four-document corpus with `N = 4`, over the real numbers with the
logarithm to base 2 and the real square root, the tf of quick is 1 in D3, in D0 and in D1
(`freq / docsMaxFreq`, with `docsMaxFreq = [1, 1, 1, 3]`); on the query line `4 10 quick` the
scores satisfy D0 < D1 < D3, and with any conforming `nth_element` and `sort` the answer is
exactly D3, D1, D0 in that order. -/
theorem fourDocs_query_quick (nth : Nat → List (ℝ × Int) → List (ℝ × Int))
    (sort : List (ℝ × Int) → List (ℝ × Int)) (hn : NthElementSpec nth) (hs : SortSpec sort) :
    (buildInvertedIndex 4 fourDocs).bind
        (calculateIDFandBuildDocMagnitudes (Real.logb 2) Real.sqrt) =
        some (fourWeighted (Real.logb 2) Real.sqrt) ∧
      (fourWeighted (Real.logb 2) Real.sqrt).docsMaxFreq = [1, 1, 1, 3] ∧
      tfOf (fourWeighted (Real.logb 2) Real.sqrt) "quick" 3 = 1 ∧
      tfOf (fourWeighted (Real.logb 2) Real.sqrt) "quick" 0 = 1 ∧
      tfOf (fourWeighted (Real.logb 2) Real.sqrt) "quick" 1 = 1 ∧
      ∃ s0 s1 s3 : ℝ,
        queryResults (fourWeighted (Real.logb 2) Real.sqrt) ["quick"] =
          some [(s0, 0), (s1, 1), (s3, 3)] ∧
        executeQuery nth sort (fourWeighted (Real.logb 2) Real.sqrt) "4 10 quick".toList =
          some (4, [(s3, 3), (s1, 1), (s0, 0)]) ∧
        s0 < s1 ∧ s1 < s3 :=
  ⟨fourDocs_pipeline _ _, rfl, (fourWeighted_tf_quick _ _).2.2, (fourWeighted_tf_quick _ _).1,
    (fourWeighted_tf_quick _ _).2.1,
    fourWeighted_quick (Real.logb 2) Real.sqrt Real.sqrt_nonneg
      (fun _ hx => Real.mul_self_sqrt hx) (fun _ hx => Real.logb_pos (by norm_num) hx)
      (fun _ _ hx hxy => Real.logb_lt_logb (by norm_num) hx hxy) nth sort hn hs⟩

/-- Witness of C18 (amended): insertion sort as `sort` and as `nth_element`. -/
theorem fourDocs_query_quick_witness :
    NthElementSpec (fun (_ : Nat) (xs : List (ℝ × Int)) => demoSort xs) ∧
      SortSpec (demoSort : List (ℝ × Int) → List (ℝ × Int)) ∧
      ∃ s0 s1 s3 : ℝ,
        executeQuery (fun _ xs => demoSort xs) demoSort
            (fourWeighted (Real.logb 2) Real.sqrt) "4 10 quick".toList =
          some (4, [(s3, 3), (s1, 1), (s0, 0)]) ∧ s0 < s1 ∧ s1 < s3 :=
  match fourDocs_query_quick (fun _ xs => demoSort xs) demoSort demoSort_nthElementSpec
    demoSort_sortSpec with
  | ⟨_, _, _, _, _, s0, s1, s3, _, he, h01, h13⟩ =>
    ⟨demoSort_nthElementSpec, demoSort_sortSpec, s0, s1, s3, he, h01, h13⟩

/-- Counterexample to C18 as stated, over the real numbers with the logarithm to base 2 and
the real square root: on the weighted four-document index the tf of quick in D0 and in D1 is
not 0.25, the scores of D0 and D1 for the query quick differ, and with insertion sort as the
library the docIDs answered to `4 10 quick` are 3, 1, 0 and not 3, 0, 1. -/
theorem fourDocs_query_quick_counterexample :
    tfOf (fourWeighted (Real.logb 2) Real.sqrt) "quick" 0 ≠ 1 / 4 ∧
      tfOf (fourWeighted (Real.logb 2) Real.sqrt) "quick" 1 ≠ 1 / 4 ∧
      (∃ s0 s1 s3 : ℝ,
        queryResults (fourWeighted (Real.logb 2) Real.sqrt) ["quick"] =
          some [(s0, 0), (s1, 1), (s3, 3)] ∧ s0 ≠ s1) ∧
      (executeQuery (fun _ xs => demoSort xs) demoSort
          (fourWeighted (Real.logb 2) Real.sqrt) "4 10 quick".toList).map
        (fun r => r.2.map Prod.snd) = some [3, 1, 0] ∧
      ([3, 1, 0] : List Int) ≠ [3, 0, 1] := by
  rcases fourWeighted_quick (Real.logb 2) Real.sqrt Real.sqrt_nonneg
      (fun _ hx => Real.mul_self_sqrt hx) (fun _ hx => Real.logb_pos (by norm_num) hx)
      (fun _ _ hx hxy => Real.logb_lt_logb (by norm_num) hx hxy) (fun _ xs => demoSort xs)
      demoSort demoSort_nthElementSpec demoSort_sortSpec with ⟨s0, s1, s3, hq, he, h01, _⟩
  refine ⟨?_, ?_, ⟨s0, s1, s3, hq, ne_of_lt h01⟩, ?_, by decide⟩
  · rw [(fourWeighted_tf_quick _ _).1]; norm_num
  · rw [(fourWeighted_tf_quick _ _).2.1]; norm_num
  · rw [he]; rfl

/-! ## The document source: empty lines -/

/-- When exactly `N` lines follow the header, a single worker indexes the lines before the
first empty one, numbered from 0. -/
theorem pulledDocs_exact (lines : List (List Char)) :
    pulledDocs (lines.length : Int) lines (-1) =
      numberDocs (lines.takeWhile (fun l => decide (l ≠ []))) := by
  rw [pulledDocs_closed, List.take_of_length_le (Nat.le_succ _)]

theorem takeWhile_length_le {α : Type} (p : α → Bool) (l : List α) :
    ∀ (i : Nat) (x : α), l.get? i = some x → p x = false → (l.takeWhile p).length ≤ i := by
  induction l with
  | nil => intro i x h; simp at h
  | cons a l ih =>
    intro i x h hp
    cases i with
    | zero =>
      simp only [List.get?_cons_zero, Option.some.injEq] at h
      subst h
      simp [List.takeWhile, hp]
    | succ i =>
      rw [List.get?_cons_succ] at h
      by_cases ha : p a = true
      · rw [List.takeWhile_cons_of_pos ha, List.length_cons]
        exact Nat.succ_le_succ (ih i x h hp)
      · rw [List.takeWhile_cons_of_neg ha]
        simp

theorem mem_numberDocs (corpus : List (List Char)) (i : Nat) (h : i < corpus.length) :
    ((i : Int), corpus.get ⟨i, h⟩) ∈ numberDocs corpus := by
  unfold numberDocs
  refine List.mem_map.2 ⟨(i, corpus.get ⟨i, h⟩), ?_, rfl⟩
  rw [List.mk_mem_enum_iff_getElem?]
  exact List.getElem?_eq_getElem h

/-- C21: the loop of `buildInvertedIndex` ends at the first empty `document`, and
`getNextDocument` returns an empty line of the input as such, so an empty line among the `N`
lines ends the worker before the source is exhausted.  On the stream with header 3 and the
lines `a`, the empty line, `b`: the second pull returns the empty line, `addDocument` is
called for `a` with docID 0 only, and the built shard has no posting for the token b of line
2.  In general, when exactly `N` lines follow the header, the lines passed to `addDocument`
are those before the first empty one (numbered from 0), so line `i` being empty leaves every
line from `i` on unindexed; when no line is empty, line `i` is passed with docID `i` for
every `i` in `[0, N)`, the build succeeds, and every token of line `i` has a posting with
docID `i` holding its number of occurrences in the line. -/
theorem buildInvertedIndex_empty_line :
    getNextDocument 3 [[], "b".toList] 0 = ([], ["b".toList], 1) ∧
      pulledDocs 3 ["a".toList, [], "b".toList] (-1) = [(0, "a".toList)] ∧
      tokenize "b".toList = ["b"] ∧
      (buildInvertedIndex 3 ["a".toList, [], "b".toList] : Option (InvertedIndex ℚ)).map
          (fun s => (postingsOf s "a", postingsOf s "b")) =
        some ([{ docID := 0, TF := 1, freq := 1, positions := [0] }], []) ∧
      (∀ lines : List (List Char), pulledDocs (lines.length : Int) lines (-1) =
        numberDocs (lines.takeWhile (fun l => decide (l ≠ [])))) ∧
      (∀ (lines : List (List Char)) (i : Nat), lines.get? i = some [] →
        (pulledDocs (lines.length : Int) lines (-1)).length ≤ i ∧
        ∀ d ∈ pulledDocs (lines.length : Int) lines (-1), d.1 < (i : Int)) ∧
      ∀ lines : List (List Char), (∀ l ∈ lines, l ≠ []) →
        pulledDocs (lines.length : Int) lines (-1) = numberDocs lines ∧
        ∃ s : InvertedIndex F, buildInvertedIndex lines.length lines = some s ∧
          ∀ (i : Nat) (h : i < lines.length), ∀ t ∈ tokenize (lines.get ⟨i, h⟩),
            ∃ p ∈ postingsOf s t, p.docID = (i : Int) ∧
              p.freq = (tokenize (lines.get ⟨i, h⟩)).count t := by
  have ha : tokenize "a".toList = ["a"] := by decide
  have hp : pulledDocs 3 ["a".toList, [], "b".toList] (-1) = [(0, "a".toList)] := by decide
  refine ⟨by decide, hp, by decide, ?_, pulledDocs_exact, ?_, ?_⟩
  · unfold buildInvertedIndex buildShard
    have hp' : pulledDocs ((3 : Nat) : Int) ["a".toList, [], "b".toList] (-1) =
        [(0, "a".toList)] := hp
    rw [hp']
    simp only [ingest, addDocument, ha]
    with_unfolding_all rfl
  · intro lines i hi
    have hlen : (lines.takeWhile (fun l => decide (l ≠ []))).length ≤ i :=
      takeWhile_length_le _ lines i [] hi (by simp)
    rw [pulledDocs_exact]
    refine ⟨by simpa [numberDocs] using hlen, ?_⟩
    intro d hd
    have h := numberDocs_inRange _ d hd
    have h2 : d.1.toNat < i := lt_of_lt_of_le h.2 hlen
    have h1 := h.1
    omega
  · intro lines hne
    have hpd : pulledDocs (lines.length : Int) lines (-1) = numberDocs lines := by
      rw [pulledDocs_exact, takeWhile_nonempty lines hne]
    refine ⟨hpd, ?_⟩
    rcases buildShard_spec (F := F) lines.length (numberDocs lines)
      (nodup_of_increasing _ (numberDocs_increasing lines)) (numberDocs_inRange lines) with
      ⟨s, hs, _, _, _, _, _, hpost⟩
    refine ⟨s, ?_, ?_⟩
    · unfold buildInvertedIndex
      rw [hpd]
      exact hs
    · intro i h t ht
      refine ⟨finalPosting (i : Int) (tokenize (lines.get ⟨i, h⟩)) t, ?_, rfl, rfl⟩
      rw [hpost t]
      unfold shardPostings
      exact List.mem_map.2 ⟨((i : Int), lines.get ⟨i, h⟩),
        List.mem_filter.2 ⟨mem_numberDocs lines i h, by simpa using ht⟩, rfl⟩

end IREngine
